import Mathlib

/-!
# Verification development for the kero runtime and its example server

Shallow embedding of
* `src/kero/engine/runner.cc` (`Runner::Run`),
* `src/kero/engine/signal_service.cc` (`SignalService`),
* `src/kero/middleware/io_event_loop_service.cc` (`IoEventLoopService`),
* `examples/rock_paper_scissors_lizard_spock/server.cc` (`main`, `Run`),
* `src/kero/core/utils.h` (`ParseNumberString`),
* `src/core/tiny_json.cc` (`TinyJson`, `TinyJsonParser`, `TinyJsonStringBuilder`; namespace
  `core`).

Calls into the operating system and into parts of the repository that are not
modelled (service map, actor system, logging) are answered by an explicit
`World` record, and every call the code makes is written to a trace, so that
statements about "which calls happen, in which order" are statements about
lists.
-/

namespace kero

/-! ## Core data: FlatJson, Error, Result -/

/-- Scalar stored in a `FlatJson`. `f64` carries the integer it was converted
from (the code only ever stores `static_cast<double>(fd)`). -/
inductive Scalar where
  | null : Scalar
  | bool (b : Bool) : Scalar
  | i32 (i : Int) : Scalar
  | u64 (n : Nat) : Scalar
  | f64 (i : Int) : Scalar
  | str (s : String) : Scalar
deriving DecidableEq, Repr

/-- Ordered key to scalar map of `kero/core/flat_json.h`. -/
abbrev FlatJson := List (String × Scalar)

/-- Modelled from the spec: `FlatJson::Set` (flat_json.cc is not among the
sources): last writer wins, the order of distinct keys is preserved. -/
def FlatJson.Set (j : FlatJson) (k : String) (v : Scalar) : FlatJson :=
  if j.any (fun p => p.1 == k) then j.map (fun p => if p.1 == k then (k, v) else p)
  else j ++ [(k, v)]

/-- The `Error` of `kero/core/error.h`: code, details and the chain of owned
causes, nearest first (the singly linked `cause` chain, flattened to the code
and details of each link). The source location is read by no function embedded
here and is left out. -/
structure Error where
  code : Int
  details : FlatJson
  causes : List (Int × FlatJson)
deriving DecidableEq, Repr

/-- `Error::kFailed` of `kero/core/error.h`. -/
def Error.kFailed : Int := 1

/-- `Error::kPropagated` of `kero/core/error.h`. -/
def Error.kPropagated : Int := 2

/-- `Error::From(code)`. -/
def Error.FromCode (code : Int) : Error := ⟨code, [], []⟩

/-- `Error::From(code, details)`. -/
def Error.FromCodeDetails (code : Int) (details : FlatJson) : Error := ⟨code, details, []⟩

/-- `Error::From(details)`: error.cc is not among the sources; the code of an
error built from details alone is taken to be `kFailed`. -/
def Error.FromDetails (details : FlatJson) : Error := ⟨Error.kFailed, details, []⟩

/-- Modelled from the spec: `Error::From(cause)` (error.cc is not among the
sources): a `Propagated` wrapper carrying the cause at the head of its chain. -/
def Error.FromCause (cause : Error) : Error :=
  ⟨Error.kPropagated, [], (cause.code, cause.details) :: cause.causes⟩

/-- `Result<T>` of `kero/core/result.h`: a value or an `Error`. -/
abbrev Result (α : Type) := Except Error α

/-- Equality of results is decidable, so that concrete runs can be evaluated. -/
instance Result.instDecidableEq {α : Type} [DecidableEq α] : DecidableEq (Result α)
  | .ok a, .ok b => if h : a = b then isTrue (by rw [h]) else isFalse (fun c => h (Except.ok.inj c))
  | .error a, .error b =>
    if h : a = b then isTrue (by rw [h]) else isFalse (fun c => h (Except.error.inj c))
  | .ok _, .error _ => isFalse (fun c => Except.noConfusion c)
  | .error _, .ok _ => isFalse (fun c => Except.noConfusion c)

/-- `Result::IsOk`. -/
def Result.IsOk {α : Type} : Result α → Bool
  | .ok _ => true
  | .error _ => false

/-- `Result::IsErr`. -/
def Result.IsErr {α : Type} : Result α → Bool
  | .ok _ => false
  | .error _ => true

/-- `OkVoid()` of `kero/core/utils.h`. -/
def OkVoid : Result Unit := .ok ()

/-! ## Runner::Run (src/kero/engine/runner.cc) -/

/-- What the runner's surroundings answer during one execution of `Run`.
`flagAt i` is the value of the process-global `interrupted_` flag that the
read of loop iteration `i` returns; `updateResult i` is what `InvokeUpdate`
returns in iteration `i`. -/
structure RunnerWorld where
  createResult : Result Unit
  hasSignalService : Bool
  flagAt : Nat → Bool
  updateResult : Nat → Result Unit

/-- Calls made by `Runner::Run`, in program order. -/
inductive RunnerCall where
  | InvokeCreate : RunnerCall
  | GetSignalService : RunnerCall
  | IsInterrupted : RunnerCall
  | InvokeUpdate : RunnerCall
  | LogUpdateFailed (e : Error) : RunnerCall
  | InvokeDestroy : RunnerCall
deriving DecidableEq, Repr

/-- State at the head of the `while (!is_interrupted)` loop. -/
structure LoopState where
  iter : Nat
  is_interrupted : Bool
  calls : List RunnerCall
deriving DecidableEq, Repr

/-- One pass through the body of the `while` loop of `Runner::Run`
(lines 28-34). -/
def Runner.loopBody (w : RunnerWorld) (s : LoopState) : LoopState :=
  let afterQuery : Bool × List RunnerCall :=
    if w.hasSignalService then (w.flagAt s.iter, s.calls ++ [RunnerCall.IsInterrupted])
    else (s.is_interrupted, s.calls)
  let afterUpdate : List RunnerCall :=
    match w.updateResult s.iter with
    | .error e => afterQuery.2 ++ [RunnerCall.InvokeUpdate, RunnerCall.LogUpdateFailed e]
    | .ok _ => afterQuery.2 ++ [RunnerCall.InvokeUpdate]
  { iter := s.iter + 1, is_interrupted := afterQuery.1, calls := afterUpdate }

/-- The `while (!is_interrupted)` loop, run for at most `fuel` passes. The
Boolean says whether the loop was left (`true`) or the passes ran out with the
condition still holding (`false`). -/
def Runner.loop (w : RunnerWorld) : Nat → LoopState → Bool × LoopState
  | 0, s => (s.is_interrupted, s)
  | fuel + 1, s =>
    if s.is_interrupted then (true, s)
    else Runner.loop w fuel (Runner.loopBody w s)

/-- Outcome of `Runner::Run`: the calls made so far and, when `Run` has
returned, its result (`none`: still inside the loop after `fuel` passes). -/
structure RunOutcome where
  calls : List RunnerCall
  result : Option (Result Unit)
deriving DecidableEq, Repr

/-- `Runner::Run`. `kInterrupted` is the error code of that name, declared in
`kero/engine/common.h`, which is not among the sources. -/
def Runner.Run (kInterrupted : Int) (w : RunnerWorld) (fuel : Nat) : RunOutcome :=
  match w.createResult with
  | .error e => { calls := [RunnerCall.InvokeCreate], result := some (.error e) }
  | .ok _ =>
    let start : LoopState :=
      { iter := 0, is_interrupted := false,
        calls := [RunnerCall.InvokeCreate, RunnerCall.GetSignalService] }
    match Runner.loop w fuel start with
    | (false, s) => { calls := s.calls, result := none }
    | (true, s) =>
      { calls := s.calls ++ [RunnerCall.InvokeDestroy],
        result := some (if s.is_interrupted then .error (Error.FromCode kInterrupted) else OkVoid) }

/-- Number of `InvokeUpdate` calls in a trace. -/
def updateCount (calls : List RunnerCall) : Nat := calls.count RunnerCall.InvokeUpdate

/-- Number of `InvokeDestroy` calls in a trace. -/
def destroyCount (calls : List RunnerCall) : Nat := calls.count RunnerCall.InvokeDestroy

/-- Calls that the body of the update loop can make. -/
def RunnerCall.isLoopCall : RunnerCall → Bool
  | .IsInterrupted => true
  | .InvokeUpdate => true
  | .LogUpdateFailed _ => true
  | _ => false

/-- Whether a call is the log line written for a failed update. -/
def RunnerCall.isLog : RunnerCall → Bool
  | .LogUpdateFailed _ => true
  | _ => false

/-! ## SignalService (src/kero/engine/signal_service.cc) -/

/-- `SIGINT` of `<signal.h>` on Linux. -/
def SIGINT : Int := 2

/-- Modelled from the spec: `EventShutdown::kEvent` (declared in
`kero/engine/common.h`, not among the sources); the mail schema names the
event `shutdown`. -/
def EventShutdown.kEvent : String := "shutdown"

/-- Things `SignalService` does to its surroundings. -/
inductive SignalEffect where
  | InstallHandler : SignalEffect
  | ResetHandler : SignalEffect
  | BroadcastMail (event : String) (body : FlatJson) : SignalEffect
  | Log (message : String) : SignalEffect
deriving DecidableEq, Repr

/-- The static `std::atomic<bool> interrupted_`. -/
structure SignalState where
  interrupted_ : Bool
deriving DecidableEq, Repr

/-- `SignalService::OnCreate`; `signalFails` says whether `signal()` returned
`SIG_ERR`, `errnoJson` is `Errno::FromErrno().IntoFlatJson()`. -/
def SignalService.OnCreate (_s : SignalState) (signalFails : Bool) (errnoJson : FlatJson) :
    SignalState × List SignalEffect × Result Unit :=
  if signalFails then
    ({ interrupted_ := false }, [SignalEffect.InstallHandler], .error (Error.FromDetails errnoJson))
  else ({ interrupted_ := false }, [SignalEffect.InstallHandler], OkVoid)

/-- `SignalService::OnDestroy`. -/
def SignalService.OnDestroy (s : SignalState) (signalFails : Bool) :
    SignalState × List SignalEffect :=
  if signalFails then
    (s, [SignalEffect.ResetHandler, SignalEffect.Log "Failed to reset signal handler"])
  else (s, [SignalEffect.ResetHandler])

/-- `SignalService::OnUpdate`. -/
def SignalService.OnUpdate (s : SignalState) : SignalState × List SignalEffect :=
  if !s.interrupted_ then (s, [])
  else (s, [SignalEffect.BroadcastMail EventShutdown.kEvent []])

/-- `SignalService::IsInterrupted`. -/
def SignalService.IsInterrupted (s : SignalState) : Bool := s.interrupted_

/-- `SignalService::OnSignal`. -/
def SignalService.OnSignal (s : SignalState) (signal : Int) : SignalState × List SignalEffect :=
  let s1 : SignalState := if signal == SIGINT then { interrupted_ := true } else s
  (s1, [SignalEffect.Log "Signal received"])

/-- `n` consecutive `OnUpdate` calls; the effects of all of them in order. -/
def SignalService.updates : Nat → SignalState → SignalState × List SignalEffect
  | 0, s => (s, [])
  | n + 1, s =>
    let r := SignalService.OnUpdate s
    let rest := SignalService.updates n r.1
    (rest.1, r.2 ++ rest.2)

/-- Number of shutdown broadcasts among the effects. -/
def shutdownBroadcasts (effects : List SignalEffect) : Nat :=
  effects.count (SignalEffect.BroadcastMail EventShutdown.kEvent [])

/-! ## IoEventLoopService (src/kero/middleware/io_event_loop_service.cc) -/

/-- `EPOLLIN` of `<sys/epoll.h>`. -/
def EPOLLIN : Nat := 1

/-- `EPOLLOUT` of `<sys/epoll.h>`. -/
def EPOLLOUT : Nat := 4

/-- `EPOLLERR` of `<sys/epoll.h>`. -/
def EPOLLERR : Nat := 8

/-- `EPOLLHUP` of `<sys/epoll.h>`. -/
def EPOLLHUP : Nat := 16

/-- `EPOLLET` of `<sys/epoll.h>`. -/
def EPOLLET : Nat := 2147483648

/-- `EINTR` of `<errno.h>` on Linux. -/
def EINTR : Int := 4

/-- `EAGAIN` of `<errno.h>` on Linux. -/
def EAGAIN : Int := 11

/-- `EWOULDBLOCK` of `<errno.h>` on Linux (the same number as `EAGAIN`). -/
def EWOULDBLOCK : Int := 11

/-- Modelled from the spec: `EventSocketError::kEvent` (the event constants are
declared in `kero/middleware/common.h`, not among the sources). -/
def EventSocketError.kEvent : String := "socket_error"

/-- Modelled from the spec: `EventSocketError::kSocketId`. -/
def EventSocketError.kSocketId : String := "socket_id"

/-- Modelled from the spec: `EventSocketError::kErrorCode`. -/
def EventSocketError.kErrorCode : String := "error_code"

/-- Modelled from the spec: `EventSocketError::kErrorDescription`. -/
def EventSocketError.kErrorDescription : String := "error_description"

/-- Modelled from the spec: `EventSocketClose::kEvent`. -/
def EventSocketClose.kEvent : String := "socket_close"

/-- Modelled from the spec: `EventSocketClose::kSocketId`. -/
def EventSocketClose.kSocketId : String := "socket_id"

/-- Modelled from the spec: `EventSocketRead::kEvent`. -/
def EventSocketRead.kEvent : String := "socket_read"

/-- Modelled from the spec: `EventSocketRead::kSocketId`. -/
def EventSocketRead.kSocketId : String := "socket_id"

/-- Modelled from the spec: the name the event table gives to the event of
`EPOLLOUT`. No constant of the sources carries it. -/
def EventSocketWrite.kEvent : String := "socket_write"

/-- A `struct epoll_event`: the `events` mask (a `u32`) and `data.fd`. -/
structure EpollEvent where
  events : Nat
  fd : Int
deriving DecidableEq, Repr

/-- `static_cast<u64>(fd)` for an `int` descriptor. -/
def castU64 (fd : Int) : Nat := (fd % 18446744073709551616).toNat

/-- Things `IoEventLoopService` does to its surroundings. -/
inductive IoEffect where
  | EpollWait (timeout : Int) : IoEffect
  | GetSockOpt (fd : Int) : IoEffect
  | InvokeEvent (event : String) (payload : FlatJson) : IoEffect
  | Close (fd : Int) : IoEffect
  | Recv (fd : Int) : IoEffect
  | Log (message : String) : IoEffect
deriving DecidableEq, Repr

/-- What the surroundings answer to `IoEventLoopService`.
`getsockopt fd` is `Except errno SO_ERROR`; `errnoJson` is
`Errno::FromErrno().IntoFlatJson()`; `truthy` is the contextual conversion of a
`Result` to `bool` used by the `if (auto res = InvokeEvent(...))` of lines 132
and 146 (`result.h` declares no such conversion). Of the block guarded by that
test only the log line is recorded; what its `res.TakeErr()` does when `res`
holds no error lies outside the model. -/
structure IoWorld where
  getsockopt : Int → Except Int Int
  strerror : Int → String
  invokeEvent : String → FlatJson → Result Unit
  close : Int → Result Unit
  errnoJson : Int → FlatJson
  truthy : Result Unit → Bool

/-- The `if (event.events & EPOLLERR)` block of `OnUpdateEpollEvent`
(lines 110-143): its effects and, when it returns early, the error. -/
def IoEventLoopService.onEpollErr (w : IoWorld) (event : EpollEvent) :
    List IoEffect × Option Error :=
  if event.events &&& EPOLLERR ≠ 0 then
    match w.getsockopt event.fd with
    | .error errno =>
      ([IoEffect.GetSockOpt event.fd],
        some (Error.FromDetails
          (FlatJson.Set (FlatJson.Set (w.errnoJson errno) "message"
            (Scalar.str "Failed to get socket error")) "fd" (Scalar.i32 event.fd))))
    | .ok code =>
      if code == 0 then
        ([IoEffect.GetSockOpt event.fd],
          some (Error.FromDetails
            (FlatJson.Set (FlatJson.Set [] "message" (Scalar.str "Socket error is zero"))
              "fd" (Scalar.i32 event.fd))))
      else
        let payload : FlatJson :=
          FlatJson.Set
            (FlatJson.Set
              (FlatJson.Set [] EventSocketError.kSocketId (Scalar.u64 (castU64 event.fd)))
              EventSocketError.kErrorCode (Scalar.i32 code))
            EventSocketError.kErrorDescription (Scalar.str (w.strerror code))
        let res := w.invokeEvent EventSocketError.kEvent payload
        ([IoEffect.GetSockOpt event.fd, IoEffect.InvokeEvent EventSocketError.kEvent payload] ++
          (if w.truthy res then [IoEffect.Log "Failed to invoke socket error event"] else []),
          none)
  else ([], none)

/-- The `if (event.events & EPOLLHUP)` block (lines 145-158). -/
def IoEventLoopService.onEpollHup (w : IoWorld) (event : EpollEvent) :
    List IoEffect × Option Error :=
  if event.events &&& EPOLLHUP ≠ 0 then
    let payload : FlatJson :=
      FlatJson.Set [] EventSocketClose.kSocketId (Scalar.u64 (castU64 event.fd))
    let res := w.invokeEvent EventSocketClose.kEvent payload
    let effects : List IoEffect :=
      [IoEffect.InvokeEvent EventSocketClose.kEvent payload] ++
        (if w.truthy res then [IoEffect.Log "Failed to invoke socket close event"] else []) ++
        [IoEffect.Close event.fd]
    match w.close event.fd with
    | .error e => (effects, some (Error.FromCause e))
    | .ok _ => (effects, none)
  else ([], none)

/-- The `if (event.events & EPOLLIN)` block (lines 160-169). -/
def IoEventLoopService.onEpollIn (w : IoWorld) (event : EpollEvent) : List IoEffect :=
  if event.events &&& EPOLLIN ≠ 0 then
    let payload : FlatJson :=
      FlatJson.Set [] EventSocketRead.kSocketId (Scalar.u64 (castU64 event.fd))
    let res := w.invokeEvent EventSocketRead.kEvent payload
    [IoEffect.InvokeEvent EventSocketRead.kEvent payload] ++
      (if Result.IsErr res then [IoEffect.Log "Failed to invoke socket read event"] else [])
  else []

/-- `IoEventLoopService::OnUpdateEpollEvent`. -/
def IoEventLoopService.OnUpdateEpollEvent (w : IoWorld) (event : EpollEvent) :
    List IoEffect × Result Unit :=
  match IoEventLoopService.onEpollErr w event with
  | (e1, some err) => (e1, .error err)
  | (e1, none) =>
    match IoEventLoopService.onEpollHup w event with
    | (e2, some err) => (e1 ++ e2, .error err)
    | (e2, none) => (e1 ++ e2 ++ IoEventLoopService.onEpollIn w event, OkVoid)

/-- The `for` loop of `OnUpdate` (lines 93-102) over the ready events. -/
def IoEventLoopService.handleEvents (w : IoWorld) : List EpollEvent → List IoEffect
  | [] => []
  | event :: rest =>
    let r := IoEventLoopService.OnUpdateEpollEvent w event
    let logged : List IoEffect :=
      match r.2 with
      | .error _ => [IoEffect.Log "Failed to update epoll event"]
      | .ok _ => []
    r.1 ++ logged ++ IoEventLoopService.handleEvents w rest

/-- `IoEventLoopService::OnUpdate`. `epollFdValid` is `Fd::IsValid(epoll_fd_)`,
`epollWait` is what `epoll_wait` answers: `Except errno readyEvents`. -/
def IoEventLoopService.OnUpdate (w : IoWorld) (epollFdValid : Bool)
    (epollWait : Except Int (List EpollEvent)) : List IoEffect :=
  if !epollFdValid then [IoEffect.Log "Invalid epoll fd"]
  else
    match epollWait with
    | .error errno =>
      if errno == EINTR then [IoEffect.EpollWait 0]
      else [IoEffect.EpollWait 0, IoEffect.Log "Failed to wait for epoll events"]
    | .ok events => IoEffect.EpollWait 0 :: IoEventLoopService.handleEvents w events

/-- Whether an effect is the emission of the event named `name`. -/
def IoEffect.emits (name : String) : IoEffect → Bool
  | .InvokeEvent event _ => event == name
  | _ => false

/-- What one `recv(fd, buffer.data(), buffer.size(), 0)` call returns: the
bytes it wrote to the start of the buffer (return value their number, at least
1), `0` (peer closed), or `-1` with `errno`. -/
inductive RecvResult where
  | data (bytes : List Nat) : RecvResult
  | closed : RecvResult
  | failed (errno : Int) : RecvResult
deriving DecidableEq, Repr

/-- Size of the `std::string buffer(4096, 0)` of `ReadFromFd`. -/
def kReadBufferSize : Nat := 4096

/-- How a `ReadFromFd` call ends: it returns; or it builds its result string
from more bytes than the buffer holds (`total_read > buffer.size()`, a read past
the end of the buffer with no defined value); or the recorded `recv` answers ran
out while the loop was still asking. -/
inductive ReadOutcome where
  | returned (effects : List IoEffect) (r : Result (List Nat)) : ReadOutcome
  | readsPastBuffer (effects : List IoEffect) (total_read : Nat) : ReadOutcome
  | pending (effects : List IoEffect) : ReadOutcome
deriving DecidableEq, Repr

/-- The `while (true)` loop of `ReadFromFd` (lines 257-287) followed by the
final `return` (line 289), over the successive answers of `recv`. -/
def IoEventLoopService.readLoop (w : IoWorld) (kSocketClosed : Int) (fd : Int) :
    List RecvResult → List Nat → Nat → List IoEffect → ReadOutcome
  | [], _, _, effects => ReadOutcome.pending effects
  | RecvResult.failed errno :: _, buffer, total_read, effects =>
    let effects1 := effects ++ [IoEffect.Recv fd]
    if errno == EAGAIN || errno == EWOULDBLOCK then
      if total_read ≤ buffer.length then
        ReadOutcome.returned effects1 (.ok (buffer.take total_read))
      else ReadOutcome.readsPastBuffer effects1 total_read
    else
      ReadOutcome.returned effects1
        (.error (Error.FromDetails
          (FlatJson.Set (FlatJson.Set (w.errnoJson errno) "message"
            (Scalar.str "Failed to read data from fd")) "fd" (Scalar.f64 fd))))
  | RecvResult.closed :: _, _, _, effects =>
    let payload : FlatJson := FlatJson.Set [] EventSocketClose.kSocketId (Scalar.u64 (castU64 fd))
    let res := w.invokeEvent EventSocketClose.kEvent payload
    ReadOutcome.returned
      (effects ++ [IoEffect.Recv fd, IoEffect.InvokeEvent EventSocketClose.kEvent payload] ++
        (if Result.IsErr res then [IoEffect.Log "Failed to invoke socket close event"] else []))
      (.error (Error.FromCodeDetails kSocketClosed (FlatJson.Set [] "fd" (Scalar.i32 fd))))
  | RecvResult.data bytes :: rest, buffer, total_read, effects =>
    IoEventLoopService.readLoop w kSocketClosed fd rest
      (bytes ++ buffer.drop bytes.length) (total_read + bytes.length)
      (effects ++ [IoEffect.Recv fd])

/-- `IoEventLoopService::ReadFromFd`; `kSocketClosed` is the error code of that
name (declared in `kero/middleware/common.h`, not among the sources), `recvs`
the successive answers of `recv`. -/
def IoEventLoopService.ReadFromFd (w : IoWorld) (kSocketClosed : Int) (fd : Int)
    (recvs : List RecvResult) : ReadOutcome :=
  IoEventLoopService.readLoop w kSocketClosed fd recvs (List.replicate kReadBufferSize 0) 0 []

/-- A chunk that one `recv` into the 4096-byte buffer can deliver. -/
def chunkOk (c : List Nat) : Prop := 1 ≤ c.length ∧ c.length ≤ kReadBufferSize

/-- The `recv` answers of a read that delivers the chunks in order and then
reports `EAGAIN`. -/
def recvScript (chunks : List (List Nat)) : List RecvResult :=
  chunks.map RecvResult.data ++ [RecvResult.failed EAGAIN]

/-! ## ThreadRunner (src/kero/engine/runner.cc) -/

/-- A `ThreadRunner`: whether its `thread_` is joinable. -/
structure ThreadRunner where
  joinable : Bool
deriving DecidableEq, Repr

/-- `ThreadRunner::Start`: the new state, whether a thread was spawned, and the
result. -/
def ThreadRunner.Start (t : ThreadRunner) : ThreadRunner × Bool × Result Unit :=
  if t.joinable then
    (t, false, .error (Error.FromDetails
      (FlatJson.Set [] "message" (Scalar.str "thread already started"))))
  else ({ joinable := true }, true, OkVoid)

/-- `ThreadRunner::Stop`, for a thread whose `join` returns: the new state,
whether `join` was called, and the result. -/
def ThreadRunner.Stop (t : ThreadRunner) : ThreadRunner × Bool × Result Unit :=
  if !t.joinable then
    (t, false, .error (Error.FromDetails
      (FlatJson.Set [] "message" (Scalar.str "thread not started"))))
  else ({ joinable := false }, true, OkVoid)

/-! ## The example server (examples/rock_paper_scissors_lizard_spock/server.cc) -/

/-- The `battle_count` of `Run` (line 87): `core_count - 3 > 0 ? core_count : 1`
where `core_count` is the `unsigned int` returned by
`std::thread::hardware_concurrency()`, so that the subtraction is taken modulo
`2^32` (written as `(2^32 + core_count - 3) % 2^32` for a `core_count` below
`2^32`). -/
def battle_count (core_count : Nat) : Nat :=
  if (4294967296 + core_count - 3) % 4294967296 > 0 then core_count else 1

/-- Calls made by `Run` of server.cc, in program order; the `Stop` calls are
those of the deferred closures. -/
inductive ServerCall where
  | EngineStart : ServerCall
  | EngineStop : ServerCall
  | BuildRunner (name : String) : ServerCall
  | StartRunner (name : String) : ServerCall
  | RunRunner (name : String) : ServerCall
  | StopRunner (name : String) : ServerCall
deriving DecidableEq, Repr

/-- What the surroundings answer to `Run` of server.cc: the results of
`Engine::Start` and of the three runner builders, the core count, the
surroundings of the main runner, and for every worker thread whether it ever
finishes (so that `join` on it returns). -/
structure ServerWorld where
  engineStart : Result Unit
  buildMatchRunner : Result Unit
  core_count : Nat
  buildBattleRunner : Nat → Result Unit
  buildMainRunner : Result Unit
  mainRunner : RunnerWorld
  threadEnds : String → Bool

/-- Outcome of `Run` of server.cc: the calls made and, when it has returned,
its result. -/
structure ServerOutcome where
  calls : List ServerCall
  result : Option (Result Unit)
deriving DecidableEq, Repr

/-- Modelled from the spec: the destructor of `StackDefer` (utils.cc is not
among the sources): the pushed closures run in LIFO order. The stack is given
top first; a `Stop` of a worker whose thread never finishes blocks in `join`,
and the Boolean says whether all closures returned. -/
def runDeferred (w : ServerWorld) : List ServerCall → List ServerCall × Bool
  | [] => ([], true)
  | ServerCall.StopRunner name :: rest =>
    if w.threadEnds name then
      ((ServerCall.StopRunner name) :: (runDeferred w rest).1, (runDeferred w rest).2)
    else ([ServerCall.StopRunner name], false)
  | c :: rest => (c :: (runDeferred w rest).1, (runDeferred w rest).2)

/-- A `return` of `Run`: the deferred closures run, then the result is handed
to the caller. -/
def Server.leave (w : ServerWorld) (calls deferred : List ServerCall) (r : Result Unit) :
    ServerOutcome :=
  { calls := calls ++ (runDeferred w deferred).1,
    result := if (runDeferred w deferred).2 then some r else none }

/-- The name `"battle:" + std::to_string(index)` given by `BuildBattleRunner`. -/
def battleName (index : Nat) : String := "battle:" ++ toString index

/-- The `for (i32 i = 0; i < battle_count; ++i)` loop of `Run`
(lines 89-107) from index `i` on, with `remaining` passes to go; it yields the
calls, the deferred stack and, on an early `return`, the error. -/
def Server.battleLoop (w : ServerWorld) :
    Nat → Nat → List ServerCall → List ServerCall →
      List ServerCall × List ServerCall × Option Error
  | 0, _, calls, deferred => (calls, deferred, none)
  | remaining + 1, i, calls, deferred =>
    match w.buildBattleRunner i with
    | .error e => (calls ++ [ServerCall.BuildRunner (battleName i)], deferred, some e)
    | .ok _ =>
      match (ThreadRunner.Start { joinable := false }).2.2 with
      | .error e =>
        (calls ++ [ServerCall.BuildRunner (battleName i), ServerCall.StartRunner (battleName i)],
          deferred, some e)
      | .ok _ =>
        Server.battleLoop w remaining (i + 1)
          (calls ++ [ServerCall.BuildRunner (battleName i), ServerCall.StartRunner (battleName i)])
          (ServerCall.StopRunner (battleName i) :: deferred)

/-- The end of `Run` (lines 109-119): building the main runner and running it
on the calling thread, after the calls `c3` and with the deferred stack `d3`. -/
def Server.runMainRunner (kInterrupted : Int) (w : ServerWorld) (fuel : Nat)
    (c3 d3 : List ServerCall) : ServerOutcome :=
  match w.buildMainRunner with
  | .error e => Server.leave w (c3 ++ [ServerCall.BuildRunner "main"]) d3 (.error e)
  | .ok _ =>
    match (Runner.Run kInterrupted w.mainRunner fuel).result with
    | none =>
      { calls := c3 ++ [ServerCall.BuildRunner "main", ServerCall.RunRunner "main"],
        result := none }
    | some (.error e) =>
      Server.leave w (c3 ++ [ServerCall.BuildRunner "main", ServerCall.RunRunner "main"]) d3
        (.error e)
    | some (.ok _) =>
      Server.leave w (c3 ++ [ServerCall.BuildRunner "main", ServerCall.RunRunner "main"]) d3
        OkVoid

/-- The `for` loop of `Run` over `count` battle runners, followed by the rest
of `Run`. -/
def Server.runBattleLoop (kInterrupted : Int) (w : ServerWorld) (fuel : Nat) (count : Nat)
    (c2 d2 : List ServerCall) : ServerOutcome :=
  match Server.battleLoop w count 0 c2 d2 with
  | (c3, d3, some e) => Server.leave w c3 d3 (.error e)
  | (c3, d3, none) => Server.runMainRunner kInterrupted w fuel c3 d3

/-- The middle of `Run` (lines 84-107): `battle_count` is computed from the
core count, then the battle runners are built and started. -/
def Server.runBattleRunners (kInterrupted : Int) (w : ServerWorld) (fuel : Nat)
    (c2 d2 : List ServerCall) : ServerOutcome :=
  Server.runBattleLoop kInterrupted w fuel (battle_count w.core_count) c2 d2

/-- `Run(argc, argv)` of server.cc. `fuel` bounds the passes of the main
runner's update loop; the result is `none` when the main runner is still
looping or a deferred `Stop` never returns. -/
def Server.Run (kInterrupted : Int) (w : ServerWorld) (fuel : Nat) : ServerOutcome :=
  match w.engineStart with
  | .error e => Server.leave w [ServerCall.EngineStart] [] (.error e)
  | .ok _ =>
    match w.buildMatchRunner with
    | .error e =>
      Server.leave w [ServerCall.EngineStart, ServerCall.BuildRunner "match"]
        [ServerCall.EngineStop] (.error e)
    | .ok _ =>
      match (ThreadRunner.Start { joinable := false }).2.2 with
      | .error e =>
        Server.leave w
          [ServerCall.EngineStart, ServerCall.BuildRunner "match", ServerCall.StartRunner "match"]
          [ServerCall.EngineStop] (.error e)
      | .ok _ =>
        Server.runBattleRunners kInterrupted w fuel
          [ServerCall.EngineStart, ServerCall.BuildRunner "match", ServerCall.StartRunner "match"]
          [ServerCall.StopRunner "match", ServerCall.EngineStop]

/-- The exit code computed by `main` from the result of `Run`
(`run_res.IsOk() ? 0 : 1`). -/
def exitCode (run_res : Result Unit) : Nat := if Result.IsOk run_res then 0 else 1

/-- `main` of server.cc: the exit code, or `none` when `Run` does not return. -/
def Server.main (kInterrupted : Int) (w : ServerWorld) (fuel : Nat) : Option Nat :=
  (Server.Run kInterrupted w fuel).result.map exitCode

/-- Everything before the main runner's `Run` succeeds: the engine starts and
every runner is built (a freshly built `ThreadRunner` always starts). -/
def ServerWorld.startsUp (w : ServerWorld) : Prop :=
  w.engineStart = .ok () ∧ w.buildMatchRunner = .ok () ∧
    (∀ i, w.buildBattleRunner i = .ok ()) ∧ w.buildMainRunner = .ok ()

/-! ## SignalService as a state machine -/

/-- The calls that reach a `SignalService` (or, for `OnSignal`, its static
handler); the Boolean of `OnCreate` and `OnDestroy` says whether `signal()`
returned `SIG_ERR`. -/
inductive SignalOp where
  | OnCreate (signalFails : Bool) : SignalOp
  | OnDestroy (signalFails : Bool) : SignalOp
  | OnUpdate : SignalOp
  | OnSignal (signal : Int) : SignalOp
  | IsInterrupted : SignalOp
deriving DecidableEq, Repr

/-- The flag after one call. -/
def SignalService.step (s : SignalState) : SignalOp → SignalState
  | SignalOp.OnCreate signalFails => (SignalService.OnCreate s signalFails []).1
  | SignalOp.OnDestroy signalFails => (SignalService.OnDestroy s signalFails).1
  | SignalOp.OnUpdate => (SignalService.OnUpdate s).1
  | SignalOp.OnSignal signal => (SignalService.OnSignal s signal).1
  | SignalOp.IsInterrupted => s

/-- The flag after a sequence of calls. -/
def SignalService.run (s : SignalState) (ops : List SignalOp) : SignalState :=
  ops.foldl SignalService.step s

/-- Whether a call is an `OnCreate`. -/
def SignalOp.isCreate : SignalOp → Bool
  | SignalOp.OnCreate _ => true
  | _ => false

/-! ## IoEventLoopService: AddFd, RemoveFd, WriteToFd -/

/-- The `IoEventLoopService::AddOptions` (declared in
`io_event_loop_service.h`, not among the sources; the fields are those read by
`AddOptionsToEpollEvents`). The field `in` is written `in_`. -/
structure AddOptions where
  in_ : Bool
  out : Bool
  edge_trigger : Bool
deriving DecidableEq, Repr

/-- `AddOptionsToEpollEvents` (lines 18-36). -/
def AddOptionsToEpollEvents (options : AddOptions) : Nat :=
  let events0 : Nat := 0
  let events1 : Nat := if options.in_ then events0 ||| EPOLLIN else events0
  let events2 : Nat := if options.out then events1 ||| EPOLLOUT else events1
  if options.edge_trigger then events2 ||| EPOLLET else events2

/-- The `epoll_ctl` calls of `AddFd` and `RemoveFd`: `EPOLL_CTL_ADD` with the
event handed over, `EPOLL_CTL_DEL` with a null event. -/
inductive EpollCtlCall where
  | Add (fd : Int) (event : EpollEvent) : EpollCtlCall
  | Del (fd : Int) : EpollCtlCall
deriving DecidableEq, Repr

/-- `IoEventLoopService::AddFd`. `kInvalidEpollFd` is the error code of that
name (declared in `kero/middleware/common.h`, not among the sources),
`epollFdValid` is `Fd::IsValid(epoll_fd_)`, `epollCtl` is what `epoll_ctl`
answers when called: `Except errno Unit`. -/
def IoEventLoopService.AddFd (w : IoWorld) (kInvalidEpollFd : Int) (epollFdValid : Bool)
    (epollCtl : Except Int Unit) (fd : Int) (options : AddOptions) :
    List EpollCtlCall × Result Unit :=
  if !epollFdValid then ([], .error (Error.FromCode kInvalidEpollFd))
  else
    let ev : EpollEvent := { events := AddOptionsToEpollEvents options, fd := fd }
    match epollCtl with
    | .error errno =>
      ([EpollCtlCall.Add fd ev],
        .error (Error.FromDetails
          (FlatJson.Set (FlatJson.Set (w.errnoJson errno) "message"
            (Scalar.str "Failed to add fd to epoll")) "fd" (Scalar.f64 fd))))
    | .ok _ => ([EpollCtlCall.Add fd ev], OkVoid)

/-- `IoEventLoopService::RemoveFd`, with the parameters of `AddFd`. -/
def IoEventLoopService.RemoveFd (w : IoWorld) (kInvalidEpollFd : Int) (epollFdValid : Bool)
    (epollCtl : Except Int Unit) (fd : Int) : List EpollCtlCall × Result Unit :=
  if !epollFdValid then ([], .error (Error.FromCode kInvalidEpollFd))
  else
    match epollCtl with
    | .error errno =>
      ([EpollCtlCall.Del fd],
        .error (Error.FromDetails
          (FlatJson.Set (FlatJson.Set (w.errnoJson errno) "message"
            (Scalar.str "Failed to remove fd from epoll")) "fd" (Scalar.f64 fd))))
    | .ok _ => ([EpollCtlCall.Del fd], OkVoid)

/-- What one `send` call returns: the number of bytes it accepted, or `-1`
with `errno`. -/
inductive SendResult where
  | accepted (n : Nat) : SendResult
  | failed (errno : Int) : SendResult
deriving DecidableEq, Repr

/-- One `send(fd, data_ptr + offset, len, 0)` call and its answer. -/
structure SendCall where
  offset : Int
  len : Nat
  answer : SendResult
deriving DecidableEq, Repr

/-- Conversion of a value to `int` (the `data_sent += sent` of line 244 stores
the sum in the `int` that `auto data_sent = 0` declares): reduction modulo
`2^32` into the range of `int`. -/
def wrapInt (x : Int) : Int := (x + 2147483648) % 4294967296 - 2147483648

/-- Conversion of an `int` to `size_t`, as the comparison
`data_sent < data_size` and the difference `data_size - data_sent` perform it:
reduction modulo `2^64`. -/
def toSizeT (x : Int) : Nat := (x % 18446744073709551616).toNat

/-- The `size_t` difference `data_size - data_sent`, taken modulo `2^64`
(for a `data_size` below `2^64`). -/
def sizeDiff (data_size : Nat) (data_sent : Int) : Nat :=
  (18446744073709551616 + data_size - toSizeT data_sent) % 18446744073709551616

/-- The `while (data_sent < data_size)` loop of `WriteToFd` (lines 228-245)
and the final `return`, over the successive answers of `send`: the calls made
and, when the function has returned, its result (`none`: the recorded answers
ran out while the loop was still asking). -/
def IoEventLoopService.writeLoop (w : IoWorld) (fd : Int) (data : List Nat) :
    List SendResult → Int → List SendCall × Option (Result Unit)
  | [], data_sent =>
    if toSizeT data_sent < data.length then ([], none) else ([], some OkVoid)
  | answer :: rest, data_sent =>
    if toSizeT data_sent < data.length then
      let call : SendCall :=
        { offset := data_sent, len := sizeDiff data.length data_sent, answer := answer }
      match answer with
      | SendResult.failed errno =>
        if errno == EAGAIN || errno == EWOULDBLOCK then
          (call :: (IoEventLoopService.writeLoop w fd data rest data_sent).1,
            (IoEventLoopService.writeLoop w fd data rest data_sent).2)
        else
          ([call],
            some (.error (Error.FromDetails
              (FlatJson.Set
                (FlatJson.Set
                  (FlatJson.Set (w.errnoJson errno) "message"
                    (Scalar.str "Failed to send data to fd"))
                  "fd" (Scalar.f64 fd))
                "data" (Scalar.str (String.mk (data.map Char.ofNat)))))))
      | SendResult.accepted n =>
        (call :: (IoEventLoopService.writeLoop w fd data rest (wrapInt (data_sent + n))).1,
          (IoEventLoopService.writeLoop w fd data rest (wrapInt (data_sent + n))).2)
    else ([], some OkVoid)

/-- `IoEventLoopService::WriteToFd`; `sends` are the successive answers of
`send`. -/
def IoEventLoopService.WriteToFd (w : IoWorld) (fd : Int) (data : List Nat)
    (sends : List SendResult) : List SendCall × Option (Result Unit) :=
  IoEventLoopService.writeLoop w fd data sends 0

/-- Bytes accepted by one call. -/
def SendCall.acceptedBytes (c : SendCall) : Nat :=
  match c.answer with
  | SendResult.accepted n => n
  | SendResult.failed _ => 0

/-- Sum of the byte counts accepted by the calls. -/
def acceptedSum (calls : List SendCall) : Nat := (calls.map SendCall.acceptedBytes).sum

/-- The contract of `send`: it accepts no more bytes than it was offered. -/
def SendCall.withinOffer (c : SendCall) : Prop := c.acceptedBytes ≤ c.len

/-- Every call is offered exactly the part of the data not yet accepted: with
`done` bytes accepted before, the call starts at offset `done` and offers the
`data_size - done` bytes up to the end. -/
def offersSuffix (data_size : Nat) : Nat → List SendCall → Prop
  | _, [] => True
  | done, c :: cs =>
    c.offset = (done : Int) ∧ c.len = data_size - done ∧
      offersSuffix data_size (done + c.acceptedBytes) cs

/-- Whether an effect is the `close` of descriptor `fd`. -/
def IoEffect.closes (fd : Int) : IoEffect → Bool
  | .Close f => f == fd
  | _ => false

/-- Whether an effect is a call of `epoll_wait`. -/
def IoEffect.isEpollWait : IoEffect → Bool
  | .EpollWait _ => true
  | _ => false

/-- Whether an effect is the emission of a local event. -/
def IoEffect.isInvokeEvent : IoEffect → Bool
  | .InvokeEvent _ _ => true
  | _ => false

/-! ## ParseNumberString (src/kero/core/utils.h) -/

/-- An integral type `T`: whether it is signed, and its width in bits. -/
structure IntegralType where
  is_signed : Bool
  bits : Nat
deriving DecidableEq, Repr

/-- The `u16` of the sources. -/
def u16 : IntegralType := ⟨false, 16⟩

/-- The `i32` of the sources. -/
def i32 : IntegralType := ⟨true, 32⟩

/-- `std::numeric_limits<T>::min()`. -/
def IntegralType.min (T : IntegralType) : Int :=
  if T.is_signed then -(2 ^ (T.bits - 1)) else 0

/-- `std::numeric_limits<T>::max()`. -/
def IntegralType.max (T : IntegralType) : Int :=
  if T.is_signed then 2 ^ (T.bits - 1) - 1 else 2 ^ T.bits - 1

/-- `std::errc{}`: no error. -/
def errc.none : Int := 0

/-- `std::errc::invalid_argument` (`EINVAL` on Linux). -/
def errc.invalid_argument : Int := 22

/-- `std::errc::result_out_of_range` (`ERANGE` on Linux). -/
def errc.result_out_of_range : Int := 34

/-- The minus sign. -/
def cMinus : Char := Char.ofNat 45

/-- A decimal digit. -/
def isdigit (c : Char) : Bool := 48 ≤ c.toNat && c.toNat ≤ 57

/-- The number a run of decimal digits denotes. -/
def decimalValue (digits : List Char) : Nat :=
  digits.foldl (fun acc d => 10 * acc + (d.toNat - 48)) 0

/-- `std::from_chars_result`: `ptr` as an offset into the token, and `ec`. -/
structure from_chars_result where
  ptr : Nat
  ec : Int
deriving DecidableEq, Repr

/-- `std::from_chars(first, last, value)` of `<charconv>` for an integral
`value`, base 10, as the C++ standard describes it: the pattern is a run of
decimal digits, after a minus sign if `T` is signed; no white space is skipped
and no plus sign is taken. Without a match `value` is left as it was, `ptr` is
`first` and `ec` is `invalid_argument`; with a match whose number `T` cannot
hold `value` is left as it was, `ptr` is the end of the match and `ec` is
`result_out_of_range`; otherwise `value` is the number, `ptr` the end of the
match and `ec` is value-initialised. Returned: the result and `value`
after the call. -/
def from_chars (T : IntegralType) (token : List Char) (value : Int) : from_chars_result × Int :=
  let negative : Bool := T.is_signed && token.head? == some cMinus
  let body : List Char := if negative then token.tail else token
  let digits : List Char := body.takeWhile isdigit
  if digits.isEmpty then (⟨0, errc.invalid_argument⟩, value)
  else
    let parsed : Int := if negative then -(decimalValue digits : Int) else (decimalValue digits : Int)
    let ptr : Nat := (if negative then 1 else 0) + digits.length
    if T.min ≤ parsed ∧ parsed ≤ T.max then (⟨ptr, errc.none⟩, parsed)
    else (⟨ptr, errc.result_out_of_range⟩, value)

/-- `ParseNumberString<T>` for an integral `T`. `message` stands for
`std::make_error_code(ec).message()`. -/
def ParseNumberString (T : IntegralType) (message : Int → String) (token : List Char) :
    Result Int :=
  let value : Int := 0
  let r := from_chars T token value
  if r.1.ec ≠ errc.none then
    .error (Error.FromDetails
      (FlatJson.Set
        (FlatJson.Set (FlatJson.Set [] "kind" (Scalar.str "errc")) "code" (Scalar.i32 r.1.ec))
        "message" (Scalar.str (message r.1.ec))))
  else .ok r.2

end kero

namespace core

/-! ## TinyJson (src/core/tiny_json.cc) -/

/-- The double quote character. -/
def cQuote : Char := Char.ofNat 34

/-- The opening brace. -/
def cLBrace : Char := Char.ofNat 123

/-- The closing brace. -/
def cRBrace : Char := Char.ofNat 125

/-- The colon. -/
def cColon : Char := Char.ofNat 58

/-- The comma. -/
def cComma : Char := Char.ofNat 44

/-- The `isspace` of `<cctype>` in the "C" locale: space, `\t`, `\n`, `\v`,
`\f`, `\r`. -/
def isspace (c : Char) : Bool := c.toNat == 32 || (9 ≤ c.toNat && c.toNat ≤ 13)

/-- The `data_` of `TinyJson` and of `TinyJsonParser`: the pairs of an
`unordered_map<string_view, string_view>`, kept in insertion order. A string
view is the list of its characters, one `Char` for each `char`. -/
abbrev TinyJsonMap := List (List Char × List Char)

/-- The `data_.emplace(key, value)` of line 99: nothing is stored when the key
is present already. -/
def TinyJsonMap.emplace (data : TinyJsonMap) (key value : List Char) : TinyJsonMap :=
  if data.any (fun p => p.1 == key) then data else data ++ [(key, value)]

/-- `TinyJson::Get`. -/
def TinyJson.Get (data : TinyJsonMap) (key : List Char) : Option (List Char) :=
  (data.find? (fun p => p.1 == key)).map (fun p => p.2)

/-- `std::string_view::substr(pos, count)` for a `pos` within the view. -/
def substr (tiny_json_ : List Char) (pos count : Nat) : List Char :=
  (tiny_json_.drop pos).take count

/-- `TinyJsonParser::Current` (the log line it prints at the end of the input
is left out, as in `Consume` and `Advance`). -/
def TinyJsonParser.Current (tiny_json_ : List Char) (cursor_ : Nat) : Option Char :=
  if cursor_ ≥ tiny_json_.length then none else tiny_json_[cursor_]?

/-- `TinyJsonParser::Consume`: whether it succeeded, and the cursor after. -/
def TinyJsonParser.Consume (tiny_json_ : List Char) (cursor_ : Nat) (c : Char) : Bool × Nat :=
  if cursor_ ≥ tiny_json_.length then (false, cursor_)
  else if tiny_json_[cursor_]? != some c then (false, cursor_)
  else (true, cursor_ + 1)

/-- `TinyJsonParser::Advance`: whether it succeeded, and the cursor after. -/
def TinyJsonParser.Advance (tiny_json_ : List Char) (cursor_ : Nat) : Bool × Nat :=
  if cursor_ ≥ tiny_json_.length then (false, cursor_) else (true, cursor_ + 1)

/-- The `while` loop of `Trim` over the characters from the cursor on: one
pass per white-space character. -/
def TinyJsonParser.trimLoop : List Char → Nat → Nat
  | [], cursor_ => cursor_
  | c :: rest, cursor_ =>
    if isspace c then TinyJsonParser.trimLoop rest (cursor_ + 1) else cursor_

/-- `TinyJsonParser::Trim`: the cursor after. -/
def TinyJsonParser.Trim (tiny_json_ : List Char) (cursor_ : Nat) : Nat :=
  TinyJsonParser.trimLoop (tiny_json_.drop cursor_) cursor_

/-- The `while (true)` loop of `ParseString` (lines 176-194) up to its test for
the closing quote, over the characters from the cursor on: each pass calls
`Advance` and then `Current`. It yields the cursor at the closing quote, if one
is found, and the cursor at which the loop ended. -/
def TinyJsonParser.scanLoop : List Char → Nat → Option Nat × Nat
  | [], cursor_ => (none, cursor_)
  | _ :: rest, cursor_ =>
    match rest with
    | [] => (none, cursor_ + 1)
    | c :: _ =>
      if c == cQuote then (some (cursor_ + 1), cursor_ + 1)
      else TinyJsonParser.scanLoop rest (cursor_ + 1)

/-- `TinyJsonParser::ParseString`: the string, if one was parsed, and the
cursor after. -/
def TinyJsonParser.ParseString (tiny_json_ : List Char) (cursor_ : Nat) :
    Option (List Char) × Nat :=
  let c1 := TinyJsonParser.Trim tiny_json_ cursor_
  match TinyJsonParser.Current tiny_json_ c1 with
  | none => (none, c1)
  | some current =>
    if current != cQuote then (none, c1)
    else
      match TinyJsonParser.Consume tiny_json_ c1 cQuote with
      | (false, c2) => (none, c2)
      | (true, start) =>
        match TinyJsonParser.scanLoop (tiny_json_.drop start) start with
        | (none, c3) => (none, c3)
        | (some c3, _) =>
          match TinyJsonParser.Consume tiny_json_ c3 cQuote with
          | (false, c4) => (none, c4)
          | (true, c4) => (some (substr tiny_json_ start (c3 - start)), c4)

/-- `TinyJsonParser::ParseKey`. -/
def TinyJsonParser.ParseKey (tiny_json_ : List Char) (cursor_ : Nat) :
    Option (List Char) × Nat :=
  TinyJsonParser.ParseString tiny_json_ cursor_

/-- `TinyJsonParser::ParseValue`. -/
def TinyJsonParser.ParseValue (tiny_json_ : List Char) (cursor_ : Nat) :
    Option (List Char) × Nat :=
  TinyJsonParser.ParseString tiny_json_ cursor_

/-- `TinyJsonParser::ParseKeyValue`: the pair, if one was parsed, and the
cursor after. -/
def TinyJsonParser.ParseKeyValue (tiny_json_ : List Char) (cursor_ : Nat) :
    Option (List Char × List Char) × Nat :=
  match TinyJsonParser.ParseKey tiny_json_ cursor_ with
  | (none, c1) => (none, c1)
  | (some key, c1) =>
    let c2 := TinyJsonParser.Trim tiny_json_ c1
    match TinyJsonParser.Current tiny_json_ c2 with
    | none => (none, c2)
    | some current =>
      if current != cColon then (none, c2)
      else
        match TinyJsonParser.Consume tiny_json_ c2 cColon with
        | (false, c3) => (none, c3)
        | (true, c3) =>
          match TinyJsonParser.ParseValue tiny_json_ c3 with
          | (none, c4) => (none, c4)
          | (some value, c4) => (some (key, value), c4)

/-- The `while (true)` loop of `TinyJsonParser::Parse` (lines 74-117), run for
at most `fuel` passes: `none` when the passes ran out, otherwise the result of
`Parse` and the cursor at its return. -/
def TinyJsonParser.parseLoop (tiny_json_ : List Char) :
    Nat → Nat → TinyJsonMap → Option (Option TinyJsonMap × Nat)
  | 0, _, _ => none
  | fuel + 1, cursor_, data_ =>
    let c1 := TinyJsonParser.Trim tiny_json_ cursor_
    match TinyJsonParser.Current tiny_json_ c1 with
    | none => some (none, c1)
    | some current =>
      if current == cRBrace then
        match TinyJsonParser.Consume tiny_json_ c1 cRBrace with
        | (false, c2) => some (none, c2)
        | (true, c2) => some (some data_, c2)
      else
        match TinyJsonParser.ParseKeyValue tiny_json_ c1 with
        | (none, c2) => some (none, c2)
        | (some key_value, c2) =>
          let c3 := TinyJsonParser.Trim tiny_json_ c2
          match TinyJsonParser.Current tiny_json_ c3 with
          | none => some (none, c3)
          | some current2 =>
            if current2 == cComma then
              match TinyJsonParser.Consume tiny_json_ c3 cComma with
              | (false, c4) => some (none, c4)
              | (true, c4) =>
                TinyJsonParser.parseLoop tiny_json_ fuel c4
                  (TinyJsonMap.emplace data_ key_value.1 key_value.2)
            else
              TinyJsonParser.parseLoop tiny_json_ fuel c3
                (TinyJsonMap.emplace data_ key_value.1 key_value.2)

/-- `TinyJsonParser::Parse` with at most `fuel` passes of its loop. -/
def TinyJsonParser.ParseWithin (fuel : Nat) (tiny_json_ : List Char) :
    Option (Option TinyJsonMap × Nat) :=
  if tiny_json_.isEmpty then some (none, 0)
  else
    let c1 := TinyJsonParser.Trim tiny_json_ 0
    match TinyJsonParser.Current tiny_json_ c1 with
    | none => some (none, c1)
    | some current =>
      if current != cLBrace then some (none, c1)
      else
        match TinyJsonParser.Consume tiny_json_ c1 cLBrace with
        | (false, c2) => some (none, c2)
        | (true, c2) => TinyJsonParser.parseLoop tiny_json_ fuel c2 []

/-- `TinyJsonParser::Parse`; as many passes as the input has characters, and
one more, are allowed to its loop. -/
def TinyJsonParser.Parse (tiny_json_ : List Char) : Option (Option TinyJsonMap × Nat) :=
  TinyJsonParser.ParseWithin (tiny_json_.length + 1) tiny_json_

/-- `TinyJson::Parse`: `nullopt` or the parsed map (`none` outside: the loop
did not end within the passes allowed). -/
def TinyJson.Parse (tiny_json : List Char) : Option (Option TinyJsonMap) :=
  (TinyJsonParser.Parse tiny_json).map (fun r => r.1)

/-- What `Build` writes for one pair: `"key":"value",`. -/
def TinyJsonStringBuilder.entry (key_value : List Char × List Char) : List Char :=
  cQuote :: key_value.1 ++ cQuote :: cColon :: cQuote :: key_value.2 ++ [cQuote, cComma]

/-- `TinyJsonStringBuilder::Build` over the pairs of `data_` in the order the
range-`for` visits them (tiny_json.h, which declares `data_`, is not among the
sources). After the brace and the entries, `seekp(-1, end)` puts the write
position on the last character written, which the closing brace then
replaces. -/
def TinyJsonStringBuilder.Build (data_ : List (List Char × List Char)) : List Char :=
  let written : List Char := cLBrace :: (data_.map TinyJsonStringBuilder.entry).flatten
  written.dropLast ++ [cRBrace]

/-- Every key and every value of the map is a part of the input of at least one
character. -/
def TinyJsonMap.within (tiny_json_ : List Char) (data : TinyJsonMap) : Prop :=
  ∀ p ∈ data, (1 ≤ p.1.length ∧ p.1 <:+: tiny_json_) ∧ (1 ≤ p.2.length ∧ p.2 <:+: tiny_json_)

/-- The text `"key":"value"` of one pair. -/
def TinyJsonStringBuilder.pairText (key_value : List Char × List Char) : List Char :=
  cQuote :: key_value.1 ++ cQuote :: cColon :: cQuote :: key_value.2 ++ [cQuote]

/-- The text of a built object from the start of a pair on: the pairs,
separated by commas, and the closing brace. -/
def TinyJsonStringBuilder.restText : List (List Char × List Char) → List Char
  | [] => [cRBrace]
  | d :: ds =>
    TinyJsonStringBuilder.pairText d ++
      (match ds with
        | [] => TinyJsonStringBuilder.restText ds
        | _ :: _ => cComma :: TinyJsonStringBuilder.restText ds)

/-- The pairs stored by successive `emplace` calls. -/
def TinyJsonMap.emplaceAll (data : TinyJsonMap) (pairs : List (List Char × List Char)) :
    TinyJsonMap :=
  pairs.foldl (fun acc p => TinyJsonMap.emplace acc p.1 p.2) data

/-- Keys and values the tiny JSON format can carry: not empty, no double
quote. -/
def plainPairs (pairs : List (List Char × List Char)) : Prop :=
  ∀ p ∈ pairs, p.1 ≠ [] ∧ cQuote ∉ p.1 ∧ p.2 ≠ [] ∧ cQuote ∉ p.2

end core

namespace kero

/-! ## Concrete surroundings used to evaluate the code -/

/-- A runner with a `SignalService` whose flag reads clear twice and set from
then on; every update succeeds. -/
def signalledRunner : RunnerWorld :=
  { createResult := .ok (), hasSignalService := true, flagAt := fun i => decide (2 ≤ i),
    updateResult := fun _ => .ok () }

/-- A runner without `SignalService` (like the match and battle runners built
by server.cc) while the process-global flag is set. -/
def workerRunner : RunnerWorld :=
  { createResult := .ok (), hasSignalService := false, flagAt := fun _ => true,
    updateResult := fun _ => .ok () }

/-- A runner whose `InvokeCreate` fails with code 5. -/
def failingRunner : RunnerWorld :=
  { createResult := .error (Error.FromCode 5), hasSignalService := true, flagAt := fun _ => false,
    updateResult := fun _ => .ok () }

/-- A server on a four-core machine on which everything starts, every worker
thread ends, and SIGINT arrives during the main runner's third tick. -/
def sigintServer : ServerWorld :=
  { engineStart := .ok (), buildMatchRunner := .ok (), core_count := 4,
    buildBattleRunner := fun _ => .ok (), buildMainRunner := .ok (),
    mainRunner := signalledRunner, threadEnds := fun _ => true }

/-- Surroundings of `IoEventLoopService` in which every call succeeds. -/
def quietIo : IoWorld :=
  { getsockopt := fun _ => .ok 104, strerror := fun _ => "Connection reset by peer",
    invokeEvent := fun _ _ => .ok (), close := fun _ => .ok (), errnoJson := fun _ => [],
    truthy := fun r => Result.IsErr r }

/-- Surroundings of `IoEventLoopService` in which the socket reports
`SO_ERROR = 0` and everything else succeeds. -/
def zeroErrorIo : IoWorld :=
  { getsockopt := fun _ => .ok 0, strerror := fun _ => "Success",
    invokeEvent := fun _ _ => .ok (), close := fun _ => .ok (), errnoJson := fun _ => [],
    truthy := fun r => Result.IsErr r }

/-- Surroundings of `IoEventLoopService` in which `getsockopt` fails with
`EBADF` (9) and everything else succeeds. -/
def badSockoptIo : IoWorld :=
  { getsockopt := fun _ => .error 9, strerror := fun _ => "Bad file descriptor",
    invokeEvent := fun _ _ => .ok (), close := fun _ => .ok (),
    errnoJson := fun errno => [("errno", Scalar.i32 errno)],
    truthy := fun r => Result.IsErr r }


/-! ## Lemmas on the update loop of `Runner::Run` -/

theorem Runner.loopBody_iter (w : RunnerWorld) (s : LoopState) :
    (Runner.loopBody w s).iter = s.iter + 1 := rfl

theorem Runner.loopBody_calls (w : RunnerWorld) (s : LoopState) :
    ∃ body, (Runner.loopBody w s).calls = s.calls ++ body ∧
      ∀ c ∈ body, RunnerCall.isLoopCall c = true := by
  unfold Runner.loopBody
  cases hs : w.hasSignalService <;> cases hu : w.updateResult s.iter <;>
    simp [RunnerCall.isLoopCall]

theorem Runner.loop_calls (w : RunnerWorld) :
    ∀ (fuel : Nat) (s : LoopState), ∃ body, (Runner.loop w fuel s).2.calls = s.calls ++ body ∧
      ∀ c ∈ body, RunnerCall.isLoopCall c = true := by
  intro fuel
  induction fuel with
  | zero => intro s; exact ⟨[], by simp [Runner.loop]⟩
  | succ n ih =>
    intro s
    unfold Runner.loop
    by_cases hi : s.is_interrupted = true
    · exact ⟨[], by simp [hi]⟩
    · obtain ⟨b1, hb1, hl1⟩ := Runner.loopBody_calls w s
      obtain ⟨b2, hb2, hl2⟩ := ih (Runner.loopBody w s)
      refine ⟨b1 ++ b2, ?_, ?_⟩
      · simp [hi, hb2, hb1]
      · intro c hc
        rcases List.mem_append.mp hc with h | h
        · exact hl1 c h
        · exact hl2 c h

theorem Runner.loop_left (w : RunnerWorld) :
    ∀ (fuel : Nat) (s : LoopState), (Runner.loop w fuel s).1 = true →
      (Runner.loop w fuel s).2.is_interrupted = true := by
  intro fuel
  induction fuel with
  | zero => intro s h; simpa [Runner.loop] using h
  | succ n ih =>
    intro s h
    unfold Runner.loop at h ⊢
    by_cases hi : s.is_interrupted = true
    · simp [hi]
    · simp only [hi] at h ⊢
      exact ih _ h

/-- A failed `InvokeCreate` ends `Run` at once. -/
theorem Runner.Run_create_failed (kInterrupted : Int) (w : RunnerWorld) (fuel : Nat) (e : Error)
    (hc : w.createResult = .error e) :
    Runner.Run kInterrupted w fuel =
      { calls := [RunnerCall.InvokeCreate], result := some (.error e) } := by
  unfold Runner.Run
  rw [hc]

/-- Shape of every run whose `InvokeCreate` succeeded: the two opening calls,
calls of the loop body, and then either nothing (still looping) or the single
`InvokeDestroy` together with the `kInterrupted` error. -/
theorem Runner.Run_ok_shape (kInterrupted : Int) (w : RunnerWorld) (fuel : Nat) (u : Unit)
    (hc : w.createResult = .ok u) :
    ∃ body, (∀ c ∈ body, RunnerCall.isLoopCall c = true) ∧
      (Runner.Run kInterrupted w fuel =
          { calls := [RunnerCall.InvokeCreate, RunnerCall.GetSignalService] ++ body,
            result := none } ∨
        Runner.Run kInterrupted w fuel =
          { calls := [RunnerCall.InvokeCreate, RunnerCall.GetSignalService] ++ body ++
              [RunnerCall.InvokeDestroy],
            result := some (.error (Error.FromCode kInterrupted)) }) := by
  obtain ⟨body, hb, hl⟩ := Runner.loop_calls w fuel
    { iter := 0, is_interrupted := false,
      calls := [RunnerCall.InvokeCreate, RunnerCall.GetSignalService] }
  have hleft := Runner.loop_left w fuel
    { iter := 0, is_interrupted := false,
      calls := [RunnerCall.InvokeCreate, RunnerCall.GetSignalService] }
  refine ⟨body, hl, ?_⟩
  unfold Runner.Run
  rw [hc]
  rcases hloop : Runner.loop w fuel
    { iter := 0, is_interrupted := false,
      calls := [RunnerCall.InvokeCreate, RunnerCall.GetSignalService] } with ⟨b, s⟩
  rw [hloop] at hb hleft
  simp only at hb hleft
  cases b with
  | false => left; simp [hloop, hb]
  | true => right; simp [hloop, hb, hleft rfl]

/-- Without a `SignalService` the loop is never left: after `fuel` passes it
has made `fuel` updates and the condition still holds. -/
theorem Runner.loop_without_signal (w : RunnerWorld) (hs : w.hasSignalService = false) :
    ∀ (fuel : Nat) (s : LoopState), s.is_interrupted = false →
      (Runner.loop w fuel s).1 = false ∧
        updateCount (Runner.loop w fuel s).2.calls = updateCount s.calls + fuel := by
  intro fuel
  induction fuel with
  | zero => intro s h; simp [Runner.loop, h]
  | succ n ih =>
    intro s h
    have hb : (Runner.loopBody w s).is_interrupted = false := by
      simp [Runner.loopBody, hs, h]
    have hu : updateCount (Runner.loopBody w s).calls = updateCount s.calls + 1 := by
      unfold Runner.loopBody updateCount
      cases hr : w.updateResult s.iter <;> simp [hs, List.count_cons]
    obtain ⟨h1, h2⟩ := ih (Runner.loopBody w s) hb
    unfold Runner.loop
    simp only [h, Bool.false_eq_true, if_false]
    exact ⟨h1, by rw [h2, hu]; omega⟩

/-- With a `SignalService` whose flag first reads set in pass `n` (counted from
the current pass), the loop is left after exactly `n + 1` further updates. -/
theorem Runner.loop_with_signal (w : RunnerWorld) (hs : w.hasSignalService = true) :
    ∀ (n extra : Nat) (s : LoopState), s.is_interrupted = false →
      (∀ j, j < n → w.flagAt (s.iter + j) = false) → w.flagAt (s.iter + n) = true →
      (Runner.loop w (n + 1 + extra) s).1 = true ∧
        updateCount (Runner.loop w (n + 1 + extra) s).2.calls = updateCount s.calls + (n + 1) := by
  intro n
  induction n with
  | zero =>
    intro extra s h _ hn
    have hb : (Runner.loopBody w s).is_interrupted = true := by
      simpa [Runner.loopBody, hs] using hn
    have hu : updateCount (Runner.loopBody w s).calls = updateCount s.calls + 1 := by
      unfold Runner.loopBody updateCount
      cases hr : w.updateResult s.iter <;> simp [hs, List.count_cons]
    have hstep : Runner.loop w (0 + 1 + extra) s = Runner.loop w extra (Runner.loopBody w s) := by
      rw [show 0 + 1 + extra = extra + 1 by omega]
      simp [Runner.loop, h]
    have hend : Runner.loop w extra (Runner.loopBody w s) = (true, Runner.loopBody w s) := by
      cases extra with
      | zero => simp [Runner.loop, hb]
      | succ m => simp [Runner.loop, hb]
    rw [hstep, hend]
    exact ⟨rfl, hu⟩
  | succ m ih =>
    intro extra s h hlt hn
    have hb : (Runner.loopBody w s).is_interrupted = false := by
      have := hlt 0 (by omega)
      simpa [Runner.loopBody, hs] using this
    have hu : updateCount (Runner.loopBody w s).calls = updateCount s.calls + 1 := by
      unfold Runner.loopBody updateCount
      cases hr : w.updateResult s.iter <;> simp [hs, List.count_cons]
    have hstep : Runner.loop w (m + 1 + 1 + extra) s =
        Runner.loop w (m + 1 + extra) (Runner.loopBody w s) := by
      rw [show m + 1 + 1 + extra = (m + 1 + extra) + 1 by omega]
      simp [Runner.loop, h]
    have hi := ih extra (Runner.loopBody w s) hb
      (fun j hj => by
        have := hlt (j + 1) (by omega)
        rw [Runner.loopBody_iter]
        rw [show s.iter + 1 + j = s.iter + (j + 1) by omega]
        exact this)
      (by
        rw [Runner.loopBody_iter]
        rw [show s.iter + 1 + m = s.iter + (m + 1) by omega]
        exact hn)
    rw [hstep]
    exact ⟨hi.1, by rw [hi.2, hu]; omega⟩

theorem destroy_not_loop_call (body : List RunnerCall)
    (hl : ∀ c ∈ body, RunnerCall.isLoopCall c = true) : RunnerCall.InvokeDestroy ∉ body := by
  intro h
  have := hl _ h
  simp [RunnerCall.isLoopCall] at this

theorem create_not_loop_call (body : List RunnerCall)
    (hl : ∀ c ∈ body, RunnerCall.isLoopCall c = true) : RunnerCall.InvokeCreate ∉ body := by
  intro h
  have := hl _ h
  simp [RunnerCall.isLoopCall] at this

/-- When `d` does not occur in `xs`, the only way to split `xs ++ [d]` around
an occurrence of `d` leaves nothing after it. -/
theorem nothing_after_last {α : Type} (d : α) :
    ∀ (xs pre post : List α), d ∉ xs → pre ++ d :: post = xs ++ [d] → post = [] := by
  intro xs
  induction xs with
  | nil =>
    intro pre post _ h
    cases pre with
    | nil => simpa using h
    | cons a pre =>
      simp only [List.cons_append, List.nil_append, List.cons.injEq] at h
      have := h.2
      simp at this
  | cons x xs ih =>
    intro pre post hx h
    cases pre with
    | nil =>
      simp only [List.nil_append, List.cons_append, List.cons.injEq] at h
      exact absurd (h.1 ▸ List.mem_cons_self x xs) hx
    | cons a pre =>
      simp only [List.cons_append, List.cons.injEq] at h
      exact ih pre post (fun hm => hx (List.mem_cons_of_mem _ hm)) h.2

/-- The loop does not look at update results: two surroundings that agree on
the `SignalService` and the flag drive it through the same states, up to the
log lines of failed updates. -/
theorem Runner.loop_update_indep (w1 w2 : RunnerWorld)
    (hs : w1.hasSignalService = w2.hasSignalService) (hf : w1.flagAt = w2.flagAt) :
    ∀ (fuel : Nat) (s1 s2 : LoopState), s1.iter = s2.iter →
      s1.is_interrupted = s2.is_interrupted →
      s1.calls.filter (fun c => !RunnerCall.isLog c) =
        s2.calls.filter (fun c => !RunnerCall.isLog c) →
      (Runner.loop w1 fuel s1).1 = (Runner.loop w2 fuel s2).1 ∧
        (Runner.loop w1 fuel s1).2.is_interrupted = (Runner.loop w2 fuel s2).2.is_interrupted ∧
        (Runner.loop w1 fuel s1).2.calls.filter (fun c => !RunnerCall.isLog c) =
          (Runner.loop w2 fuel s2).2.calls.filter (fun c => !RunnerCall.isLog c) := by
  intro fuel
  induction fuel with
  | zero => intro s1 s2 _ hi hc; simp [Runner.loop, hi, hc]
  | succ n ih =>
    intro s1 s2 hit hi hc
    unfold Runner.loop
    by_cases h1 : s1.is_interrupted = true
    · have h2 : s2.is_interrupted = true := hi ▸ h1
      simp [h1, h2, hc]
    · have h2 : ¬ s2.is_interrupted = true := hi ▸ h1
      simp only [h1, h2, if_false]
      apply ih
      · simp [Runner.loopBody_iter, hit]
      · unfold Runner.loopBody
        cases hb : w2.hasSignalService <;> simp [hs, hb, hf, hit, hi]
      · have f1 : List.filter (fun c => !RunnerCall.isLog c) [RunnerCall.IsInterrupted] =
            [RunnerCall.IsInterrupted] := rfl
        have f2 : List.filter (fun c => !RunnerCall.isLog c) [RunnerCall.InvokeUpdate] =
            [RunnerCall.InvokeUpdate] := rfl
        have f3 : ∀ e, List.filter (fun c => !RunnerCall.isLog c)
            [RunnerCall.InvokeUpdate, RunnerCall.LogUpdateFailed e] =
              [RunnerCall.InvokeUpdate] := fun _ => rfl
        unfold Runner.loopBody
        cases hb : w2.hasSignalService <;> cases hu1 : w1.updateResult s1.iter <;>
          cases hu2 : w2.updateResult s2.iter <;>
          simp only [hs, hb, hc, List.filter_append, f1, f2, f3, if_true, if_false,
            Bool.false_eq_true]

/-! ## Claims on `Runner::Run` -/

/-- C5, the code at the failing input and next to it: a runner without a
`SignalService` whose `InvokeCreate` succeeded never leaves the update loop,
whatever the process-global flag reads (after `fuel` passes it has made `fuel`
updates and `Run` has not returned); a runner with a `SignalService` whose flag
first reads set in pass `n` makes exactly `n + 1` updates and returns. -/
theorem Runner.Run_returns_only_with_signal_service (kInterrupted : Int) :
    (∀ (flag : Nat → Bool) (upd : Nat → Result Unit) (fuel : Nat),
      (Runner.Run kInterrupted
          { createResult := .ok (), hasSignalService := false, flagAt := flag,
            updateResult := upd } fuel).result = none ∧
        updateCount (Runner.Run kInterrupted
          { createResult := .ok (), hasSignalService := false, flagAt := flag,
            updateResult := upd } fuel).calls = fuel) ∧
    (∀ (w : RunnerWorld) (n extra : Nat), w.createResult = .ok () →
      w.hasSignalService = true → (∀ j, j < n → w.flagAt j = false) → w.flagAt n = true →
      (Runner.Run kInterrupted w (n + 1 + extra)).result =
          some (.error (Error.FromCode kInterrupted)) ∧
        updateCount (Runner.Run kInterrupted w (n + 1 + extra)).calls = n + 1) := by
  constructor
  · intro flag upd fuel
    have h := Runner.loop_without_signal
      { createResult := .ok (), hasSignalService := false, flagAt := flag, updateResult := upd }
      rfl fuel
      { iter := 0, is_interrupted := false,
        calls := [RunnerCall.InvokeCreate, RunnerCall.GetSignalService] } rfl
    unfold Runner.Run
    simp only
    rcases hloop : Runner.loop
      { createResult := .ok (), hasSignalService := false, flagAt := flag, updateResult := upd }
      fuel
      { iter := 0, is_interrupted := false,
        calls := [RunnerCall.InvokeCreate, RunnerCall.GetSignalService] } with ⟨b, s⟩
    rw [hloop] at h
    obtain ⟨hb, hu⟩ := h
    simp only at hb hu
    subst hb
    simp only [true_and]
    rw [hu]
    simp [updateCount]
  · intro w n extra hc hs hlt hn
    have h := Runner.loop_with_signal w hs n extra
      { iter := 0, is_interrupted := false,
        calls := [RunnerCall.InvokeCreate, RunnerCall.GetSignalService] } rfl
      (fun j hj => by simpa using hlt j hj) (by simpa using hn)
    have hleft := Runner.loop_left w (n + 1 + extra)
      { iter := 0, is_interrupted := false,
        calls := [RunnerCall.InvokeCreate, RunnerCall.GetSignalService] }
    unfold Runner.Run
    rw [hc]
    simp only
    rcases hloop : Runner.loop w (n + 1 + extra)
      { iter := 0, is_interrupted := false,
        calls := [RunnerCall.InvokeCreate, RunnerCall.GetSignalService] } with ⟨b, s⟩
    rw [hloop] at h hleft
    obtain ⟨hb, hu⟩ := h
    simp only at hb hu hleft
    subst hb
    simp only [hleft rfl, if_true, true_and]
    unfold updateCount at hu ⊢
    rw [List.count_append, hu]
    simp [List.count_cons]

/-- C6: when `Run` has returned after a successful `InvokeCreate` (which the
loop allows only once the interrupted flag was observed), its result is the
error with code `kInterrupted`, it has called `InvokeDestroy` exactly once, as
its last call, and the result differs from every error with another code. -/
theorem Runner.Run_interrupted_destroys_once (kInterrupted : Int) (w : RunnerWorld)
    (fuel : Nat) (r : Result Unit) (hc : w.createResult = .ok ())
    (hr : (Runner.Run kInterrupted w fuel).result = some r) :
    r = .error (Error.FromCode kInterrupted) ∧
      (Error.FromCode kInterrupted).code = kInterrupted ∧
      destroyCount (Runner.Run kInterrupted w fuel).calls = 1 ∧
      (Runner.Run kInterrupted w fuel).calls.getLast? = some RunnerCall.InvokeDestroy ∧
      ∀ e : Error, e.code ≠ kInterrupted → r ≠ .error e := by
  obtain ⟨body, hl, h | h⟩ := Runner.Run_ok_shape kInterrupted w fuel () hc
  · rw [h] at hr
    simp at hr
  · rw [h] at hr ⊢
    simp only [Option.some.injEq] at hr
    subst hr
    refine ⟨rfl, rfl, ?_, ?_, ?_⟩
    · unfold destroyCount
      rw [List.count_append, List.count_append,
        List.count_eq_zero_of_not_mem (destroy_not_loop_call body hl)]
      simp [List.count_cons]
    · exact List.getLast?_concat _
    · intro e he heq
      apply he
      have : Error.FromCode kInterrupted = e := Except.error.inj heq
      rw [← this]
      rfl

/-- Witness for C6: the runner whose flag reads set in its third pass. -/
theorem Runner.Run_interrupted_destroys_once_witness :
    signalledRunner.createResult = .ok () ∧
      (Runner.Run 7 signalledRunner 5).result = some (.error (Error.FromCode 7)) ∧
      destroyCount (Runner.Run 7 signalledRunner 5).calls = 1 :=
  ⟨rfl, by decide,
    (Runner.Run_interrupted_destroys_once 7 signalledRunner 5 (.error (Error.FromCode 7)) rfl
      (by decide)).2.2.1⟩

/-- C7: when `InvokeCreate` returns the error `e`, `Run` returns `Err(e)`
unchanged and `InvokeCreate` is its only call: no `InvokeUpdate`, no
`InvokeDestroy`, no lookup of or question to the `SignalService`. -/
theorem Runner.Run_create_error (kInterrupted : Int) (w : RunnerWorld) (fuel : Nat) (e : Error)
    (hc : w.createResult = .error e) :
    Runner.Run kInterrupted w fuel =
      { calls := [RunnerCall.InvokeCreate], result := some (.error e) } := by
  unfold Runner.Run
  rw [hc]

/-- Witness for C7: the runner whose `InvokeCreate` fails with code 5. -/
theorem Runner.Run_create_error_witness :
    failingRunner.createResult = .error (Error.FromCode 5) ∧
      Runner.Run 7 failingRunner 3 =
        { calls := [RunnerCall.InvokeCreate], result := some (.error (Error.FromCode 5)) } :=
  ⟨rfl, Runner.Run_create_error 7 failingRunner 3 (Error.FromCode 5) rfl⟩

/-- C8: in every execution of `Run`, finished or still looping, `InvokeCreate`
is the first call and happens exactly once; there is no `InvokeUpdate` unless
`InvokeCreate` returned Ok, and each `InvokeUpdate` has `InvokeCreate` before
it; `InvokeDestroy` happens at most once, only if `InvokeCreate` returned Ok,
and no call at all (so no `InvokeUpdate`) follows it. -/
theorem Runner.Run_lifecycle_order (kInterrupted : Int) (w : RunnerWorld) (fuel : Nat) :
    (Runner.Run kInterrupted w fuel).calls.head? = some RunnerCall.InvokeCreate ∧
      (Runner.Run kInterrupted w fuel).calls.count RunnerCall.InvokeCreate = 1 ∧
      (Result.IsOk w.createResult = false →
        RunnerCall.InvokeUpdate ∉ (Runner.Run kInterrupted w fuel).calls) ∧
      (∀ pre post, (Runner.Run kInterrupted w fuel).calls = pre ++ RunnerCall.InvokeUpdate :: post →
        RunnerCall.InvokeCreate ∈ pre) ∧
      destroyCount (Runner.Run kInterrupted w fuel).calls ≤ 1 ∧
      (RunnerCall.InvokeDestroy ∈ (Runner.Run kInterrupted w fuel).calls →
        Result.IsOk w.createResult = true) ∧
      (∀ pre post, (Runner.Run kInterrupted w fuel).calls = pre ++ RunnerCall.InvokeDestroy :: post →
        post = []) := by
  have hsplit : ∀ (calls : List RunnerCall), calls.head? = some RunnerCall.InvokeCreate →
      ∀ pre post, calls = pre ++ RunnerCall.InvokeUpdate :: post →
        RunnerCall.InvokeCreate ∈ pre := by
    intro calls hh pre post hp
    subst hp
    cases pre with
    | nil => simp at hh
    | cons a pre =>
      simp only [List.cons_append, List.head?_cons, Option.some.injEq] at hh
      rw [hh]
      exact List.mem_cons_self _ _
  cases hc : w.createResult with
  | error e =>
    rw [Runner.Run_create_failed kInterrupted w fuel e hc]
    refine ⟨rfl, by simp, fun _ => by simp, hsplit _ rfl, by simp [destroyCount], by simp, ?_⟩
    intro pre post hp
    have hp2 : [RunnerCall.InvokeCreate] = pre ++ RunnerCall.InvokeDestroy :: post := hp
    have hm : RunnerCall.InvokeDestroy ∈ [RunnerCall.InvokeCreate] := by
      rw [hp2]; simp
    simp at hm
  | ok u =>
    obtain ⟨body, hl, h | h⟩ := Runner.Run_ok_shape kInterrupted w fuel u hc
    · rw [h]
      have hd := destroy_not_loop_call body hl
      have hcr := create_not_loop_call body hl
      refine ⟨rfl, ?_, fun hf => by simp [Result.IsOk] at hf, hsplit _ rfl, ?_,
        fun _ => rfl, ?_⟩
      · simp [List.count_cons, List.count_eq_zero_of_not_mem hcr]
      · unfold destroyCount
        simp [List.count_cons, List.count_eq_zero_of_not_mem hd]
      · intro pre post hp
        have hp2 : [RunnerCall.InvokeCreate, RunnerCall.GetSignalService] ++ body =
            pre ++ RunnerCall.InvokeDestroy :: post := hp
        have hm : RunnerCall.InvokeDestroy ∈
            [RunnerCall.InvokeCreate, RunnerCall.GetSignalService] ++ body := by
          rw [hp2]; simp
        simp [hd] at hm
    · rw [h]
      have hd := destroy_not_loop_call body hl
      have hcr := create_not_loop_call body hl
      refine ⟨rfl, ?_, fun hf => by simp [Result.IsOk] at hf, hsplit _ rfl, ?_,
        fun _ => rfl, ?_⟩
      · simp [List.count_cons, List.count_eq_zero_of_not_mem hcr]
      · unfold destroyCount
        simp [List.count_cons, List.count_eq_zero_of_not_mem hd]
      · intro pre post hp
        refine nothing_after_last RunnerCall.InvokeDestroy
          ([RunnerCall.InvokeCreate, RunnerCall.GetSignalService] ++ body) pre post ?_ hp.symm
        simp [hd]

/-- Two surroundings that differ at most in the update results give `Run` the
same result and the same calls up to log lines. -/
theorem Runner.Run_update_indep (kInterrupted : Int) (w1 w2 : RunnerWorld)
    (hcr : w1.createResult = w2.createResult)
    (hs : w1.hasSignalService = w2.hasSignalService) (hf : w1.flagAt = w2.flagAt)
    (fuel : Nat) :
    (Runner.Run kInterrupted w1 fuel).result = (Runner.Run kInterrupted w2 fuel).result ∧
      (Runner.Run kInterrupted w1 fuel).calls.filter (fun c => !RunnerCall.isLog c) =
        (Runner.Run kInterrupted w2 fuel).calls.filter (fun c => !RunnerCall.isLog c) := by
  have hind := Runner.loop_update_indep w1 w2 hs hf fuel
    { iter := 0, is_interrupted := false,
      calls := [RunnerCall.InvokeCreate, RunnerCall.GetSignalService] }
    { iter := 0, is_interrupted := false,
      calls := [RunnerCall.InvokeCreate, RunnerCall.GetSignalService] } rfl rfl rfl
  unfold Runner.Run
  rw [hcr]
  cases hc : w2.createResult with
  | error e => exact ⟨rfl, rfl⟩
  | ok u =>
    simp only
    rcases h1 : Runner.loop w1 fuel
      { iter := 0, is_interrupted := false,
        calls := [RunnerCall.InvokeCreate, RunnerCall.GetSignalService] } with ⟨b1, s1⟩
    rcases h2 : Runner.loop w2 fuel
      { iter := 0, is_interrupted := false,
        calls := [RunnerCall.InvokeCreate, RunnerCall.GetSignalService] } with ⟨b2, s2⟩
    rw [h1, h2] at hind
    obtain ⟨hb, hi, hcalls⟩ := hind
    simp only at hb hi hcalls
    subst hb
    cases b1
    · exact ⟨rfl, hcalls⟩
    · refine ⟨by simp [hi], ?_⟩
      simp only [List.filter_append, hcalls]

/-- C9: the value returned by `Run`, and every call it makes apart from the
log lines, are the same whatever `InvokeUpdate` returns in any pass; and a pass
in which `InvokeUpdate` returns an error leaves the loop in the state the
successful pass leaves it in, with one log line added to the calls. -/
theorem Runner.Run_ignores_update_results (kInterrupted : Int) (w : RunnerWorld)
    (upd : Nat → Result Unit) (fuel : Nat) :
    (Runner.Run kInterrupted w fuel).result =
        (Runner.Run kInterrupted { w with updateResult := upd } fuel).result ∧
      (Runner.Run kInterrupted w fuel).calls.filter (fun c => !RunnerCall.isLog c) =
        (Runner.Run kInterrupted { w with updateResult := upd } fuel).calls.filter
          (fun c => !RunnerCall.isLog c) ∧
      (∀ (s : LoopState) (e : Error), w.updateResult s.iter = .error e →
        Runner.loopBody w s =
          { Runner.loopBody { w with updateResult := fun _ => .ok () } s with
            calls := (Runner.loopBody { w with updateResult := fun _ => .ok () } s).calls ++
              [RunnerCall.LogUpdateFailed e] }) := by
  refine ⟨(Runner.Run_update_indep kInterrupted w { w with updateResult := upd } rfl rfl rfl
    fuel).1, (Runner.Run_update_indep kInterrupted w { w with updateResult := upd } rfl rfl rfl
    fuel).2, ?_⟩
  · intro s e he
    unfold Runner.loopBody
    cases hs : w.hasSignalService <;> simp [he, hs]

/-! ## Claims on `SignalService` -/

/-- C3 as stated fails: with the flag set, two `OnUpdate` calls make two
shutdown broadcasts, not one. -/
theorem SignalService.two_updates_two_broadcasts :
    shutdownBroadcasts (SignalService.updates 2 { interrupted_ := true }).2 = 2 ∧
      shutdownBroadcasts (SignalService.updates 2 { interrupted_ := true }).2 ≠ 1 := by
  decide

/-- C3 amended: `OnUpdate` keeps no record of having broadcast. Over any `n`
consecutive `OnUpdate` calls the flag is left as it was, no shutdown broadcast
is made while it is clear, and while it is set every call makes one broadcast,
`n` in all. -/
theorem SignalService.updates_broadcast_each_time (n : Nat) (s : SignalState) :
    (SignalService.updates n s).1 = s ∧
      shutdownBroadcasts (SignalService.updates n s).2 = if s.interrupted_ then n else 0 := by
  induction n with
  | zero => simp [SignalService.updates, shutdownBroadcasts]
  | succ m ih =>
    obtain ⟨h1, h2⟩ := ih
    have hs : (SignalService.OnUpdate s).1 = s := by
      unfold SignalService.OnUpdate
      cases s.interrupted_ <;> rfl
    unfold SignalService.updates
    simp only [hs, h1, true_and]
    unfold shutdownBroadcasts at h2 ⊢
    rw [List.count_append, h2]
    unfold SignalService.OnUpdate
    cases s.interrupted_
    · simp
    · simp [List.count_cons]; omega

/-! ## Claims on `IoEventLoopService` -/

theorem IoEventLoopService.onEpollErr_no_write (w : IoWorld) (event : EpollEvent) :
    ∀ eff ∈ (IoEventLoopService.onEpollErr w event).1,
      IoEffect.emits EventSocketWrite.kEvent eff = false := by
  have hne : (EventSocketError.kEvent == EventSocketWrite.kEvent) = false := by decide
  intro eff h
  unfold IoEventLoopService.onEpollErr at h
  split at h
  · split at h
    · simp only [List.mem_singleton] at h
      subst h; rfl
    · split at h
      · simp only [List.mem_singleton] at h
        subst h; rfl
      · dsimp only at h
        rw [List.mem_append] at h
        rcases h with h | h
        · simp only [List.mem_cons, List.mem_singleton, List.not_mem_nil, or_false] at h
          rcases h with h | h
          · subst h; rfl
          · subst h; exact hne
        · split at h
          · simp only [List.mem_singleton] at h
            subst h; rfl
          · simp at h
  · simp at h

theorem IoEventLoopService.onEpollHup_no_write (w : IoWorld) (event : EpollEvent) :
    ∀ eff ∈ (IoEventLoopService.onEpollHup w event).1,
      IoEffect.emits EventSocketWrite.kEvent eff = false := by
  have hne : (EventSocketClose.kEvent == EventSocketWrite.kEvent) = false := by decide
  intro eff h
  unfold IoEventLoopService.onEpollHup at h
  split at h
  · have hmem : eff ∈ [IoEffect.InvokeEvent EventSocketClose.kEvent
          (FlatJson.Set [] EventSocketClose.kSocketId (Scalar.u64 (castU64 event.fd)))] ++
        (if w.truthy (w.invokeEvent EventSocketClose.kEvent
          (FlatJson.Set [] EventSocketClose.kSocketId (Scalar.u64 (castU64 event.fd)))) then
          [IoEffect.Log "Failed to invoke socket close event"] else []) ++
        [IoEffect.Close event.fd] := by
      split at h <;> exact h
    rw [List.mem_append, List.mem_append] at hmem
    rcases hmem with (hm | hm) | hm
    · simp only [List.mem_singleton] at hm
      subst hm; exact hne
    · split at hm
      · simp only [List.mem_singleton] at hm
        subst hm; rfl
      · simp at hm
    · simp only [List.mem_singleton] at hm
      subst hm; rfl
  · simp at h

theorem IoEventLoopService.onEpollIn_no_write (w : IoWorld) (event : EpollEvent) :
    ∀ eff ∈ IoEventLoopService.onEpollIn w event,
      IoEffect.emits EventSocketWrite.kEvent eff = false := by
  have hne : (EventSocketRead.kEvent == EventSocketWrite.kEvent) = false := by decide
  intro eff h
  unfold IoEventLoopService.onEpollIn at h
  split at h
  · dsimp only at h
    rw [List.mem_append] at h
    rcases h with h | h
    · simp only [List.mem_singleton] at h
      subst h; exact hne
    · split at h
      · simp only [List.mem_singleton] at h
        subst h; rfl
      · simp at h
  · simp at h

theorem IoEventLoopService.OnUpdateEpollEvent_no_write (w : IoWorld) (event : EpollEvent) :
    ∀ eff ∈ (IoEventLoopService.OnUpdateEpollEvent w event).1,
      IoEffect.emits EventSocketWrite.kEvent eff = false := by
  intro eff h
  have h1 := IoEventLoopService.onEpollErr_no_write w event
  have h2 := IoEventLoopService.onEpollHup_no_write w event
  have h3 := IoEventLoopService.onEpollIn_no_write w event
  unfold IoEventLoopService.OnUpdateEpollEvent at h
  rcases he : IoEventLoopService.onEpollErr w event with ⟨e1, r1⟩
  rcases hh : IoEventLoopService.onEpollHup w event with ⟨e2, r2⟩
  rw [he] at h h1
  rw [hh] at h2
  cases r1 with
  | some err => exact h1 eff h
  | none =>
    simp only [hh] at h
    cases r2 with
    | some err =>
      simp only [List.mem_append] at h
      rcases h with h | h
      · exact h1 eff h
      · exact h2 eff h
    | none =>
      simp only [List.mem_append] at h
      rcases h with (h | h) | h
      · exact h1 eff h
      · exact h2 eff h
      · exact h3 eff h

theorem IoEventLoopService.handleEvents_no_write (w : IoWorld) :
    ∀ (events : List EpollEvent), ∀ eff ∈ IoEventLoopService.handleEvents w events,
      IoEffect.emits EventSocketWrite.kEvent eff = false := by
  intro events
  induction events with
  | nil => intro eff h; simp [IoEventLoopService.handleEvents] at h
  | cons event rest ih =>
    intro eff h
    unfold IoEventLoopService.handleEvents at h
    simp only [List.mem_append] at h
    rcases h with (h | h) | h
    · exact IoEventLoopService.OnUpdateEpollEvent_no_write w event eff h
    · split at h
      · simp only [List.mem_singleton] at h
        subst h; rfl
      · simp at h
    · exact ih eff h

/-- The `EPOLLOUT` bit does not change what the tests of `OnUpdateEpollEvent`
see. -/
theorem epollout_bit_unseen (events : Nat) :
    (events ||| EPOLLOUT) &&& EPOLLERR = events &&& EPOLLERR ∧
      (events ||| EPOLLOUT) &&& EPOLLHUP = events &&& EPOLLHUP ∧
      (events ||| EPOLLOUT) &&& EPOLLIN = events &&& EPOLLIN := by
  have e1 : EPOLLOUT &&& EPOLLERR = 0 := by decide
  have e2 : EPOLLOUT &&& EPOLLHUP = 0 := by decide
  have e3 : EPOLLOUT &&& EPOLLIN = 0 := by decide
  refine ⟨?_, ?_, ?_⟩
  · rw [Nat.and_distrib_right, e1, Nat.or_zero]
  · rw [Nat.and_distrib_right, e2, Nat.or_zero]
  · rw [Nat.and_distrib_right, e3, Nat.or_zero]

/-- C4 as stated fails: for a ready event with only `EPOLLOUT` set, `OnUpdate`
waits on epoll and emits nothing. -/
theorem IoEventLoopService.epollout_emits_nothing :
    ⟨EPOLLOUT, 5⟩ ∈ [(⟨EPOLLOUT, 5⟩ : EpollEvent)] ∧
      IoEventLoopService.OnUpdate quietIo true (.ok [⟨EPOLLOUT, 5⟩]) = [IoEffect.EpollWait 0] ∧
      IoEffect.InvokeEvent EventSocketWrite.kEvent
          (FlatJson.Set [] "socket_id" (Scalar.u64 (castU64 5))) ∉
        IoEventLoopService.OnUpdate quietIo true (.ok [⟨EPOLLOUT, 5⟩]) := by
  decide

/-- C4 amended: `IoEventLoopService`'s update never emits a `socket_write`
event, and `OnUpdateEpollEvent` does not look at `EPOLLOUT`: an event with that
bit set is handled exactly as the same event without it, by its `EPOLLERR`,
`EPOLLHUP` and `EPOLLIN` bits alone. -/
theorem IoEventLoopService.update_ignores_epollout (w : IoWorld) (epollFdValid : Bool)
    (epollWait : Except Int (List EpollEvent)) :
    (∀ eff ∈ IoEventLoopService.OnUpdate w epollFdValid epollWait,
        IoEffect.emits EventSocketWrite.kEvent eff = false) ∧
      (∀ (events : Nat) (fd : Int),
        IoEventLoopService.OnUpdateEpollEvent w ⟨events ||| EPOLLOUT, fd⟩ =
          IoEventLoopService.OnUpdateEpollEvent w ⟨events, fd⟩) := by
  constructor
  · intro eff h
    unfold IoEventLoopService.OnUpdate at h
    split at h
    · simp only [List.mem_singleton] at h
      subst h; rfl
    · split at h
      · split at h
        · simp only [List.mem_singleton] at h
          subst h; rfl
        · simp only [List.mem_cons, List.mem_singleton, List.not_mem_nil, or_false] at h
          rcases h with h | h <;> subst h <;> rfl
      · simp only [List.mem_cons] at h
        rcases h with h | h
        · subst h; rfl
        · exact IoEventLoopService.handleEvents_no_write w _ eff h
  · intro events fd
    obtain ⟨h1, h2, h3⟩ := epollout_bit_unseen events
    unfold IoEventLoopService.OnUpdateEpollEvent IoEventLoopService.onEpollErr
      IoEventLoopService.onEpollHup IoEventLoopService.onEpollIn
    simp only [h1, h2, h3]

/-- The zero-filled buffer of `ReadFromFd`, with its first three cells written
out. -/
theorem read_buffer_head :
    List.replicate kReadBufferSize (0 : Nat) = 0 :: 0 :: 0 :: List.replicate 4093 0 := rfl

/-- Once the chunks received add up to more than the buffer holds, `ReadFromFd`
ends by building its result from more bytes than the buffer has: every chunk was
written to the start of the same 4096 bytes. -/
theorem IoEventLoopService.readLoop_past_buffer (w : IoWorld) (kSocketClosed : Int) (fd : Int) :
    ∀ (chunks : List (List Nat)) (buffer : List Nat) (total_read : Nat)
      (effects : List IoEffect),
      buffer.length = kReadBufferSize → (∀ c ∈ chunks, c.length ≤ kReadBufferSize) →
      kReadBufferSize < total_read + (chunks.map List.length).sum →
      IoEventLoopService.readLoop w kSocketClosed fd (recvScript chunks) buffer total_read
          effects =
        ReadOutcome.readsPastBuffer
          (effects ++ List.replicate (chunks.length + 1) (IoEffect.Recv fd))
          (total_read + (chunks.map List.length).sum) := by
  intro chunks
  induction chunks with
  | nil =>
    intro buffer total_read effects hlen _ hsum
    have hnot : ¬ total_read ≤ buffer.length := by
      rw [hlen]
      simp only [List.map_nil, List.sum_nil, Nat.add_zero] at hsum
      omega
    simp [recvScript, IoEventLoopService.readLoop, EAGAIN, EWOULDBLOCK, hnot]
  | cons c cs ih =>
    intro buffer total_read effects hlen hc hsum
    have hclen : c.length ≤ kReadBufferSize := hc c (List.mem_cons_self _ _)
    have hbuf : (c ++ buffer.drop c.length).length = kReadBufferSize := by
      rw [List.length_append, List.length_drop, hlen]
      omega
    have hstep : IoEventLoopService.readLoop w kSocketClosed fd (recvScript (c :: cs)) buffer
        total_read effects =
        IoEventLoopService.readLoop w kSocketClosed fd (recvScript cs)
          (c ++ buffer.drop c.length) (total_read + c.length)
          (effects ++ [IoEffect.Recv fd]) := by
      simp [recvScript, IoEventLoopService.readLoop]
    rw [hstep, ih (c ++ buffer.drop c.length) (total_read + c.length)
      (effects ++ [IoEffect.Recv fd]) hbuf
      (fun x hx => hc x (List.mem_cons_of_mem _ hx))
      (by simp only [List.map_cons, List.sum_cons] at hsum; omega)]
    simp only [List.map_cons, List.sum_cons, List.length_cons, List.append_assoc,
      List.singleton_append, Nat.add_assoc]
    rw [← List.replicate_succ]

/-- C2, the code at the failing input: for the chunks `[1, 2]` and `[3]`
followed by `EAGAIN`, `ReadFromFd` returns Ok with `[3, 2, 0]`, not with the
concatenation `[1, 2, 3]`: the second chunk overwrote the start of the first
and the third byte was never written. And whenever well-formed chunks add up to
more than 4096 bytes (the 10 KiB of the scenario), the result is built from
more bytes than the buffer holds. -/
theorem IoEventLoopService.ReadFromFd_overwrites_chunks (w : IoWorld) (kSocketClosed : Int)
    (fd : Int) :
    (chunkOk [1, 2] ∧ chunkOk [3] ∧
      IoEventLoopService.ReadFromFd w kSocketClosed fd (recvScript [[1, 2], [3]]) =
        ReadOutcome.returned [IoEffect.Recv fd, IoEffect.Recv fd, IoEffect.Recv fd]
          (.ok [3, 2, 0]) ∧
      [3, 2, 0] ≠ [1, 2] ++ [3]) ∧
    (∀ chunks : List (List Nat), (∀ c ∈ chunks, chunkOk c) →
      kReadBufferSize < (chunks.map List.length).sum →
      IoEventLoopService.ReadFromFd w kSocketClosed fd (recvScript chunks) =
        ReadOutcome.readsPastBuffer (List.replicate (chunks.length + 1) (IoEffect.Recv fd))
          (chunks.map List.length).sum) := by
  refine ⟨⟨by simp [chunkOk, kReadBufferSize], by simp [chunkOk, kReadBufferSize], ?_,
    by decide⟩, ?_⟩
  · unfold IoEventLoopService.ReadFromFd
    rw [read_buffer_head]
    generalize List.replicate 4093 (0 : Nat) = tail
    simp [IoEventLoopService.readLoop, recvScript, EAGAIN, EWOULDBLOCK]
  · intro chunks hc hsum
    unfold IoEventLoopService.ReadFromFd
    have h := IoEventLoopService.readLoop_past_buffer w kSocketClosed fd chunks
      (List.replicate kReadBufferSize 0) 0 [] (List.length_replicate _ _)
      (fun c hm => (hc c hm).2) (by omega)
    simpa using h

/-! ## Claims on the example server -/

theorem runDeferred_sub (w : ServerWorld) :
    ∀ (deferred : List ServerCall) (c : ServerCall),
      c ∈ (runDeferred w deferred).1 → c ∈ deferred := by
  intro deferred
  induction deferred with
  | nil => intro c h; simp [runDeferred] at h
  | cons d rest ih =>
    intro c h
    cases d with
    | StopRunner name =>
      unfold runDeferred at h
      split at h
      · simp only [List.mem_cons] at h
        rcases h with h | h
        · rw [h]; exact List.mem_cons_self _ _
        · exact List.mem_cons_of_mem _ (ih c h)
      · simp only [List.mem_singleton] at h
        rw [h]; exact List.mem_cons_self _ _
    | EngineStart | EngineStop | BuildRunner n | StartRunner n | RunRunner n =>
      unfold runDeferred at h
      simp only [List.mem_cons] at h
      rcases h with h | h
      · rw [h]; exact List.mem_cons_self _ _
      · exact List.mem_cons_of_mem _ (ih c h)

theorem runDeferred_returns (w : ServerWorld) (hends : ∀ name, w.threadEnds name = true) :
    ∀ (deferred : List ServerCall), (runDeferred w deferred).2 = true := by
  intro deferred
  induction deferred with
  | nil => rfl
  | cons d rest ih =>
    cases d with
    | StopRunner name =>
      unfold runDeferred
      simp [hends name, ih]
    | EngineStart | EngineStop | BuildRunner n | StartRunner n | RunRunner n =>
      unfold runDeferred
      exact ih

theorem Server.leave_mem (w : ServerWorld) (calls deferred : List ServerCall) (r : Result Unit)
    (c : ServerCall) (h : c ∈ (Server.leave w calls deferred r).calls) :
    c ∈ calls ∨ c ∈ deferred := by
  unfold Server.leave at h
  simp only [List.mem_append] at h
  rcases h with h | h
  · exact Or.inl h
  · exact Or.inr (runDeferred_sub w deferred c h)

theorem Server.battleLoop_built (w : ServerWorld) (hb : ∀ i, w.buildBattleRunner i = .ok ()) :
    ∀ (remaining i : Nat) (calls deferred : List ServerCall),
      (Server.battleLoop w remaining i calls deferred).2.2 = none := by
  intro remaining
  induction remaining with
  | zero => intro i calls deferred; rfl
  | succ n ih =>
    intro i calls deferred
    unfold Server.battleLoop
    rw [hb i]
    simp only [ThreadRunner.Start, Bool.false_eq_true, if_false, OkVoid]
    exact ih _ _ _

/-- A run whose `InvokeCreate` succeeded has either not returned or returned
the `kInterrupted` error. -/
theorem Runner.Run_result_cases (kInterrupted : Int) (w : RunnerWorld) (fuel : Nat)
    (hc : w.createResult = .ok ()) :
    (Runner.Run kInterrupted w fuel).result = none ∨
      (Runner.Run kInterrupted w fuel).result = some (.error (Error.FromCode kInterrupted)) := by
  obtain ⟨body, _, h | h⟩ := Runner.Run_ok_shape kInterrupted w fuel () hc
  · left; rw [h]
  · right; rw [h]

/-- C1 as stated fails: on a four-core machine where everything starts, every
worker thread ends and the main runner's `Run` ends on the interrupted flag,
`main` returns 1, not 0. -/
theorem Server.main_sigint_exit_code_one :
    sigintServer.startsUp ∧
      (Runner.Run 7 sigintServer.mainRunner 5).result = some (.error (Error.FromCode 7)) ∧
      Server.main 7 sigintServer 5 = some 1 ∧ Server.main 7 sigintServer 5 ≠ some 0 := by
  refine ⟨⟨rfl, rfl, fun _ => rfl, rfl⟩, by decide, by decide, by decide⟩

theorem Server.runMainRunner_interrupted (kInterrupted : Int) (w : ServerWorld) (fuel : Nat)
    (c3 d3 : List ServerCall) (hb : w.buildMainRunner = .ok ())
    (hres : (Runner.Run kInterrupted w.mainRunner fuel).result =
      some (.error (Error.FromCode kInterrupted))) :
    Server.runMainRunner kInterrupted w fuel c3 d3 =
      Server.leave w (c3 ++ [ServerCall.BuildRunner "main", ServerCall.RunRunner "main"]) d3
        (.error (Error.FromCode kInterrupted)) := by
  unfold Server.runMainRunner
  rw [hb, hres]

theorem Server.runBattleRunners_interrupted (kInterrupted : Int) (w : ServerWorld) (fuel : Nat)
    (c2 d2 : List ServerCall) (hbattle : ∀ i, w.buildBattleRunner i = .ok ())
    (hb : w.buildMainRunner = .ok ())
    (hres : (Runner.Run kInterrupted w.mainRunner fuel).result =
      some (.error (Error.FromCode kInterrupted))) :
    ∃ calls deferred, Server.runBattleRunners kInterrupted w fuel c2 d2 =
      Server.leave w calls deferred (.error (Error.FromCode kInterrupted)) := by
  unfold Server.runBattleRunners
  generalize battle_count w.core_count = n
  unfold Server.runBattleLoop
  have hloop := Server.battleLoop_built w hbattle n 0 c2 d2
  rcases hl : Server.battleLoop w n 0 c2 d2 with ⟨c3, d3, oe⟩
  rw [hl] at hloop
  have hoe : oe = none := hloop
  subst hoe
  exact ⟨_, _, Server.runMainRunner_interrupted kInterrupted w fuel c3 d3 hb hres⟩

theorem Server.Run_interrupted (kInterrupted : Int) (w : ServerWorld) (fuel : Nat)
    (hstart : w.startsUp)
    (hres : (Runner.Run kInterrupted w.mainRunner fuel).result =
      some (.error (Error.FromCode kInterrupted))) :
    ∃ calls deferred, Server.Run kInterrupted w fuel =
      Server.leave w calls deferred (.error (Error.FromCode kInterrupted)) := by
  obtain ⟨h1, h2, h3, h4⟩ := hstart
  unfold Server.Run
  rw [h1, h2]
  exact Server.runBattleRunners_interrupted kInterrupted w fuel _ _ h3 h4 hres

/-- C1 amended: when the engine and all runners start and the main runner's
`Run` has ended (after a successful `InvokeCreate`, so on the interrupted
flag), `main` does not return 0: `Run` hands the `kInterrupted` error on like
any other error, and `main` returns exit code 1 as soon as the deferred `Stop`
calls have returned. -/
theorem Server.main_exit_code_on_interrupt (kInterrupted : Int) (w : ServerWorld) (fuel : Nat)
    (hstart : w.startsUp) (hcreate : w.mainRunner.createResult = .ok ())
    (hret : (Runner.Run kInterrupted w.mainRunner fuel).result ≠ none) :
    Server.main kInterrupted w fuel ≠ some 0 ∧
      ((∀ name, w.threadEnds name = true) → Server.main kInterrupted w fuel = some 1) := by
  have hres : (Runner.Run kInterrupted w.mainRunner fuel).result =
      some (.error (Error.FromCode kInterrupted)) := by
    rcases Runner.Run_result_cases kInterrupted w.mainRunner fuel hcreate with h | h
    · exact absurd h hret
    · exact h
  obtain ⟨calls, deferred, hrun⟩ := Server.Run_interrupted kInterrupted w fuel hstart hres
  unfold Server.main
  rw [hrun]
  unfold Server.leave
  constructor
  · cases (runDeferred w deferred).2 <;> simp [exitCode, Result.IsOk]
  · intro hends
    simp [runDeferred_returns w hends deferred, exitCode, Result.IsOk]

/-- Witness for C1 amended: the four-core server interrupted in the main
runner's third tick. -/
theorem Server.main_exit_code_on_interrupt_witness :
    sigintServer.startsUp ∧ sigintServer.mainRunner.createResult = .ok () ∧
      (Runner.Run 7 sigintServer.mainRunner 5).result ≠ none ∧
      Server.main 7 sigintServer 5 = some 1 :=
  ⟨⟨rfl, rfl, fun _ => rfl, rfl⟩, rfl, by decide,
    (Server.main_exit_code_on_interrupt 7 sigintServer 5 ⟨rfl, rfl, fun _ => rfl, rfl⟩ rfl
      (by decide)).2 (fun _ => rfl)⟩

theorem mem_of_all {l big : List ServerCall}
    (hall : l.all (fun x => decide (x ∈ big)) = true) {c : ServerCall} (h : c ∈ l) :
    c ∈ big := by
  simpa using List.all_eq_true.mp hall c h

/-- With a core count of 0 no call of `Run` concerns a battle runner: every
call is one of the seven for the engine, the match runner and the main
runner. -/
theorem Server.Run_without_cores (kInterrupted : Int) (w : ServerWorld) (fuel : Nat)
    (h0 : w.core_count = 0) :
    ∀ c ∈ (Server.Run kInterrupted w fuel).calls,
      c ∈ [ServerCall.EngineStart, ServerCall.BuildRunner "match",
        ServerCall.StartRunner "match", ServerCall.BuildRunner "main",
        ServerCall.RunRunner "main", ServerCall.StopRunner "match", ServerCall.EngineStop] := by
  have hbc : battle_count 0 = 0 := by decide
  intro c hmem
  unfold Server.Run at hmem
  split at hmem
  · rcases Server.leave_mem _ _ _ _ _ hmem with h | h <;> exact mem_of_all (by decide) h
  · split at hmem
    · rcases Server.leave_mem _ _ _ _ _ hmem with h | h <;> exact mem_of_all (by decide) h
    · split at hmem
      · rcases Server.leave_mem _ _ _ _ _ hmem with h | h <;> exact mem_of_all (by decide) h
      · unfold Server.runBattleRunners at hmem
        rw [h0, hbc] at hmem
        unfold Server.runBattleLoop Server.battleLoop at hmem
        simp only at hmem
        unfold Server.runMainRunner at hmem
        split at hmem
        · rcases Server.leave_mem _ _ _ _ _ hmem with h | h <;> exact mem_of_all (by decide) h
        · split at hmem
          · exact mem_of_all (by decide) hmem
          · rcases Server.leave_mem _ _ _ _ _ hmem with h | h <;>
              exact mem_of_all (by decide) h
          · rcases Server.leave_mem _ _ _ _ _ hmem with h | h <;>
              exact mem_of_all (by decide) h

/-- C10, the code at the failing input: for a core count of 0 (which
`hardware_concurrency` returns when it cannot tell) the unsigned
`core_count - 3` wraps to `2^32 - 3 > 0`, so `battle_count` is the core count
itself, 0, and `Run` neither builds nor starts the runner `battle:0`; for every
other 32-bit core count `battle_count` is at least 1. -/
theorem battle_count_zero_cores (kInterrupted : Int) (w : ServerWorld) (fuel : Nat) :
    battle_count 0 = 0 ∧ battleName 0 = "battle:0" ∧
      ServerCall.BuildRunner (battleName 0) ∉
        (Server.Run kInterrupted { w with core_count := 0 } fuel).calls ∧
      ServerCall.StartRunner (battleName 0) ∉
        (Server.Run kInterrupted { w with core_count := 0 } fuel).calls ∧
      (∀ core_count, 0 < core_count → core_count < 4294967296 →
        1 ≤ battle_count core_count) := by
  refine ⟨by decide, by decide, ?_, ?_, ?_⟩
  · intro h
    have := Server.Run_without_cores kInterrupted { w with core_count := 0 } fuel rfl _ h
    revert this
    decide
  · intro h
    have := Server.Run_without_cores kInterrupted { w with core_count := 0 } fuel rfl _ h
    revert this
    decide
  · intro core_count hpos _
    unfold battle_count
    split <;> omega

/-! ## Claims on `ReadFromFd` at end of stream -/

theorem filter_replicate_recv (name : String) (fd : Int) (n : Nat) :
    (List.replicate n (IoEffect.Recv fd)).filter (IoEffect.emits name) = [] := by
  induction n with
  | zero => rfl
  | succ m ih => rw [List.replicate_succ, List.filter_cons, ih]; rfl

/-- The read loop on a script that delivers some chunks and then reports the
end of the stream, from any buffer, count and effects so far. -/
theorem IoEventLoopService.readLoop_closed (w : IoWorld) (kSocketClosed : Int) (fd : Int)
    (rest : List RecvResult) :
    ∀ (chunks : List (List Nat)) (buffer : List Nat) (total_read : Nat)
      (effects : List IoEffect),
      IoEventLoopService.readLoop w kSocketClosed fd
          (chunks.map RecvResult.data ++ RecvResult.closed :: rest) buffer total_read effects =
        ReadOutcome.returned
          (effects ++ List.replicate (chunks.length + 1) (IoEffect.Recv fd) ++
            [IoEffect.InvokeEvent EventSocketClose.kEvent
              [(EventSocketClose.kSocketId, Scalar.u64 (castU64 fd))]] ++
            (if Result.IsErr (w.invokeEvent EventSocketClose.kEvent
                [(EventSocketClose.kSocketId, Scalar.u64 (castU64 fd))]) then
              [IoEffect.Log "Failed to invoke socket close event"] else []))
          (.error (Error.FromCodeDetails kSocketClosed [("fd", Scalar.i32 fd)])) := by
  intro chunks
  induction chunks with
  | nil =>
    intro buffer total_read effects
    simp [IoEventLoopService.readLoop, FlatJson.Set]
  | cons c cs ih =>
    intro buffer total_read effects
    have hstep : IoEventLoopService.readLoop w kSocketClosed fd
        ((c :: cs).map RecvResult.data ++ RecvResult.closed :: rest) buffer total_read effects =
        IoEventLoopService.readLoop w kSocketClosed fd
          (cs.map RecvResult.data ++ RecvResult.closed :: rest)
          (c ++ buffer.drop c.length) (total_read + c.length)
          (effects ++ [IoEffect.Recv fd]) := by
      simp [IoEventLoopService.readLoop]
    rw [hstep, ih]
    simp only [List.length_cons, List.append_assoc, List.singleton_append]
    rw [← List.replicate_succ]

/-- C11: whenever `recv` returns 0 after any number of delivered chunks (and
before any `EAGAIN` or other error), `ReadFromFd` emits exactly one local
`socket_close` event, with payload `{socket_id = fd}` (the descriptor converted
to `u64`, which for a descriptor of an open file is the descriptor itself),
and then returns the error with code `kSocketClosed`, never Ok. -/
theorem IoEventLoopService.ReadFromFd_end_of_stream (w : IoWorld) (kSocketClosed : Int)
    (fd : Int) (chunks : List (List Nat)) (rest : List RecvResult) :
    ∃ effects,
      IoEventLoopService.ReadFromFd w kSocketClosed fd
          (chunks.map RecvResult.data ++ RecvResult.closed :: rest) =
        ReadOutcome.returned effects
          (.error (Error.FromCodeDetails kSocketClosed [("fd", Scalar.i32 fd)])) ∧
      effects.filter (IoEffect.emits EventSocketClose.kEvent) =
        [IoEffect.InvokeEvent EventSocketClose.kEvent
          [(EventSocketClose.kSocketId, Scalar.u64 (castU64 fd))]] ∧
      (Error.FromCodeDetails kSocketClosed [("fd", Scalar.i32 fd)]).code = kSocketClosed ∧
      (0 ≤ fd → fd < 2147483648 → (castU64 fd : Int) = fd) := by
  refine ⟨_, IoEventLoopService.readLoop_closed w kSocketClosed fd rest chunks _ 0 [], ?_, rfl,
    ?_⟩
  · simp only [List.nil_append, List.filter_append, filter_replicate_recv]
    split <;> rfl
  · intro h0 h1
    unfold castU64
    omega

/-! ## Claims on `ThreadRunner` -/

/-- C13: `ThreadRunner` has the two states "not running" and "running"
(`thread_.joinable()`). `Start` returns an error exactly when the thread is
running, and then spawns nothing and changes nothing; otherwise it spawns the
thread, returns Ok and the runner is running. `Stop` returns an error exactly
when the thread is not running (never started, or stopped before), and then
joins nothing; otherwise it joins, returns Ok and the runner is not running. -/
theorem ThreadRunner.two_state_machine (t : ThreadRunner) :
    (Result.IsErr (ThreadRunner.Start t).2.2 = true ↔ t.joinable = true) ∧
      ((ThreadRunner.Start t).2.1 = false ↔ t.joinable = true) ∧
      (t.joinable = true → (ThreadRunner.Start t).1 = t) ∧
      (t.joinable = false →
        ThreadRunner.Start t = ({ joinable := true }, true, OkVoid)) ∧
      (Result.IsErr (ThreadRunner.Stop t).2.2 = true ↔ t.joinable = false) ∧
      ((ThreadRunner.Stop t).2.1 = false ↔ t.joinable = false) ∧
      (t.joinable = false → (ThreadRunner.Stop t).1 = t) ∧
      (t.joinable = true →
        ThreadRunner.Stop t = ({ joinable := false }, true, OkVoid)) ∧
      Result.IsErr (ThreadRunner.Stop { joinable := false }).2.2 = true ∧
      Result.IsErr (ThreadRunner.Stop
        (ThreadRunner.Stop (ThreadRunner.Start { joinable := false }).1).1).2.2 = true ∧
      Result.IsErr (ThreadRunner.Start
        (ThreadRunner.Start { joinable := false }).1).2.2 = true := by
  obtain ⟨j⟩ := t
  cases j <;> simp [ThreadRunner.Start, ThreadRunner.Stop, Result.IsErr, OkVoid]

/-! ## Claims on the interrupted flag -/

theorem SignalService.run_without_create (post : List SignalOp) :
    ∀ (s : SignalState), (∀ op ∈ post, SignalOp.isCreate op = false) →
      (SignalService.run s post).interrupted_ =
        (s.interrupted_ || decide (SignalOp.OnSignal SIGINT ∈ post)) := by
  induction post with
  | nil => intro s _; simp [SignalService.run]
  | cons op rest ih =>
    intro s h
    have hrest : ∀ x ∈ rest, SignalOp.isCreate x = false :=
      fun x hx => h x (List.mem_cons_of_mem _ hx)
    have hop := h op (List.mem_cons_self _ _)
    have hrun : SignalService.run s (op :: rest) =
        SignalService.run (SignalService.step s op) rest := rfl
    rw [hrun, ih _ hrest]
    cases op with
    | OnCreate f => simp [SignalOp.isCreate] at hop
    | OnDestroy f =>
      cases f <;> simp [SignalService.step, SignalService.OnDestroy]
    | OnUpdate =>
      cases hs : s.interrupted_ <;> simp [SignalService.step, SignalService.OnUpdate, hs]
    | OnSignal n =>
      by_cases hn : n = SIGINT
      · subst hn
        simp [SignalService.step, SignalService.OnSignal]
      · have hne : (n == SIGINT) = false := by simpa using hn
        have hne2 : ¬ SIGINT = n := fun h => hn h.symm
        simp [SignalService.step, SignalService.OnSignal, hne, hn, hne2]
    | IsInterrupted => simp [SignalService.step]

/-- C17: `OnCreate` clears the flag (also when `signal()` fails),
`OnSignal(SIGINT)` sets it, `OnSignal` with another number, `OnUpdate`,
`OnDestroy` and `IsInterrupted` leave it as it is, and `IsInterrupted` returns
it; hence after any calls, an `OnCreate` and then calls without `OnCreate`,
`IsInterrupted` returns true exactly when one of the calls since that
`OnCreate` was `OnSignal(SIGINT)`. -/
theorem SignalService.flag_tracks_sigint (s : SignalState) :
    (∀ fails errnoJson, (SignalService.OnCreate s fails errnoJson).1.interrupted_ = false) ∧
      (SignalService.OnSignal s SIGINT).1.interrupted_ = true ∧
      (∀ n, n ≠ SIGINT → (SignalService.OnSignal s n).1 = s) ∧
      (SignalService.OnUpdate s).1 = s ∧
      (∀ fails, (SignalService.OnDestroy s fails).1 = s) ∧
      SignalService.step s SignalOp.IsInterrupted = s ∧
      SignalService.IsInterrupted s = s.interrupted_ ∧
      (∀ (pre post : List SignalOp) (fails : Bool),
        (∀ op ∈ post, SignalOp.isCreate op = false) →
        (SignalService.IsInterrupted
            (SignalService.run s (pre ++ SignalOp.OnCreate fails :: post)) = true ↔
          SignalOp.OnSignal SIGINT ∈ post)) := by
  refine ⟨?_, ?_, ?_, ?_, ?_, rfl, rfl, ?_⟩
  · intro fails errnoJson
    cases fails <;> rfl
  · simp [SignalService.OnSignal]
  · intro n hn
    have hne : (n == SIGINT) = false := by simpa using hn
    simp [SignalService.OnSignal, hne]
  · unfold SignalService.OnUpdate
    cases s.interrupted_ <;> rfl
  · intro fails
    cases fails <;> rfl
  · intro pre post fails hpost
    have hrun : SignalService.run s (pre ++ SignalOp.OnCreate fails :: post) =
        SignalService.run { interrupted_ := false } post := by
      unfold SignalService.run
      rw [List.foldl_append, List.foldl_cons]
      cases fails <;> rfl
    rw [hrun]
    unfold SignalService.IsInterrupted
    rw [SignalService.run_without_create post _ hpost]
    simp

/-- C20 as stated fails: called with `SIGINT`, `OnSignal` writes a log line. -/
theorem SignalService.OnSignal_logs :
    (SignalService.OnSignal { interrupted_ := false } SIGINT).2 =
        [SignalEffect.Log "Signal received"] ∧
      (SignalService.OnSignal { interrupted_ := false } SIGINT).2 ≠ [] := by
  decide

/-- C20 amended: for every signal number `OnSignal` sets the process-global
flag if the number is `SIGINT`, leaves it as it is otherwise, and writes
exactly one log line, "Signal received"; it installs or resets no handler and
sends no mail. -/
theorem SignalService.OnSignal_sets_flag_and_logs (s : SignalState) (signal : Int) :
    (SignalService.OnSignal s signal).1 =
        (if signal = SIGINT then { interrupted_ := true } else s) ∧
      (SignalService.OnSignal s signal).2 = [SignalEffect.Log "Signal received"] := by
  unfold SignalService.OnSignal
  by_cases h : signal = SIGINT
  · simp [h]
  · have hne : (signal == SIGINT) = false := by simpa using h
    simp [h, hne]

/-! ## The three blocks of `OnUpdateEpollEvent` -/

theorem IoEventLoopService.onEpollErr_clear (w : IoWorld) (ev : EpollEvent)
    (h : ev.events &&& EPOLLERR = 0) : IoEventLoopService.onEpollErr w ev = ([], none) := by
  unfold IoEventLoopService.onEpollErr
  simp [h]

theorem IoEventLoopService.onEpollErr_failed (w : IoWorld) (ev : EpollEvent) (errno : Int)
    (h : ev.events &&& EPOLLERR ≠ 0) (hg : w.getsockopt ev.fd = .error errno) :
    ∃ e, IoEventLoopService.onEpollErr w ev = ([IoEffect.GetSockOpt ev.fd], some e) := by
  unfold IoEventLoopService.onEpollErr
  rw [hg]
  simp [h]

theorem IoEventLoopService.onEpollErr_zero (w : IoWorld) (ev : EpollEvent)
    (h : ev.events &&& EPOLLERR ≠ 0) (hg : w.getsockopt ev.fd = .ok 0) :
    ∃ e, IoEventLoopService.onEpollErr w ev = ([IoEffect.GetSockOpt ev.fd], some e) := by
  unfold IoEventLoopService.onEpollErr
  rw [hg]
  simp [h]

theorem IoEventLoopService.onEpollErr_code (w : IoWorld) (ev : EpollEvent) (code : Int)
    (h : ev.events &&& EPOLLERR ≠ 0) (hg : w.getsockopt ev.fd = .ok code) (hc : code ≠ 0) :
    IoEventLoopService.onEpollErr w ev =
      ([IoEffect.GetSockOpt ev.fd,
          IoEffect.InvokeEvent EventSocketError.kEvent
            [("socket_id", Scalar.u64 (castU64 ev.fd)), ("error_code", Scalar.i32 code),
              ("error_description", Scalar.str (w.strerror code))]] ++
        (if w.truthy (w.invokeEvent EventSocketError.kEvent
            [("socket_id", Scalar.u64 (castU64 ev.fd)), ("error_code", Scalar.i32 code),
              ("error_description", Scalar.str (w.strerror code))]) then
          [IoEffect.Log "Failed to invoke socket error event"] else []), none) := by
  have hpayload : FlatJson.Set
      (FlatJson.Set
        (FlatJson.Set [] EventSocketError.kSocketId (Scalar.u64 (castU64 ev.fd)))
        EventSocketError.kErrorCode (Scalar.i32 code))
      EventSocketError.kErrorDescription (Scalar.str (w.strerror code)) =
      [("socket_id", Scalar.u64 (castU64 ev.fd)), ("error_code", Scalar.i32 code),
        ("error_description", Scalar.str (w.strerror code))] := by
    simp [FlatJson.Set, EventSocketError.kSocketId, EventSocketError.kErrorCode,
      EventSocketError.kErrorDescription]
  unfold IoEventLoopService.onEpollErr
  rw [hg]
  have hne : (code == 0) = false := by simpa using hc
  simp only [h, ne_eq, not_false_eq_true, if_true, hne, Bool.false_eq_true, if_false, hpayload]

theorem IoEventLoopService.onEpollHup_clear (w : IoWorld) (ev : EpollEvent)
    (h : ev.events &&& EPOLLHUP = 0) : IoEventLoopService.onEpollHup w ev = ([], none) := by
  unfold IoEventLoopService.onEpollHup
  simp [h]

theorem IoEventLoopService.onEpollHup_set (w : IoWorld) (ev : EpollEvent)
    (h : ev.events &&& EPOLLHUP ≠ 0) :
    IoEventLoopService.onEpollHup w ev =
      ([IoEffect.InvokeEvent EventSocketClose.kEvent
            [("socket_id", Scalar.u64 (castU64 ev.fd))]] ++
          (if w.truthy (w.invokeEvent EventSocketClose.kEvent
              [("socket_id", Scalar.u64 (castU64 ev.fd))]) then
            [IoEffect.Log "Failed to invoke socket close event"] else []) ++
          [IoEffect.Close ev.fd],
        match w.close ev.fd with
        | .error e => some (Error.FromCause e)
        | .ok _ => none) := by
  unfold IoEventLoopService.onEpollHup
  have hpayload : FlatJson.Set [] EventSocketClose.kSocketId (Scalar.u64 (castU64 ev.fd)) =
      [("socket_id", Scalar.u64 (castU64 ev.fd))] := rfl
  simp only [h, ne_eq, not_false_eq_true, if_true, hpayload]
  cases w.close ev.fd <;> rfl

theorem IoEventLoopService.onEpollIn_clear (w : IoWorld) (ev : EpollEvent)
    (h : ev.events &&& EPOLLIN = 0) : IoEventLoopService.onEpollIn w ev = [] := by
  unfold IoEventLoopService.onEpollIn
  simp [h]

theorem IoEventLoopService.onEpollIn_set (w : IoWorld) (ev : EpollEvent)
    (h : ev.events &&& EPOLLIN ≠ 0) :
    IoEventLoopService.onEpollIn w ev =
      [IoEffect.InvokeEvent EventSocketRead.kEvent
          [("socket_id", Scalar.u64 (castU64 ev.fd))]] ++
        (if Result.IsErr (w.invokeEvent EventSocketRead.kEvent
            [("socket_id", Scalar.u64 (castU64 ev.fd))]) then
          [IoEffect.Log "Failed to invoke socket read event"] else []) := by
  unfold IoEventLoopService.onEpollIn
  have hpayload : FlatJson.Set [] EventSocketRead.kSocketId (Scalar.u64 (castU64 ev.fd)) =
      [("socket_id", Scalar.u64 (castU64 ev.fd))] := rfl
  simp only [h, ne_eq, not_false_eq_true, if_true, hpayload]

/-- How `OnUpdateEpollEvent` puts its three blocks together: it stops at the
first block that returns an error. -/
theorem IoEventLoopService.OnUpdateEpollEvent_cases (w : IoWorld) (ev : EpollEvent) :
    (∃ e, (IoEventLoopService.onEpollErr w ev).2 = some e ∧
        IoEventLoopService.OnUpdateEpollEvent w ev =
          ((IoEventLoopService.onEpollErr w ev).1, .error e)) ∨
      (∃ e, (IoEventLoopService.onEpollErr w ev).2 = none ∧
        (IoEventLoopService.onEpollHup w ev).2 = some e ∧
        IoEventLoopService.OnUpdateEpollEvent w ev =
          ((IoEventLoopService.onEpollErr w ev).1 ++ (IoEventLoopService.onEpollHup w ev).1,
            .error e)) ∨
      ((IoEventLoopService.onEpollErr w ev).2 = none ∧
        (IoEventLoopService.onEpollHup w ev).2 = none ∧
        IoEventLoopService.OnUpdateEpollEvent w ev =
          ((IoEventLoopService.onEpollErr w ev).1 ++ (IoEventLoopService.onEpollHup w ev).1 ++
            IoEventLoopService.onEpollIn w ev, .ok ())) := by
  unfold IoEventLoopService.OnUpdateEpollEvent
  rcases he : IoEventLoopService.onEpollErr w ev with ⟨e1, r1⟩
  rcases hh : IoEventLoopService.onEpollHup w ev with ⟨e2, r2⟩
  cases r1 with
  | some err => exact Or.inl ⟨err, rfl, rfl⟩
  | none =>
    cases r2 with
    | some err => exact Or.inr (Or.inl ⟨err, rfl, rfl, by simp [hh]⟩)
    | none => exact Or.inr (Or.inr ⟨rfl, rfl, by simp [hh, OkVoid]⟩)

theorem IoEventLoopService.onEpollErr_mem (w : IoWorld) (ev : EpollEvent) (eff : IoEffect)
    (hm : eff ∈ (IoEventLoopService.onEpollErr w ev).1) :
    eff = IoEffect.GetSockOpt ev.fd ∨
      (∃ payload, eff = IoEffect.InvokeEvent EventSocketError.kEvent payload) ∨
      eff = IoEffect.Log "Failed to invoke socket error event" := by
  by_cases h : ev.events &&& EPOLLERR = 0
  · rw [IoEventLoopService.onEpollErr_clear w ev h] at hm
    simp at hm
  · cases hg : w.getsockopt ev.fd with
    | error errno =>
      obtain ⟨e, he⟩ := IoEventLoopService.onEpollErr_failed w ev errno h hg
      rw [he] at hm
      simp only [List.mem_singleton] at hm
      exact Or.inl hm
    | ok code =>
      by_cases hc : code = 0
      · subst hc
        obtain ⟨e, he⟩ := IoEventLoopService.onEpollErr_zero w ev h hg
        rw [he] at hm
        simp only [List.mem_singleton] at hm
        exact Or.inl hm
      · rw [IoEventLoopService.onEpollErr_code w ev code h hg hc] at hm
        simp only [List.mem_append, List.mem_cons, List.mem_singleton, List.not_mem_nil,
          or_false] at hm
        rcases hm with (hm | hm) | hm
        · exact Or.inl hm
        · exact Or.inr (Or.inl ⟨_, hm⟩)
        · split at hm
          · simp only [List.mem_singleton] at hm
            exact Or.inr (Or.inr hm)
          · simp at hm

theorem IoEventLoopService.onEpollHup_mem (w : IoWorld) (ev : EpollEvent) (eff : IoEffect)
    (hm : eff ∈ (IoEventLoopService.onEpollHup w ev).1) :
    (∃ payload, eff = IoEffect.InvokeEvent EventSocketClose.kEvent payload) ∨
      eff = IoEffect.Log "Failed to invoke socket close event" ∨
      eff = IoEffect.Close ev.fd := by
  by_cases h : ev.events &&& EPOLLHUP = 0
  · rw [IoEventLoopService.onEpollHup_clear w ev h] at hm
    simp at hm
  · rw [IoEventLoopService.onEpollHup_set w ev h] at hm
    simp only [List.mem_append, List.mem_singleton] at hm
    rcases hm with (hm | hm) | hm
    · exact Or.inl ⟨_, hm⟩
    · split at hm
      · simp only [List.mem_singleton] at hm
        exact Or.inr (Or.inl hm)
      · simp at hm
    · exact Or.inr (Or.inr hm)

theorem IoEventLoopService.onEpollIn_mem (w : IoWorld) (ev : EpollEvent) (eff : IoEffect)
    (hm : eff ∈ IoEventLoopService.onEpollIn w ev) :
    (∃ payload, eff = IoEffect.InvokeEvent EventSocketRead.kEvent payload) ∨
      eff = IoEffect.Log "Failed to invoke socket read event" := by
  by_cases h : ev.events &&& EPOLLIN = 0
  · rw [IoEventLoopService.onEpollIn_clear w ev h] at hm
    simp at hm
  · rw [IoEventLoopService.onEpollIn_set w ev h] at hm
    simp only [List.mem_append, List.mem_singleton] at hm
    rcases hm with hm | hm
    · exact Or.inl ⟨_, hm⟩
    · split at hm
      · simp only [List.mem_singleton] at hm
        exact Or.inr hm
      · simp at hm

/-- A test that rejects the `getsockopt` call, every `socket_error` event and
every log line keeps nothing of the `EPOLLERR` block. -/
theorem IoEventLoopService.filter_onEpollErr (w : IoWorld) (ev : EpollEvent)
    (p : IoEffect → Bool) (h1 : p (IoEffect.GetSockOpt ev.fd) = false)
    (h2 : ∀ payload, p (IoEffect.InvokeEvent EventSocketError.kEvent payload) = false)
    (h3 : ∀ message, p (IoEffect.Log message) = false) :
    (IoEventLoopService.onEpollErr w ev).1.filter p = [] := by
  rw [List.filter_eq_nil_iff]
  intro eff hm
  rcases IoEventLoopService.onEpollErr_mem w ev eff hm with h | ⟨payload, h⟩ | h <;>
    subst h <;> simp [h1, h2, h3]

/-- A test that rejects every `socket_close` event, every `close` and every
log line keeps nothing of the `EPOLLHUP` block. -/
theorem IoEventLoopService.filter_onEpollHup (w : IoWorld) (ev : EpollEvent)
    (p : IoEffect → Bool)
    (h1 : ∀ payload, p (IoEffect.InvokeEvent EventSocketClose.kEvent payload) = false)
    (h2 : p (IoEffect.Close ev.fd) = false)
    (h3 : ∀ message, p (IoEffect.Log message) = false) :
    (IoEventLoopService.onEpollHup w ev).1.filter p = [] := by
  rw [List.filter_eq_nil_iff]
  intro eff hm
  rcases IoEventLoopService.onEpollHup_mem w ev eff hm with ⟨payload, h⟩ | h | h <;>
    subst h <;> simp [h1, h2, h3]

/-- A test that rejects every `socket_read` event and every log line keeps
nothing of the `EPOLLIN` block. -/
theorem IoEventLoopService.filter_onEpollIn (w : IoWorld) (ev : EpollEvent)
    (p : IoEffect → Bool)
    (h1 : ∀ payload, p (IoEffect.InvokeEvent EventSocketRead.kEvent payload) = false)
    (h3 : ∀ message, p (IoEffect.Log message) = false) :
    (IoEventLoopService.onEpollIn w ev).filter p = [] := by
  rw [List.filter_eq_nil_iff]
  intro eff hm
  rcases IoEventLoopService.onEpollIn_mem w ev eff hm with ⟨payload, h⟩ | h <;>
    subst h <;> simp [h1, h3]

/-! ## Claims on the events of one epoll event -/

/-- C14 as stated fails: for a ready event with `EPOLLIN` and `EPOLLERR` set on
a socket whose `SO_ERROR` reads 0, the update asks `getsockopt`, logs the
handler's error and emits no `socket_read` event. -/
theorem IoEventLoopService.epollin_skipped_after_error :
    (EPOLLIN ||| EPOLLERR) &&& EPOLLIN ≠ 0 ∧
      IoEventLoopService.OnUpdate zeroErrorIo true (.ok [⟨EPOLLIN ||| EPOLLERR, 5⟩]) =
        [IoEffect.EpollWait 0, IoEffect.GetSockOpt 5,
          IoEffect.Log "Failed to update epoll event"] ∧
      (IoEventLoopService.OnUpdate zeroErrorIo true (.ok [⟨EPOLLIN ||| EPOLLERR, 5⟩])).filter
        (IoEffect.emits EventSocketRead.kEvent) = [] := by
  decide

/-- C14 amended: for every ready epoll event with `EPOLLIN` set whose handler
`OnUpdateEpollEvent` returns Ok, exactly one local `socket_read` event is
emitted, with payload `{socket_id = the event's fd}`; when the handler returns
an error (from the `EPOLLERR` or the `EPOLLHUP` block, which come first), it
has emitted no `socket_read` event. -/
theorem IoEventLoopService.epollin_emits_socket_read (w : IoWorld) (ev : EpollEvent)
    (h : ev.events &&& EPOLLIN ≠ 0) :
    ((IoEventLoopService.OnUpdateEpollEvent w ev).2 = .ok () →
        (IoEventLoopService.OnUpdateEpollEvent w ev).1.filter
            (IoEffect.emits EventSocketRead.kEvent) =
          [IoEffect.InvokeEvent EventSocketRead.kEvent
            [("socket_id", Scalar.u64 (castU64 ev.fd))]]) ∧
      (∀ e, (IoEventLoopService.OnUpdateEpollEvent w ev).2 = .error e →
        (IoEventLoopService.OnUpdateEpollEvent w ev).1.filter
          (IoEffect.emits EventSocketRead.kEvent) = []) := by
  have herr := IoEventLoopService.filter_onEpollErr w ev (IoEffect.emits EventSocketRead.kEvent)
    rfl
    (fun _ => show (EventSocketError.kEvent == EventSocketRead.kEvent) = false by decide)
    (fun _ => rfl)
  have hhup := IoEventLoopService.filter_onEpollHup w ev (IoEffect.emits EventSocketRead.kEvent)
    (fun _ => show (EventSocketClose.kEvent == EventSocketRead.kEvent) = false by decide)
    rfl (fun _ => rfl)
  have hin : (IoEventLoopService.onEpollIn w ev).filter (IoEffect.emits EventSocketRead.kEvent) =
      [IoEffect.InvokeEvent EventSocketRead.kEvent
        [("socket_id", Scalar.u64 (castU64 ev.fd))]] := by
    rw [IoEventLoopService.onEpollIn_set w ev h, List.filter_append]
    have hone : List.filter (IoEffect.emits EventSocketRead.kEvent)
        [IoEffect.InvokeEvent EventSocketRead.kEvent
          [("socket_id", Scalar.u64 (castU64 ev.fd))]] =
        [IoEffect.InvokeEvent EventSocketRead.kEvent
          [("socket_id", Scalar.u64 (castU64 ev.fd))]] := by
      simp [IoEffect.emits]
    rw [hone]
    split <;> rfl
  rcases IoEventLoopService.OnUpdateEpollEvent_cases w ev with
    ⟨e, _, hO⟩ | ⟨e, _, _, hO⟩ | ⟨_, _, hO⟩
  · rw [hO]
    exact ⟨fun hok => by simp at hok, fun _ _ => herr⟩
  · rw [hO]
    refine ⟨fun hok => by simp at hok, fun _ _ => ?_⟩
    simp only [List.filter_append, herr, hhup, List.append_nil]
  · rw [hO]
    refine ⟨fun _ => ?_, fun e he => by simp at he⟩
    simp only [List.filter_append, herr, hhup, hin, List.nil_append]

/-- Witness for C14 amended: a readable descriptor 5. -/
theorem IoEventLoopService.epollin_emits_socket_read_witness :
    EPOLLIN &&& EPOLLIN ≠ 0 ∧
      (IoEventLoopService.OnUpdateEpollEvent quietIo ⟨EPOLLIN, 5⟩).1.filter
          (IoEffect.emits EventSocketRead.kEvent) =
        [IoEffect.InvokeEvent EventSocketRead.kEvent [("socket_id", Scalar.u64 (castU64 5))]] :=
  ⟨by decide,
    (IoEventLoopService.epollin_emits_socket_read quietIo ⟨EPOLLIN, 5⟩ (by decide)).1
      (by decide)⟩

/-- C15 as stated fails: for a ready event with `EPOLLHUP` and `EPOLLERR` set
on which `getsockopt` fails, the update logs the handler's error, emits no
`socket_close` event and does not close the descriptor. -/
theorem IoEventLoopService.epollhup_skipped_after_error :
    (EPOLLERR ||| EPOLLHUP) &&& EPOLLHUP ≠ 0 ∧
      IoEventLoopService.OnUpdate badSockoptIo true (.ok [⟨EPOLLERR ||| EPOLLHUP, 5⟩]) =
        [IoEffect.EpollWait 0, IoEffect.GetSockOpt 5,
          IoEffect.Log "Failed to update epoll event"] ∧
      (IoEventLoopService.OnUpdate badSockoptIo true (.ok [⟨EPOLLERR ||| EPOLLHUP, 5⟩])).filter
        (fun eff => IoEffect.emits EventSocketClose.kEvent eff || IoEffect.closes 5 eff) =
        [] := by
  decide

/-- C15 amended: for every ready epoll event with `EPOLLHUP` set whose
`EPOLLERR` block did not return an error (the bit is clear, or `getsockopt`
gave a non-zero `SO_ERROR`), the handler emits one local `socket_close` event
with payload `{socket_id = the event's fd}` and then closes that fd, once; if
closing fails the handler returns an error, the one of `close` wrapped as its
cause. -/
theorem IoEventLoopService.epollhup_emits_socket_close (w : IoWorld) (ev : EpollEvent)
    (h : ev.events &&& EPOLLHUP ≠ 0)
    (herr : ev.events &&& EPOLLERR = 0 ∨
      ∃ code, w.getsockopt ev.fd = .ok code ∧ code ≠ 0) :
    (IoEventLoopService.OnUpdateEpollEvent w ev).1.filter
        (fun eff => IoEffect.emits EventSocketClose.kEvent eff || IoEffect.closes ev.fd eff) =
      [IoEffect.InvokeEvent EventSocketClose.kEvent
          [("socket_id", Scalar.u64 (castU64 ev.fd))], IoEffect.Close ev.fd] ∧
      (∀ e, w.close ev.fd = .error e →
        (IoEventLoopService.OnUpdateEpollEvent w ev).2 = .error (Error.FromCause e)) := by
  have hnone : (IoEventLoopService.onEpollErr w ev).2 = none := by
    rcases herr with h0 | ⟨code, hg, hc⟩
    · rw [IoEventLoopService.onEpollErr_clear w ev h0]
    · by_cases h0 : ev.events &&& EPOLLERR = 0
      · rw [IoEventLoopService.onEpollErr_clear w ev h0]
      · rw [IoEventLoopService.onEpollErr_code w ev code h0 hg hc]
  have hfe := IoEventLoopService.filter_onEpollErr w ev
    (fun eff => IoEffect.emits EventSocketClose.kEvent eff || IoEffect.closes ev.fd eff)
    rfl
    (fun _ => show ((EventSocketError.kEvent == EventSocketClose.kEvent) || false) = false
      by decide)
    (fun _ => rfl)
  have hfi := IoEventLoopService.filter_onEpollIn w ev
    (fun eff => IoEffect.emits EventSocketClose.kEvent eff || IoEffect.closes ev.fd eff)
    (fun _ => show ((EventSocketRead.kEvent == EventSocketClose.kEvent) || false) = false
      by decide)
    (fun _ => rfl)
  have hfh : (IoEventLoopService.onEpollHup w ev).1.filter
      (fun eff => IoEffect.emits EventSocketClose.kEvent eff || IoEffect.closes ev.fd eff) =
      [IoEffect.InvokeEvent EventSocketClose.kEvent
          [("socket_id", Scalar.u64 (castU64 ev.fd))], IoEffect.Close ev.fd] := by
    rw [IoEventLoopService.onEpollHup_set w ev h]
    simp only [List.filter_append]
    have h1 : List.filter
        (fun eff => IoEffect.emits EventSocketClose.kEvent eff || IoEffect.closes ev.fd eff)
        [IoEffect.InvokeEvent EventSocketClose.kEvent
          [("socket_id", Scalar.u64 (castU64 ev.fd))]] =
        [IoEffect.InvokeEvent EventSocketClose.kEvent
          [("socket_id", Scalar.u64 (castU64 ev.fd))]] := by
      simp [IoEffect.emits]
    have h2 : List.filter
        (fun eff => IoEffect.emits EventSocketClose.kEvent eff || IoEffect.closes ev.fd eff)
        [IoEffect.Close ev.fd] = [IoEffect.Close ev.fd] := by
      simp [IoEffect.emits, IoEffect.closes]
    rw [h1, h2]
    split <;> rfl
  have hres : (IoEventLoopService.onEpollHup w ev).2 =
      match w.close ev.fd with
      | .error e => some (Error.FromCause e)
      | .ok _ => none := by
    rw [IoEventLoopService.onEpollHup_set w ev h]
  rcases IoEventLoopService.OnUpdateEpollEvent_cases w ev with
    ⟨e, he, _⟩ | ⟨e, _, hh, hO⟩ | ⟨_, hh, hO⟩
  · rw [hnone] at he
    simp at he
  · rw [hO]
    refine ⟨by simp only [List.filter_append, hfe, hfh, List.nil_append], ?_⟩
    intro e2 hc
    rw [hres, hc] at hh
    simp only [Option.some.injEq] at hh
    rw [hh]
  · rw [hO]
    refine ⟨by simp only [List.filter_append, hfe, hfh, hfi, List.nil_append,
      List.append_nil], ?_⟩
    intro e2 hc
    rw [hres, hc] at hh
    simp at hh

/-- Witness for C15 amended: a hang-up on descriptor 5. -/
theorem IoEventLoopService.epollhup_emits_socket_close_witness :
    EPOLLHUP &&& EPOLLHUP ≠ 0 ∧ EPOLLHUP &&& EPOLLERR = 0 ∧
      (IoEventLoopService.OnUpdateEpollEvent quietIo ⟨EPOLLHUP, 5⟩).1.filter
          (fun eff => IoEffect.emits EventSocketClose.kEvent eff || IoEffect.closes 5 eff) =
        [IoEffect.InvokeEvent EventSocketClose.kEvent [("socket_id", Scalar.u64 (castU64 5))],
          IoEffect.Close 5] :=
  ⟨by decide, by decide,
    (IoEventLoopService.epollhup_emits_socket_close quietIo ⟨EPOLLHUP, 5⟩ (by decide)
      (Or.inl (by decide))).1⟩

/-- C16 as stated fails: for a ready event with `EPOLLERR` set on a socket
whose `SO_ERROR` reads 0, the update asks `getsockopt`, logs the handler's
error and emits no `socket_error` event. -/
theorem IoEventLoopService.epollerr_without_event :
    EPOLLERR &&& EPOLLERR ≠ 0 ∧
      IoEventLoopService.OnUpdate zeroErrorIo true (.ok [⟨EPOLLERR, 5⟩]) =
        [IoEffect.EpollWait 0, IoEffect.GetSockOpt 5,
          IoEffect.Log "Failed to update epoll event"] ∧
      (IoEventLoopService.OnUpdate zeroErrorIo true (.ok [⟨EPOLLERR, 5⟩])).filter
        (IoEffect.emits EventSocketError.kEvent) = [] := by
  decide

/-- C16 amended: for every ready epoll event with `EPOLLERR` set, when
`getsockopt` succeeds with a non-zero `SO_ERROR` value the handler emits
exactly one local `socket_error` event, whose payload has exactly the keys
`socket_id` (the event's fd), `error_code` (that value) and
`error_description` (the text `strerror` gives for it); when `getsockopt`
fails or the value is 0 the handler returns an error after the `getsockopt`
call alone and emits no event. -/
theorem IoEventLoopService.epollerr_emits_socket_error (w : IoWorld) (ev : EpollEvent)
    (h : ev.events &&& EPOLLERR ≠ 0) :
    (∀ code : Int, w.getsockopt ev.fd = .ok code → code ≠ 0 →
      (IoEventLoopService.OnUpdateEpollEvent w ev).1.filter
          (IoEffect.emits EventSocketError.kEvent) =
        [IoEffect.InvokeEvent EventSocketError.kEvent
          [("socket_id", Scalar.u64 (castU64 ev.fd)), ("error_code", Scalar.i32 code),
            ("error_description", Scalar.str (w.strerror code))]]) ∧
      (((∃ errno, w.getsockopt ev.fd = .error errno) ∨ w.getsockopt ev.fd = .ok 0) →
        (∃ e, IoEventLoopService.OnUpdateEpollEvent w ev =
          ([IoEffect.GetSockOpt ev.fd], .error e)) ∧
        (IoEventLoopService.OnUpdateEpollEvent w ev).1.filter IoEffect.isInvokeEvent = []) := by
  constructor
  · intro code hg hc
    have hfh := IoEventLoopService.filter_onEpollHup w ev (IoEffect.emits EventSocketError.kEvent)
      (fun _ => show (EventSocketClose.kEvent == EventSocketError.kEvent) = false by decide)
      rfl (fun _ => rfl)
    have hfi := IoEventLoopService.filter_onEpollIn w ev (IoEffect.emits EventSocketError.kEvent)
      (fun _ => show (EventSocketRead.kEvent == EventSocketError.kEvent) = false by decide)
      (fun _ => rfl)
    have hfe : (IoEventLoopService.onEpollErr w ev).1.filter
        (IoEffect.emits EventSocketError.kEvent) =
        [IoEffect.InvokeEvent EventSocketError.kEvent
          [("socket_id", Scalar.u64 (castU64 ev.fd)), ("error_code", Scalar.i32 code),
            ("error_description", Scalar.str (w.strerror code))]] := by
      rw [IoEventLoopService.onEpollErr_code w ev code h hg hc, List.filter_append]
      have h1 : List.filter (IoEffect.emits EventSocketError.kEvent)
          [IoEffect.GetSockOpt ev.fd,
            IoEffect.InvokeEvent EventSocketError.kEvent
              [("socket_id", Scalar.u64 (castU64 ev.fd)), ("error_code", Scalar.i32 code),
                ("error_description", Scalar.str (w.strerror code))]] =
          [IoEffect.InvokeEvent EventSocketError.kEvent
            [("socket_id", Scalar.u64 (castU64 ev.fd)), ("error_code", Scalar.i32 code),
              ("error_description", Scalar.str (w.strerror code))]] := by
        simp [IoEffect.emits]
      rw [h1]
      split <;> rfl
    have hnone : (IoEventLoopService.onEpollErr w ev).2 = none := by
      rw [IoEventLoopService.onEpollErr_code w ev code h hg hc]
    rcases IoEventLoopService.OnUpdateEpollEvent_cases w ev with
      ⟨e, he, _⟩ | ⟨e, _, _, hO⟩ | ⟨_, _, hO⟩
    · rw [hnone] at he
      simp at he
    · rw [hO]
      simp only [List.filter_append, hfe, hfh, List.append_nil]
    · rw [hO]
      simp only [List.filter_append, hfe, hfh, hfi, List.append_nil]
  · intro hbad
    have herr : ∃ e, IoEventLoopService.onEpollErr w ev =
        ([IoEffect.GetSockOpt ev.fd], some e) := by
      rcases hbad with ⟨errno, hg⟩ | hg
      · exact IoEventLoopService.onEpollErr_failed w ev errno h hg
      · exact IoEventLoopService.onEpollErr_zero w ev h hg
    obtain ⟨e0, he0⟩ := herr
    have hO : IoEventLoopService.OnUpdateEpollEvent w ev =
        ([IoEffect.GetSockOpt ev.fd], .error e0) := by
      rcases IoEventLoopService.OnUpdateEpollEvent_cases w ev with
        ⟨e, he, hO⟩ | ⟨e, he, _, _⟩ | ⟨he, _, _⟩
      · rw [he0] at he hO
        simp only [Option.some.injEq] at he
        rw [hO, he]
      · rw [he0] at he
        simp at he
      · rw [he0] at he
        simp at he
    refine ⟨⟨e0, hO⟩, ?_⟩
    rw [hO]
    rfl

/-- Witness for C16 amended: `ECONNRESET` (104) pending on descriptor 5 gives
the event; `SO_ERROR` 0 and a failing `getsockopt` give an error and no
event. -/
theorem IoEventLoopService.epollerr_emits_socket_error_witness :
    EPOLLERR &&& EPOLLERR ≠ 0 ∧ quietIo.getsockopt 5 = .ok 104 ∧
      (IoEventLoopService.OnUpdateEpollEvent quietIo ⟨EPOLLERR, 5⟩).1.filter
          (IoEffect.emits EventSocketError.kEvent) =
        [IoEffect.InvokeEvent EventSocketError.kEvent
          [("socket_id", Scalar.u64 (castU64 5)), ("error_code", Scalar.i32 104),
            ("error_description", Scalar.str "Connection reset by peer")]] ∧
      zeroErrorIo.getsockopt 5 = .ok 0 ∧
      (IoEventLoopService.OnUpdateEpollEvent zeroErrorIo ⟨EPOLLERR, 5⟩).1.filter
        IoEffect.isInvokeEvent = [] ∧
      badSockoptIo.getsockopt 5 = .error 9 ∧
      (IoEventLoopService.OnUpdateEpollEvent badSockoptIo ⟨EPOLLERR, 5⟩).1.filter
        IoEffect.isInvokeEvent = [] :=
  ⟨by decide, rfl,
    (IoEventLoopService.epollerr_emits_socket_error quietIo ⟨EPOLLERR, 5⟩ (by decide)).1 104 rfl
      (by decide),
    rfl,
    ((IoEventLoopService.epollerr_emits_socket_error zeroErrorIo ⟨EPOLLERR, 5⟩ (by decide)).2
      (Or.inr rfl)).2,
    rfl,
    ((IoEventLoopService.epollerr_emits_socket_error badSockoptIo ⟨EPOLLERR, 5⟩ (by decide)).2
      (Or.inl ⟨9, rfl⟩)).2⟩

/-! ## Claims on `AddFd` and `RemoveFd` -/

/-- C18: with a valid epoll fd `AddFd` calls `epoll_ctl(EPOLL_CTL_ADD)` once,
for `fd`, with an event whose `data.fd` is `fd` and whose mask contains
`EPOLLIN` iff `options.in`, `EPOLLOUT` iff `options.out`, `EPOLLET` iff
`options.edge_trigger`, and no other bit (so mask 0 when all three are false);
with an invalid epoll fd `AddFd` and `RemoveFd` return the `kInvalidEpollFd`
error and make no `epoll_ctl` call. -/
theorem IoEventLoopService.AddFd_mask (w : IoWorld) (kInvalidEpollFd : Int)
    (epollCtl : Except Int Unit) (fd : Int) (options : AddOptions) :
    (IoEventLoopService.AddFd w kInvalidEpollFd true epollCtl fd options).1 =
        [EpollCtlCall.Add fd { events := AddOptionsToEpollEvents options, fd := fd }] ∧
      (AddOptionsToEpollEvents options &&& EPOLLIN = EPOLLIN ↔ options.in_ = true) ∧
      (AddOptionsToEpollEvents options &&& EPOLLOUT = EPOLLOUT ↔ options.out = true) ∧
      (AddOptionsToEpollEvents options &&& EPOLLET = EPOLLET ↔ options.edge_trigger = true) ∧
      AddOptionsToEpollEvents options &&& (EPOLLIN ||| EPOLLOUT ||| EPOLLET) =
        AddOptionsToEpollEvents options ∧
      AddOptionsToEpollEvents { in_ := false, out := false, edge_trigger := false } = 0 ∧
      IoEventLoopService.AddFd w kInvalidEpollFd false epollCtl fd options =
        ([], .error (Error.FromCode kInvalidEpollFd)) ∧
      IoEventLoopService.RemoveFd w kInvalidEpollFd false epollCtl fd =
        ([], .error (Error.FromCode kInvalidEpollFd)) := by
  refine ⟨?_, ?_, ?_, ?_, ?_, rfl, rfl, rfl⟩
  · unfold IoEventLoopService.AddFd
    cases epollCtl <;> rfl
  all_goals
    obtain ⟨a, b, c⟩ := options
    cases a <;> cases b <;> cases c <;> decide

/-! ## Claims on `OnUpdate` -/

theorem IoEventLoopService.OnUpdateEpollEvent_no_epoll_wait (w : IoWorld) (ev : EpollEvent) :
    (IoEventLoopService.OnUpdateEpollEvent w ev).1.filter IoEffect.isEpollWait = [] := by
  have herr := IoEventLoopService.filter_onEpollErr w ev IoEffect.isEpollWait
    rfl (fun _ => rfl) (fun _ => rfl)
  have hhup := IoEventLoopService.filter_onEpollHup w ev IoEffect.isEpollWait
    (fun _ => rfl) rfl (fun _ => rfl)
  have hin := IoEventLoopService.filter_onEpollIn w ev IoEffect.isEpollWait
    (fun _ => rfl) (fun _ => rfl)
  rcases IoEventLoopService.OnUpdateEpollEvent_cases w ev with
    ⟨e, _, hO⟩ | ⟨e, _, _, hO⟩ | ⟨_, _, hO⟩ <;> rw [hO] <;>
    simp only [List.filter_append, herr, hhup, hin, List.append_nil]

theorem IoEventLoopService.handleEvents_cons (w : IoWorld) (ev : EpollEvent)
    (rest : List EpollEvent) :
    IoEventLoopService.handleEvents w (ev :: rest) =
      (IoEventLoopService.OnUpdateEpollEvent w ev).1 ++
        (if Result.IsErr (IoEventLoopService.OnUpdateEpollEvent w ev).2 then
          [IoEffect.Log "Failed to update epoll event"] else []) ++
        IoEventLoopService.handleEvents w rest := by
  show (IoEventLoopService.OnUpdateEpollEvent w ev).1 ++
      (match (IoEventLoopService.OnUpdateEpollEvent w ev).2 with
        | .error _ => [IoEffect.Log "Failed to update epoll event"]
        | .ok _ => []) ++ IoEventLoopService.handleEvents w rest = _
  cases (IoEventLoopService.OnUpdateEpollEvent w ev).2 <;> rfl

theorem IoEventLoopService.handleEvents_append (w : IoWorld) (xs ys : List EpollEvent) :
    IoEventLoopService.handleEvents w (xs ++ ys) =
      IoEventLoopService.handleEvents w xs ++ IoEventLoopService.handleEvents w ys := by
  induction xs with
  | nil => simp [IoEventLoopService.handleEvents]
  | cons ev rest ih =>
    rw [List.cons_append, IoEventLoopService.handleEvents_cons,
      IoEventLoopService.handleEvents_cons, ih]
    simp only [List.append_assoc]

theorem IoEventLoopService.handleEvents_no_epoll_wait (w : IoWorld) (events : List EpollEvent) :
    (IoEventLoopService.handleEvents w events).filter IoEffect.isEpollWait = [] := by
  induction events with
  | nil => simp [IoEventLoopService.handleEvents]
  | cons ev rest ih =>
    rw [IoEventLoopService.handleEvents_cons]
    simp only [List.filter_append, IoEventLoopService.OnUpdateEpollEvent_no_epoll_wait, ih,
      List.append_nil, List.nil_append]
    split <;> rfl

/-- C19: with a valid epoll fd `OnUpdate` calls `epoll_wait` exactly once, with
timeout 0, before anything else, and then handles the ready events in array
order: the effects of a batch are those of its events one after the other, each
event's being the effects of its handler followed by one log line if the
handler returned an error, whatever the handlers of the other events returned.
With an invalid epoll fd it only logs (no `epoll_wait`, no event); when
`epoll_wait` fails it emits no event. `OnUpdate` has no result to report an
error with. -/
theorem IoEventLoopService.OnUpdate_handles_batch (w : IoWorld) (events : List EpollEvent) :
    IoEventLoopService.OnUpdate w true (.ok events) =
        IoEffect.EpollWait 0 :: IoEventLoopService.handleEvents w events ∧
      (IoEventLoopService.OnUpdate w true (.ok events)).filter IoEffect.isEpollWait =
        [IoEffect.EpollWait 0] ∧
      (∀ xs ys : List EpollEvent,
        IoEventLoopService.handleEvents w (xs ++ ys) =
          IoEventLoopService.handleEvents w xs ++ IoEventLoopService.handleEvents w ys) ∧
      (∀ ev : EpollEvent,
        IoEventLoopService.handleEvents w [ev] =
          (IoEventLoopService.OnUpdateEpollEvent w ev).1 ++
            (if Result.IsErr (IoEventLoopService.OnUpdateEpollEvent w ev).2 then
              [IoEffect.Log "Failed to update epoll event"] else [])) ∧
      (∀ epollWait, IoEventLoopService.OnUpdate w false epollWait =
        [IoEffect.Log "Invalid epoll fd"]) ∧
      (∀ errno : Int,
        (IoEventLoopService.OnUpdate w true (.error errno)).filter IoEffect.isInvokeEvent = [] ∧
          (IoEventLoopService.OnUpdate w true (.error errno)).filter IoEffect.isEpollWait =
            [IoEffect.EpollWait 0]) := by
  have hfirst : IoEventLoopService.OnUpdate w true (.ok events) =
      IoEffect.EpollWait 0 :: IoEventLoopService.handleEvents w events := rfl
  refine ⟨hfirst, ?_, IoEventLoopService.handleEvents_append w, ?_, fun _ => rfl, ?_⟩
  · rw [hfirst, List.filter_cons]
    simp [IoEffect.isEpollWait, IoEventLoopService.handleEvents_no_epoll_wait]
  · intro ev
    rw [IoEventLoopService.handleEvents_cons]
    simp [IoEventLoopService.handleEvents]
  · intro errno
    unfold IoEventLoopService.OnUpdate
    by_cases he : errno = EINTR
    · simp [he, IoEffect.isInvokeEvent, IoEffect.isEpollWait]
    · have hne : (errno == EINTR) = false := by simpa using he
      simp [hne, IoEffect.isInvokeEvent, IoEffect.isEpollWait]

/-! ## Claims on `WriteToFd` -/

theorem IoEventLoopService.writeLoop_done (w : IoWorld) (fd : Int) (data : List Nat)
    (sends : List SendResult) (data_sent : Int) (h : ¬ toSizeT data_sent < data.length) :
    IoEventLoopService.writeLoop w fd data sends data_sent = ([], some OkVoid) := by
  cases sends <;> simp [IoEventLoopService.writeLoop, h]

theorem IoEventLoopService.writeLoop_nil (w : IoWorld) (fd : Int) (data : List Nat)
    (data_sent : Int) (h : toSizeT data_sent < data.length) :
    IoEventLoopService.writeLoop w fd data [] data_sent = ([], none) := by
  simp [IoEventLoopService.writeLoop, h]

theorem IoEventLoopService.writeLoop_accepted (w : IoWorld) (fd : Int) (data : List Nat)
    (rest : List SendResult) (data_sent : Int) (n : Nat)
    (h : toSizeT data_sent < data.length) :
    IoEventLoopService.writeLoop w fd data (SendResult.accepted n :: rest) data_sent =
      ({ offset := data_sent, len := sizeDiff data.length data_sent,
          answer := SendResult.accepted n } ::
          (IoEventLoopService.writeLoop w fd data rest (wrapInt (data_sent + n))).1,
        (IoEventLoopService.writeLoop w fd data rest (wrapInt (data_sent + n))).2) := by
  rw [IoEventLoopService.writeLoop]
  simp only [h, if_true]

theorem IoEventLoopService.writeLoop_again (w : IoWorld) (fd : Int) (data : List Nat)
    (rest : List SendResult) (data_sent : Int) (errno : Int)
    (h : toSizeT data_sent < data.length) (he : errno = EAGAIN ∨ errno = EWOULDBLOCK) :
    IoEventLoopService.writeLoop w fd data (SendResult.failed errno :: rest) data_sent =
      ({ offset := data_sent, len := sizeDiff data.length data_sent,
          answer := SendResult.failed errno } ::
          (IoEventLoopService.writeLoop w fd data rest data_sent).1,
        (IoEventLoopService.writeLoop w fd data rest data_sent).2) := by
  have hb : (errno == EAGAIN || errno == EWOULDBLOCK) = true := by
    rcases he with he | he <;> simp [he]
  rw [IoEventLoopService.writeLoop]
  simp only [h, if_true, hb]

theorem IoEventLoopService.writeLoop_failed (w : IoWorld) (fd : Int) (data : List Nat)
    (rest : List SendResult) (data_sent : Int) (errno : Int)
    (h : toSizeT data_sent < data.length) (he : errno ≠ EAGAIN) (he2 : errno ≠ EWOULDBLOCK) :
    ∃ e, IoEventLoopService.writeLoop w fd data (SendResult.failed errno :: rest) data_sent =
      ([{ offset := data_sent, len := sizeDiff data.length data_sent,
          answer := SendResult.failed errno }], some (.error e)) := by
  have hb : (errno == EAGAIN || errno == EWOULDBLOCK) = false := by
    simp [he, he2]
  rw [IoEventLoopService.writeLoop]
  simp only [h, if_true, hb]
  exact ⟨_, rfl⟩

theorem toSizeT_small (d : Nat) (h : d < 2147483648) : toSizeT (d : Int) = d := by
  unfold toSizeT
  omega

theorem sizeDiff_small (size d : Nat) (h : d ≤ size) (hs : size < 2147483648) :
    sizeDiff size (d : Int) = size - d := by
  unfold sizeDiff toSizeT
  omega

theorem wrapInt_small (d n : Nat) (h : d + n < 2147483648) :
    wrapInt ((d : Int) + (n : Int)) = ((d + n : Nat) : Int) := by
  unfold wrapInt
  omega

/-- For data shorter than `2^31` bytes and `send` answers within their offers,
the write loop started with `done` bytes sent offers the unsent rest each time,
returns Ok only when everything was accepted, and returns an error as soon as
a `send` fails with something else than `EAGAIN`. -/
theorem IoEventLoopService.writeLoop_sound (w : IoWorld) (fd : Int) (data : List Nat)
    (hlen : data.length < 2147483648) :
    ∀ (sends : List SendResult) (done : Nat), done ≤ data.length →
      (∀ c ∈ (IoEventLoopService.writeLoop w fd data sends (done : Int)).1,
        SendCall.withinOffer c) →
      offersSuffix data.length done
          (IoEventLoopService.writeLoop w fd data sends (done : Int)).1 ∧
        ((IoEventLoopService.writeLoop w fd data sends (done : Int)).2 = some (.ok ()) →
          done + acceptedSum (IoEventLoopService.writeLoop w fd data sends (done : Int)).1 =
            data.length) ∧
        (∀ c ∈ (IoEventLoopService.writeLoop w fd data sends (done : Int)).1,
          ∀ errno, c.answer = SendResult.failed errno → errno ≠ EAGAIN →
            ∃ e, (IoEventLoopService.writeLoop w fd data sends (done : Int)).2 =
              some (.error e)) := by
  intro sends
  induction sends with
  | nil =>
    intro done hd _
    have hT := toSizeT_small done (by omega)
    by_cases h : toSizeT (done : Int) < data.length
    · rw [IoEventLoopService.writeLoop_nil w fd data _ h]
      refine ⟨trivial, fun hr => by simp at hr, fun c hc => by simp at hc⟩
    · rw [IoEventLoopService.writeLoop_done w fd data _ _ h]
      refine ⟨trivial, fun _ => ?_, fun c hc => by simp at hc⟩
      rw [hT] at h
      simp only [acceptedSum, List.map_nil, List.sum_nil]
      omega
  | cons a rest ih =>
    intro done hd hcontract
    have hT := toSizeT_small done (by omega)
    by_cases h : toSizeT (done : Int) < data.length
    · have hD := sizeDiff_small data.length done hd hlen
      cases a with
      | accepted n =>
        rw [IoEventLoopService.writeLoop_accepted w fd data rest _ n h] at hcontract ⊢
        have hhead := hcontract _ (List.mem_cons_self _ _)
        have hn : n ≤ data.length - done := by
          have : n ≤ sizeDiff data.length (done : Int) := hhead
          rw [hD] at this
          exact this
        rw [hT] at h
        have hW := wrapInt_small done n (by omega)
        rw [hW] at hcontract ⊢
        obtain ⟨i1, i2, i3⟩ := ih (done + n) (by omega)
          (fun c hc => hcontract c (List.mem_cons_of_mem _ hc))
        refine ⟨⟨rfl, hD, i1⟩, fun hr => ?_, fun c hc errno ha hne => ?_⟩
        · have := i2 hr
          simp only [acceptedSum, List.map_cons, List.sum_cons] at this ⊢
          have hb : SendCall.acceptedBytes
              { offset := (done : Int), len := sizeDiff data.length (done : Int),
                answer := SendResult.accepted n } = n := rfl
          rw [hb]
          omega
        · simp only [List.mem_cons] at hc
          rcases hc with hc | hc
          · rw [hc] at ha
            simp at ha
          · exact i3 c hc errno ha hne
      | failed errno =>
        by_cases he : errno = EAGAIN
        · rw [IoEventLoopService.writeLoop_again w fd data rest _ errno h (Or.inl he)]
            at hcontract ⊢
          obtain ⟨i1, i2, i3⟩ := ih done hd
            (fun c hc => hcontract c (List.mem_cons_of_mem _ hc))
          refine ⟨⟨rfl, hD, i1⟩, fun hr => ?_, fun c hc errno2 ha hne => ?_⟩
          · have := i2 hr
            simp only [acceptedSum, List.map_cons, List.sum_cons] at this ⊢
            have hb : SendCall.acceptedBytes
                { offset := (done : Int), len := sizeDiff data.length (done : Int),
                  answer := SendResult.failed errno } = 0 := rfl
            rw [hb]
            omega
          · simp only [List.mem_cons] at hc
            rcases hc with hc | hc
            · rw [hc] at ha
              simp only [SendResult.failed.injEq] at ha
              exact absurd (ha ▸ he) hne
            · exact i3 c hc errno2 ha hne
        · obtain ⟨e, hf⟩ := IoEventLoopService.writeLoop_failed w fd data rest (done : Int)
            errno h he he
          rw [hf]
          refine ⟨⟨rfl, hD, trivial⟩, fun hr => by simp at hr, fun _ _ _ _ _ => ⟨e, rfl⟩⟩
    · rw [IoEventLoopService.writeLoop_done w fd data _ _ h]
      refine ⟨trivial, fun _ => ?_, fun c hc => by simp at hc⟩
      rw [hT] at h
      simp only [acceptedSum, List.map_nil, List.sum_nil]
      omega

/-- On data of `2^31 + 1` bytes, when `send` accepts `2^31 - 4096` bytes and
then 4096 bytes, the `int` counter `data_sent` wraps to `-2^31`, which compares
as a huge `size_t`: the loop ends and `WriteToFd` returns Ok one byte short. -/
theorem IoEventLoopService.writeLoop_counter_wraps (w : IoWorld) (fd : Int) (data : List Nat)
    (hL : data.length = 2147483649) :
    IoEventLoopService.WriteToFd w fd data
        [SendResult.accepted 2147479552, SendResult.accepted 4096] =
      ([{ offset := 0, len := 2147483649, answer := SendResult.accepted 2147479552 },
          { offset := 2147479552, len := 4097, answer := SendResult.accepted 4096 }],
        some OkVoid) := by
  have h0 : toSizeT 0 < data.length := by rw [hL]; decide
  have h1 : toSizeT 2147479552 < data.length := by rw [hL]; decide
  have h2 : ¬ toSizeT (-2147483648) < data.length := by rw [hL]; decide
  have w1 : wrapInt (0 + ((2147479552 : Nat) : Int)) = 2147479552 := by decide
  have w2 : wrapInt (2147479552 + ((4096 : Nat) : Int)) = -2147483648 := by decide
  have d1 : sizeDiff 2147483649 0 = 2147483649 := by decide
  have d2 : sizeDiff 2147483649 2147479552 = 4097 := by decide
  unfold IoEventLoopService.WriteToFd
  rw [IoEventLoopService.writeLoop_accepted w fd data _ 0 _ h0, w1,
    IoEventLoopService.writeLoop_accepted w fd data _ 2147479552 _ h1, w2,
    IoEventLoopService.writeLoop_done w fd data _ _ h2, hL, d1, d2]

/-- C12, the code at the failing input and below it: for data of `2^31 + 1`
bytes of which `send` accepts `2^31 - 4096` and then 4096 bytes, `WriteToFd`
returns Ok although the accepted byte counts add up to `2^31`, one less than
`data.size()` (the `int` counter `data_sent` has wrapped). For data shorter
than `2^31` bytes the claim holds whenever `send` accepts no more than it is
offered: every call is offered exactly the not yet accepted suffix (so `EAGAIN`
is retried without advancing), a `send` failure other than `EAGAIN` makes the
function return an error, and Ok is returned only when the accepted counts add
up to `data.size()`; for empty data Ok is returned without any `send`. -/
theorem IoEventLoopService.WriteToFd_counter_is_int (w : IoWorld) (fd : Int) :
    ((List.replicate 2147483649 (0 : Nat)).length = 2147483649 ∧
      IoEventLoopService.WriteToFd w fd (List.replicate 2147483649 0)
          [SendResult.accepted 2147479552, SendResult.accepted 4096] =
        ([{ offset := 0, len := 2147483649, answer := SendResult.accepted 2147479552 },
            { offset := 2147479552, len := 4097, answer := SendResult.accepted 4096 }],
          some OkVoid) ∧
      acceptedSum
          [{ offset := 0, len := 2147483649, answer := SendResult.accepted 2147479552 },
            { offset := 2147479552, len := 4097, answer := SendResult.accepted 4096 }] =
        2147483648) ∧
    (∀ (data : List Nat) (sends : List SendResult), data.length < 2147483648 →
      (∀ c ∈ (IoEventLoopService.WriteToFd w fd data sends).1, SendCall.withinOffer c) →
      offersSuffix data.length 0 (IoEventLoopService.WriteToFd w fd data sends).1 ∧
        ((IoEventLoopService.WriteToFd w fd data sends).2 = some (.ok ()) →
          acceptedSum (IoEventLoopService.WriteToFd w fd data sends).1 = data.length) ∧
        (∀ c ∈ (IoEventLoopService.WriteToFd w fd data sends).1,
          ∀ errno, c.answer = SendResult.failed errno → errno ≠ EAGAIN →
            ∃ e, (IoEventLoopService.WriteToFd w fd data sends).2 = some (.error e))) ∧
    (∀ sends : List SendResult,
      IoEventLoopService.WriteToFd w fd [] sends = ([], some OkVoid)) := by
  refine ⟨⟨List.length_replicate _ _,
    IoEventLoopService.writeLoop_counter_wraps w fd _ (List.length_replicate _ _), by decide⟩,
    ?_, ?_⟩
  · intro data sends hlen hcontract
    have h := IoEventLoopService.writeLoop_sound w fd data hlen sends 0 (Nat.zero_le _)
      hcontract
    obtain ⟨h1, h2, h3⟩ := h
    refine ⟨h1, fun hr => ?_, h3⟩
    have hsum := h2 hr
    rw [Nat.zero_add] at hsum
    exact hsum
  · intro sends
    exact IoEventLoopService.writeLoop_done w fd [] sends 0 (by decide)

/-! ## Claims on the order within one epoll event -/

/-- C21: for an event with both `EPOLLHUP` and `EPOLLIN` set whose descriptor
was closed by the handler, successfully, the handler's `socket_close` event,
`close` call and `socket_read` event are, in this order:
`socket_close{socket_id = fd}`, `close(fd)`, `socket_read{socket_id = fd}`;
the `socket_read` event for the descriptor comes after its `close`. The blocks
run in the order `EPOLLERR`, `EPOLLHUP`, `EPOLLIN`: the effects of a handler
that returns Ok are those of the three blocks in that order. -/
theorem IoEventLoopService.socket_read_after_close (w : IoWorld) (ev : EpollEvent)
    (h1 : ev.events &&& EPOLLHUP ≠ 0) (h2 : ev.events &&& EPOLLIN ≠ 0)
    (hc : w.close ev.fd = .ok ())
    (hreach : IoEffect.Close ev.fd ∈ (IoEventLoopService.OnUpdateEpollEvent w ev).1) :
    (IoEventLoopService.OnUpdateEpollEvent w ev).1.filter
        (fun eff => IoEffect.emits EventSocketClose.kEvent eff || IoEffect.closes ev.fd eff ||
          IoEffect.emits EventSocketRead.kEvent eff) =
      [IoEffect.InvokeEvent EventSocketClose.kEvent
          [("socket_id", Scalar.u64 (castU64 ev.fd))],
        IoEffect.Close ev.fd,
        IoEffect.InvokeEvent EventSocketRead.kEvent
          [("socket_id", Scalar.u64 (castU64 ev.fd))]] ∧
      IoEventLoopService.OnUpdateEpollEvent w ev =
        ((IoEventLoopService.onEpollErr w ev).1 ++ (IoEventLoopService.onEpollHup w ev).1 ++
          IoEventLoopService.onEpollIn w ev, .ok ()) := by
  have hfe := IoEventLoopService.filter_onEpollErr w ev
    (fun eff => IoEffect.emits EventSocketClose.kEvent eff || IoEffect.closes ev.fd eff ||
      IoEffect.emits EventSocketRead.kEvent eff)
    rfl
    (fun _ => show ((EventSocketError.kEvent == EventSocketClose.kEvent) || false ||
      (EventSocketError.kEvent == EventSocketRead.kEvent)) = false by decide)
    (fun _ => rfl)
  have hfh : (IoEventLoopService.onEpollHup w ev).1.filter
      (fun eff => IoEffect.emits EventSocketClose.kEvent eff || IoEffect.closes ev.fd eff ||
        IoEffect.emits EventSocketRead.kEvent eff) =
      [IoEffect.InvokeEvent EventSocketClose.kEvent
          [("socket_id", Scalar.u64 (castU64 ev.fd))], IoEffect.Close ev.fd] := by
    rw [IoEventLoopService.onEpollHup_set w ev h1]
    simp only [List.filter_append]
    have a1 : List.filter
        (fun eff => IoEffect.emits EventSocketClose.kEvent eff || IoEffect.closes ev.fd eff ||
          IoEffect.emits EventSocketRead.kEvent eff)
        [IoEffect.InvokeEvent EventSocketClose.kEvent
          [("socket_id", Scalar.u64 (castU64 ev.fd))]] =
        [IoEffect.InvokeEvent EventSocketClose.kEvent
          [("socket_id", Scalar.u64 (castU64 ev.fd))]] := by
      simp [IoEffect.emits]
    have a2 : List.filter
        (fun eff => IoEffect.emits EventSocketClose.kEvent eff || IoEffect.closes ev.fd eff ||
          IoEffect.emits EventSocketRead.kEvent eff)
        [IoEffect.Close ev.fd] = [IoEffect.Close ev.fd] := by
      simp [IoEffect.emits, IoEffect.closes]
    rw [a1, a2]
    split <;> rfl
  have hfi : (IoEventLoopService.onEpollIn w ev).filter
      (fun eff => IoEffect.emits EventSocketClose.kEvent eff || IoEffect.closes ev.fd eff ||
        IoEffect.emits EventSocketRead.kEvent eff) =
      [IoEffect.InvokeEvent EventSocketRead.kEvent
          [("socket_id", Scalar.u64 (castU64 ev.fd))]] := by
    rw [IoEventLoopService.onEpollIn_set w ev h2, List.filter_append]
    have a1 : List.filter
        (fun eff => IoEffect.emits EventSocketClose.kEvent eff || IoEffect.closes ev.fd eff ||
          IoEffect.emits EventSocketRead.kEvent eff)
        [IoEffect.InvokeEvent EventSocketRead.kEvent
          [("socket_id", Scalar.u64 (castU64 ev.fd))]] =
        [IoEffect.InvokeEvent EventSocketRead.kEvent
          [("socket_id", Scalar.u64 (castU64 ev.fd))]] := by
      simp [IoEffect.emits]
    rw [a1]
    split <;> rfl
  have hres : (IoEventLoopService.onEpollHup w ev).2 = none := by
    rw [IoEventLoopService.onEpollHup_set w ev h1, hc]
  rcases IoEventLoopService.OnUpdateEpollEvent_cases w ev with
    ⟨e, _, hO⟩ | ⟨e, _, hh, _⟩ | ⟨_, _, hO⟩
  · rw [hO] at hreach
    rcases IoEventLoopService.onEpollErr_mem w ev _ hreach with h | ⟨payload, h⟩ | h <;>
      simp at h
  · rw [hres] at hh
    simp at hh
  · rw [hO]
    refine ⟨?_, rfl⟩
    simp only [List.filter_append, hfe, hfh, hfi, List.nil_append]
    rfl

/-- Witness for C21: hang-up and readable at once on descriptor 5. -/
theorem IoEventLoopService.socket_read_after_close_witness :
    (EPOLLHUP ||| EPOLLIN) &&& EPOLLHUP ≠ 0 ∧ (EPOLLHUP ||| EPOLLIN) &&& EPOLLIN ≠ 0 ∧
      quietIo.close 5 = .ok () ∧
      (IoEventLoopService.OnUpdateEpollEvent quietIo ⟨EPOLLHUP ||| EPOLLIN, 5⟩).1 =
        [IoEffect.InvokeEvent EventSocketClose.kEvent [("socket_id", Scalar.u64 (castU64 5))],
          IoEffect.Close 5,
          IoEffect.InvokeEvent EventSocketRead.kEvent
            [("socket_id", Scalar.u64 (castU64 5))]] ∧
      (IoEventLoopService.OnUpdateEpollEvent quietIo ⟨EPOLLHUP ||| EPOLLIN, 5⟩).2 = .ok () :=
  ⟨by decide, by decide, rfl, by decide,
    congrArg Prod.snd (IoEventLoopService.socket_read_after_close quietIo
      ⟨EPOLLHUP ||| EPOLLIN, 5⟩ (by decide) (by decide) rfl (by decide)).2⟩

/-! ## Claims on ParseNumberString -/

theorem takeWhile_isdigit_append (digits rest : List Char)
    (hd : ∀ d ∈ digits, isdigit d = true) (hr : ∀ c, rest.head? = some c → isdigit c = false) :
    (digits ++ rest).takeWhile isdigit = digits := by
  induction digits with
  | nil =>
    cases rest with
    | nil => rfl
    | cons c t =>
      have := hr c rfl
      simp [List.takeWhile, this]
  | cons d ds ih =>
    have h1 : isdigit d = true := hd d (List.mem_cons_self _ _)
    have h2 := ih (fun x hx => hd x (List.mem_cons_of_mem _ hx))
    simp [List.takeWhile, h1, h2]

theorem head?_dropWhile_isdigit (body : List Char) :
    ∀ c, (body.dropWhile isdigit).head? = some c → isdigit c = false := by
  intro c hc
  have := List.head?_dropWhile_not isdigit body
  rw [hc] at this
  simpa using this

theorem isdigit_cMinus : isdigit cMinus = false := by decide

/-- `ParseNumberString` returns an error exactly when `from_chars` reports
one, with its code. -/
theorem ParseNumberString_error (T : IntegralType) (message : Int → String)
    (token : List Char) (h : (from_chars T token 0).1.ec ≠ errc.none) :
    ParseNumberString T message token =
      .error (Error.FromDetails [("kind", Scalar.str "errc"),
        ("code", Scalar.i32 (from_chars T token 0).1.ec),
        ("message", Scalar.str (message (from_chars T token 0).1.ec))]) := by
  unfold ParseNumberString
  simp only
  rw [if_pos h]
  rfl

/-- The three outcomes of `from_chars`, by the digits after the sign taken. -/
theorem from_chars_cases (T : IntegralType) (token : List Char) (value : Int) :
    ∃ (neg : Bool) (digits rest : List Char),
      token = (if neg then [cMinus] else []) ++ digits ++ rest ∧
      (neg = true → T.is_signed = true) ∧
      (neg = false → T.is_signed = true → token.head? ≠ some cMinus) ∧
      (∀ d ∈ digits, isdigit d = true) ∧
      (∀ c, rest.head? = some c → isdigit c = false) ∧
      ((digits = [] ∧ from_chars T token value = (⟨0, errc.invalid_argument⟩, value)) ∨
        (digits ≠ [] ∧
          ¬ (T.min ≤ (if neg then -(decimalValue digits : Int) else (decimalValue digits : Int)) ∧
            (if neg then -(decimalValue digits : Int) else (decimalValue digits : Int)) ≤ T.max) ∧
          from_chars T token value =
            (⟨(if neg then 1 else 0) + digits.length, errc.result_out_of_range⟩, value)) ∨
        (digits ≠ [] ∧
          (T.min ≤ (if neg then -(decimalValue digits : Int) else (decimalValue digits : Int)) ∧
            (if neg then -(decimalValue digits : Int) else (decimalValue digits : Int)) ≤ T.max) ∧
          from_chars T token value =
            (⟨(if neg then 1 else 0) + digits.length, errc.none⟩,
              if neg then -(decimalValue digits : Int) else (decimalValue digits : Int)))) := by
  by_cases hneg : (T.is_signed && token.head? == some cMinus) = true
  · have hs : T.is_signed = true := by
      rw [Bool.and_eq_true] at hneg; exact hneg.1
    have hh : token.head? = some cMinus := by
      rw [Bool.and_eq_true] at hneg; simpa using hneg.2
    obtain ⟨t, rfl⟩ : ∃ t, token = cMinus :: t := by
      cases token with
      | nil => simp at hh
      | cons a t =>
        simp only [List.head?_cons, Option.some.injEq] at hh
        exact ⟨t, by rw [hh]⟩
    refine ⟨true, t.takeWhile isdigit, t.dropWhile isdigit, ?_, fun _ => hs, fun h => by simp at h,
      fun d hd => (List.mem_takeWhile_imp hd), head?_dropWhile_isdigit t, ?_⟩
    · simp [List.takeWhile_append_dropWhile]
    · unfold from_chars
      simp only [hneg, if_true, List.tail_cons]
      by_cases he : t.takeWhile isdigit = []
      · left
        refine ⟨he, ?_⟩
        rw [he]
        rfl
      · have he2 : (t.takeWhile isdigit).isEmpty = false := by
          simpa [List.isEmpty_iff] using he
        rw [he2]
        simp only [Bool.false_eq_true, if_false]
        by_cases hr : T.min ≤ -(decimalValue (t.takeWhile isdigit) : Int) ∧
            -(decimalValue (t.takeWhile isdigit) : Int) ≤ T.max
        · right; right
          exact ⟨he, hr, by rw [if_pos hr]⟩
        · right; left
          exact ⟨he, hr, by rw [if_neg hr]⟩
  · have hneg2 : (T.is_signed && token.head? == some cMinus) = false := Bool.eq_false_iff.2 hneg
    refine ⟨false, token.takeWhile isdigit, token.dropWhile isdigit, ?_, fun h => by simp at h, ?_,
      fun d hd => (List.mem_takeWhile_imp hd), head?_dropWhile_isdigit token, ?_⟩
    · simp [List.takeWhile_append_dropWhile]
    · intro _ hs hh
      rw [hs, hh] at hneg2
      simp at hneg2
    · unfold from_chars
      simp only [hneg2, Bool.false_eq_true, if_false]
      by_cases he : token.takeWhile isdigit = []
      · left
        refine ⟨he, ?_⟩
        rw [he]
        rfl
      · have he2 : (token.takeWhile isdigit).isEmpty = false := by
          simpa [List.isEmpty_iff] using he
        rw [he2]
        simp only [Bool.false_eq_true, if_false, Nat.zero_add]
        by_cases hr : T.min ≤ (decimalValue (token.takeWhile isdigit) : Int) ∧
            (decimalValue (token.takeWhile isdigit) : Int) ≤ T.max
        · right; right
          exact ⟨he, hr, by rw [if_pos hr]⟩
        · right; left
          exact ⟨he, hr, by rw [if_neg hr]⟩
theorem ParseNumberString_ok (T : IntegralType) (message : Int → String)
    (token : List Char) (h : (from_chars T token 0).1.ec = errc.none) :
    ParseNumberString T message token = .ok (from_chars T token 0).2 := by
  unfold ParseNumberString
  simp only
  rw [if_neg (not_not.2 h)]

/-- `from_chars` on a token that starts with a run of digits, after a minus
sign for a signed type, and goes on with something that is no digit. -/
theorem from_chars_leading_run (T : IntegralType) (neg : Bool) (digits rest : List Char)
    (value : Int) (hs : neg = true → T.is_signed = true) (hne : digits ≠ [])
    (hd : ∀ d ∈ digits, isdigit d = true) (hr : ∀ c, rest.head? = some c → isdigit c = false) :
    from_chars T ((if neg then [cMinus] else []) ++ digits ++ rest) value =
      if T.min ≤ (if neg then -(decimalValue digits : Int) else (decimalValue digits : Int)) ∧
          (if neg then -(decimalValue digits : Int) else (decimalValue digits : Int)) ≤ T.max then
        (⟨(if neg then 1 else 0) + digits.length, errc.none⟩,
          if neg then -(decimalValue digits : Int) else (decimalValue digits : Int))
      else (⟨(if neg then 1 else 0) + digits.length, errc.result_out_of_range⟩, value) := by
  have htw := takeWhile_isdigit_append digits rest hd hr
  have he : digits.isEmpty = false := by simpa [List.isEmpty_iff] using hne
  cases neg with
  | true =>
    have hsig : T.is_signed = true := hs rfl
    unfold from_chars
    simp only [if_true, List.cons_append, List.nil_append, List.head?_cons, hsig, Bool.true_and,
      beq_self_eq_true, List.tail_cons, List.append_assoc]
    rw [htw, he]
    simp only [Bool.false_eq_true, if_false]
  | false =>
    obtain ⟨d, ds, rfl⟩ : ∃ d ds, digits = d :: ds := by
      cases digits with
      | nil => exact absurd rfl hne
      | cons d ds => exact ⟨d, ds, rfl⟩
    have hdm : d ≠ cMinus := by
      intro h
      have h1 := hd d (List.mem_cons_self _ _)
      rw [h, isdigit_cMinus] at h1
      exact absurd h1 (by decide)
    have hhead : (some d == some cMinus) = false := by simpa using hdm
    unfold from_chars
    simp only [Bool.false_eq_true, if_false, List.nil_append, List.cons_append, List.head?_cons,
      hhead, Bool.and_false]
    have htw2 : List.takeWhile isdigit (d :: (ds ++ rest)) = d :: ds := htw
    rw [htw2]
    simp only [List.isEmpty_cons, Bool.false_eq_true, if_false]

/-- C26, for an integral `T`: `ParseNumberString<T>` returns Ok(v) exactly
when the token starts with a run of decimal digits, after a minus sign if `T`
is signed, that is followed by no further digit and denotes a number v that
`T` holds; what follows the run is not looked at. It returns an error only
when there is no such run (code `invalid_argument`) or its number is out of
range for `T` (code `result_out_of_range`). So `80abc` yields 80 for `u16`,
while a token that starts with a plus sign or with a blank is an error. -/
theorem ParseNumberString_takes_leading_number (T : IntegralType) (message : Int → String)
    (token : List Char) :
    (∀ v, ParseNumberString T message token = .ok v ↔
      ∃ (neg : Bool) (digits rest : List Char),
        token = (if neg then [cMinus] else []) ++ digits ++ rest ∧
        (neg = true → T.is_signed = true) ∧ digits ≠ [] ∧
        (∀ d ∈ digits, isdigit d = true) ∧ (∀ c, rest.head? = some c → isdigit c = false) ∧
        v = (if neg then -(decimalValue digits : Int) else (decimalValue digits : Int)) ∧
        T.min ≤ v ∧ v ≤ T.max) ∧
      (∀ e, ParseNumberString T message token = .error e →
        ∃ (neg : Bool) (digits rest : List Char),
          token = (if neg then [cMinus] else []) ++ digits ++ rest ∧
          (neg = true → T.is_signed = true) ∧
          (neg = false → T.is_signed = true → token.head? ≠ some cMinus) ∧
          (∀ d ∈ digits, isdigit d = true) ∧ (∀ c, rest.head? = some c → isdigit c = false) ∧
          ((digits = [] ∧
              e = Error.FromDetails [("kind", Scalar.str "errc"),
                ("code", Scalar.i32 errc.invalid_argument),
                ("message", Scalar.str (message errc.invalid_argument))]) ∨
            (digits ≠ [] ∧
              ¬ (T.min ≤ (if neg then -(decimalValue digits : Int) else (decimalValue digits : Int)) ∧
                (if neg then -(decimalValue digits : Int) else (decimalValue digits : Int)) ≤
                  T.max) ∧
              e = Error.FromDetails [("kind", Scalar.str "errc"),
                ("code", Scalar.i32 errc.result_out_of_range),
                ("message", Scalar.str (message errc.result_out_of_range))]))) ∧
      ParseNumberString u16 message "80abc".toList = .ok 80 ∧
      ParseNumberString u16 message "65535 ".toList = .ok 65535 ∧
      ParseNumberString i32 message "-12.5".toList = .ok (-12) ∧
      Result.IsErr (ParseNumberString u16 message "65536".toList) = true ∧
      Result.IsErr (ParseNumberString u16 message "+80".toList) = true ∧
      Result.IsErr (ParseNumberString u16 message " 80".toList) = true ∧
      Result.IsErr (ParseNumberString u16 message "-1".toList) = true := by
  have hcode : ∀ (p : Nat) (c : Int), c ≠ errc.none →
      (((⟨p, c⟩ : from_chars_result), (0 : Int))).1.ec ≠ errc.none := fun _ _ h => h
  have h22 : errc.invalid_argument ≠ errc.none := by decide
  have h34 : errc.result_out_of_range ≠ errc.none := by decide
  refine ⟨?_, ?_, ?_, ?_, ?_, ?_, ?_, ?_, ?_⟩
  · intro v
    constructor
    · intro hok
      obtain ⟨neg, digits, rest, h1, h2, _, h4, h5, h6⟩ := from_chars_cases T token 0
      rcases h6 with ⟨_, e⟩ | ⟨_, _, e⟩ | ⟨hne, hr, e⟩
      · rw [ParseNumberString_error T message token (by rw [e]; exact hcode _ _ h22)] at hok
        exact Except.noConfusion hok
      · rw [ParseNumberString_error T message token (by rw [e]; exact hcode _ _ h34)] at hok
        exact Except.noConfusion hok
      · rw [ParseNumberString_ok T message token (by rw [e]), e] at hok
        have hv := Except.ok.inj hok
        simp only at hv
        exact ⟨neg, digits, rest, h1, h2, hne, h4, h5, hv.symm, hv ▸ hr.1, hv ▸ hr.2⟩
    · rintro ⟨neg, digits, rest, h1, h2, hne, h4, h5, hv, hmin, hmax⟩
      have e := from_chars_leading_run T neg digits rest 0 h2 hne h4 h5
      rw [← h1, if_pos (by rw [← hv]; exact ⟨hmin, hmax⟩)] at e
      rw [ParseNumberString_ok T message token (by rw [e]), e, hv]
  · intro err herr
    obtain ⟨neg, digits, rest, h1, h2, h3, h4, h5, h6⟩ := from_chars_cases T token 0
    refine ⟨neg, digits, rest, h1, h2, h3, h4, h5, ?_⟩
    rcases h6 with ⟨he, e⟩ | ⟨hne, hr, e⟩ | ⟨_, _, e⟩
    · left
      rw [ParseNumberString_error T message token (by rw [e]; exact hcode _ _ h22), e] at herr
      exact ⟨he, (Except.error.inj herr).symm⟩
    · right
      rw [ParseNumberString_error T message token (by rw [e]; exact hcode _ _ h34), e] at herr
      exact ⟨hne, hr, (Except.error.inj herr).symm⟩
    · rw [ParseNumberString_ok T message token (by rw [e])] at herr
      exact Except.noConfusion herr
  · exact ParseNumberString_ok u16 message _ (by decide)
  · exact ParseNumberString_ok u16 message _ (by decide)
  · exact ParseNumberString_ok i32 message _ (by decide)
  · rw [ParseNumberString_error u16 message _ (by decide)]
    rfl
  · rw [ParseNumberString_error u16 message _ (by decide)]
    rfl
  · rw [ParseNumberString_error u16 message _ (by decide)]
    rfl
  · rw [ParseNumberString_error u16 message _ (by decide)]
    rfl

end kero

namespace core

/-! ## Lemmas on the tiny JSON parser -/

theorem drop_next {input : List Char} {c : Nat} {x : Char} {r : List Char}
    (h : input.drop c = x :: r) : input.drop (c + 1) = r := by
  rw [← List.tail_drop, h]
  rfl

theorem lt_length_of_drop {input : List Char} {c : Nat} {x : Char} {r : List Char}
    (h : input.drop c = x :: r) : c < input.length := by
  by_contra hc
  rw [List.drop_eq_nil_of_le (by omega)] at h
  simp at h

theorem length_of_drop {input : List Char} {c : Nat} {x : Char} {r : List Char}
    (h : input.drop c = x :: r) : c + r.length + 1 = input.length := by
  have h1 := lt_length_of_drop h
  have h2 := congrArg List.length h
  simp only [List.length_drop, List.length_cons] at h2
  omega

theorem getElem?_of_drop {input : List Char} {c : Nat} {x : Char} {r : List Char}
    (h : input.drop c = x :: r) : input[c]? = some x := by
  rw [← List.head?_drop, h]
  rfl

theorem drop_append_at {input : List Char} {c : Nat} {a b : List Char}
    (h : input.drop c = a ++ b) : input.drop (c + a.length) = b := by
  rw [← List.drop_drop, h, List.drop_left]

theorem TinyJsonParser.Current_at {input : List Char} {c : Nat} {x : Char} {r : List Char}
    (h : input.drop c = x :: r) : TinyJsonParser.Current input c = some x := by
  unfold TinyJsonParser.Current
  have := lt_length_of_drop h
  rw [if_neg (by omega), getElem?_of_drop h]

theorem TinyJsonParser.Current_end {input : List Char} {c : Nat}
    (h : input.length ≤ c) : TinyJsonParser.Current input c = none := by
  unfold TinyJsonParser.Current
  rw [if_pos h]

theorem TinyJsonParser.Current_some {input : List Char} {c : Nat} {x : Char}
    (h : TinyJsonParser.Current input c = some x) :
    c < input.length ∧ input.drop c = x :: input.drop (c + 1) := by
  unfold TinyJsonParser.Current at h
  by_cases hc : c ≥ input.length
  · rw [if_pos hc] at h
    simp at h
  · rw [if_neg hc] at h
    have hlt : c < input.length := by omega
    refine ⟨hlt, ?_⟩
    rw [List.drop_eq_getElem_cons hlt]
    rw [List.getElem?_eq_getElem hlt] at h
    simp only [Option.some.injEq] at h
    rw [h]

theorem TinyJsonParser.Consume_at {input : List Char} {c : Nat} {x : Char} {r : List Char}
    (h : input.drop c = x :: r) : TinyJsonParser.Consume input c x = (true, c + 1) := by
  unfold TinyJsonParser.Consume
  have := lt_length_of_drop h
  rw [if_neg (by omega), getElem?_of_drop h]
  simp

theorem TinyJsonParser.Consume_cases (input : List Char) (c : Nat) (ch : Char) :
    (TinyJsonParser.Consume input c ch = (false, c)) ∨
      (TinyJsonParser.Consume input c ch = (true, c + 1) ∧ c < input.length ∧
        input[c]? = some ch) := by
  unfold TinyJsonParser.Consume
  by_cases hc : c ≥ input.length
  · left; rw [if_pos hc]
  · rw [if_neg hc]
    by_cases hx : input[c]? = some ch
    · right
      simp [hx]
      omega
    · left
      simp [hx]

theorem TinyJsonParser.trimLoop_bounds :
    ∀ (rest : List Char) (c : Nat),
      c ≤ TinyJsonParser.trimLoop rest c ∧ TinyJsonParser.trimLoop rest c ≤ c + rest.length := by
  intro rest
  induction rest with
  | nil => intro c; simp [TinyJsonParser.trimLoop]
  | cons x r ih =>
    intro c
    unfold TinyJsonParser.trimLoop
    split
    · have := ih (c + 1)
      simp only [List.length_cons]
      omega
    · simp

theorem TinyJsonParser.Trim_bounds (input : List Char) (c : Nat) (hc : c ≤ input.length) :
    c ≤ TinyJsonParser.Trim input c ∧ TinyJsonParser.Trim input c ≤ input.length := by
  unfold TinyJsonParser.Trim
  have := TinyJsonParser.trimLoop_bounds (input.drop c) c
  simp only [List.length_drop] at this
  omega

theorem TinyJsonParser.Trim_at {input : List Char} {c : Nat} {x : Char} {r : List Char}
    (h : input.drop c = x :: r) (hx : isspace x = false) : TinyJsonParser.Trim input c = c := by
  unfold TinyJsonParser.Trim
  rw [h]
  simp [TinyJsonParser.trimLoop, hx]

theorem TinyJsonParser.scanLoop_bounds :
    ∀ (rest : List Char) (c : Nat),
      c ≤ (TinyJsonParser.scanLoop rest c).2 ∧
        (TinyJsonParser.scanLoop rest c).2 ≤ c + rest.length ∧
        (∀ q, (TinyJsonParser.scanLoop rest c).1 = some q →
          c < q ∧ q < c + rest.length ∧ rest[q - c]? = some cQuote) := by
  intro rest
  induction rest with
  | nil => intro c; simp [TinyJsonParser.scanLoop]
  | cons x r ih =>
    intro c
    cases r with
    | nil => simp [TinyJsonParser.scanLoop]
    | cons y t =>
      unfold TinyJsonParser.scanLoop
      by_cases hy : (y == cQuote) = true
      · simp only [hy, if_true, List.length_cons]
        refine ⟨by omega, by omega, ?_⟩
        intro q hq
        simp only [Option.some.injEq] at hq
        subst hq
        refine ⟨by omega, by omega, ?_⟩
        have : c + 1 - c = 1 := by omega
        rw [this]
        simpa using hy
      · have hy2 : (y == cQuote) = false := by simpa using hy
        simp only [hy2, Bool.false_eq_true, if_false, List.length_cons]
        obtain ⟨i1, i2, i3⟩ := ih (c + 1)
        simp only [List.length_cons] at i2 i3
        refine ⟨by omega, by omega, ?_⟩
        intro q hq
        obtain ⟨j1, j2, j3⟩ := i3 q hq
        refine ⟨by omega, by omega, ?_⟩
        have : q - c = (q - (c + 1)) + 1 := by omega
        rw [this, List.getElem?_cons_succ]
        exact j3

theorem TinyJsonParser.scanLoop_find :
    ∀ (s : List Char) (a : Char) (post : List Char) (c : Nat), cQuote ∉ s →
      TinyJsonParser.scanLoop (a :: s ++ cQuote :: post) c =
        (some (c + 1 + s.length), c + 1 + s.length) := by
  intro s
  induction s with
  | nil =>
    intro a post c _
    simp [TinyJsonParser.scanLoop]
  | cons y t ih =>
    intro a post c hq
    have hy : (y == cQuote) = false := by
      have : y ≠ cQuote := fun h => hq (h ▸ List.mem_cons_self _ _)
      simpa using this
    have ht : cQuote ∉ t := fun h => hq (List.mem_cons_of_mem _ h)
    have hstep : TinyJsonParser.scanLoop (a :: (y :: t) ++ cQuote :: post) c =
        TinyJsonParser.scanLoop (y :: t ++ cQuote :: post) (c + 1) := by
      simp [TinyJsonParser.scanLoop, hy]
    rw [hstep, ih y post (c + 1) ht]
    simp only [List.length_cons]
    have : c + 1 + 1 + t.length = c + 1 + (t.length + 1) := by omega
    rw [this]

theorem substr_within (input : List Char) (pos count : Nat) :
    substr input pos count <:+: input := by
  refine ⟨input.take pos, (input.drop pos).drop count, ?_⟩
  unfold substr
  rw [List.append_assoc, List.take_append_drop, List.take_append_drop]

theorem substr_length (input : List Char) (pos count : Nat) (h : pos + count ≤ input.length) :
    (substr input pos count).length = count := by
  unfold substr
  rw [List.length_take, List.length_drop]
  omega

/-- `ParseString` keeps the cursor within the input, and a string it returns is
a part of the input of at least one character, read after at least an opening
quote, one character and a closing quote. -/
theorem TinyJsonParser.ParseString_bounds (input : List Char) (c : Nat)
    (hc : c ≤ input.length) :
    c ≤ (TinyJsonParser.ParseString input c).2 ∧
      (TinyJsonParser.ParseString input c).2 ≤ input.length ∧
      ∀ str, (TinyJsonParser.ParseString input c).1 = some str →
        1 ≤ str.length ∧ str <:+: input ∧ c + 3 ≤ (TinyJsonParser.ParseString input c).2 := by
  obtain ⟨t1, t2⟩ := TinyJsonParser.Trim_bounds input c hc
  unfold TinyJsonParser.ParseString
  simp only
  cases hcur : TinyJsonParser.Current input (TinyJsonParser.Trim input c) with
  | none => exact ⟨t1, t2, fun str h => by simp at h⟩
  | some ch =>
    simp only
    by_cases hq : (ch != cQuote) = true
    · simp only [hq, if_true]
      exact ⟨t1, t2, fun str h => by simp at h⟩
    · have hq2 : (ch != cQuote) = false := Bool.eq_false_iff.2 hq
      simp only [hq2, Bool.false_eq_true, if_false]
      rcases TinyJsonParser.Consume_cases input (TinyJsonParser.Trim input c) cQuote with
        h | ⟨h, hlt, _⟩
      · rw [h]
        exact ⟨t1, t2, fun str h => by simp at h⟩
      · rw [h]
        simp only
        have sb := TinyJsonParser.scanLoop_bounds
          (input.drop (TinyJsonParser.Trim input c + 1)) (TinyJsonParser.Trim input c + 1)
        rcases hs : TinyJsonParser.scanLoop
          (input.drop (TinyJsonParser.Trim input c + 1)) (TinyJsonParser.Trim input c + 1) with
          ⟨oq, fin⟩
        rw [hs] at sb
        simp only [List.length_drop] at sb
        obtain ⟨s1, s2, s3⟩ := sb
        cases oq with
        | none =>
          simp only
          exact ⟨by omega, by omega, fun str h => by simp at h⟩
        | some q =>
          simp only
          obtain ⟨q1, q2, _⟩ := s3 q rfl
          rcases TinyJsonParser.Consume_cases input q cQuote with h2 | ⟨h2, hlt2, _⟩
          · rw [h2]
            simp only
            exact ⟨by omega, by omega, fun str h => by simp at h⟩
          · rw [h2]
            simp only
            refine ⟨by omega, by omega, ?_⟩
            intro str hstr
            simp only [Option.some.injEq] at hstr
            subst hstr
            refine ⟨?_, substr_within _ _ _, by omega⟩
            rw [substr_length _ _ _ (by omega)]
            omega

/-- `ParseString` on a quoted string: with the cursor on the opening quote of
a string whose characters after the first are no quotes, it returns the string
and leaves the cursor after the closing quote. -/
theorem TinyJsonParser.ParseString_at {input : List Char} {c : Nat} (a : Char)
    (s post : List Char) (h : input.drop c = cQuote :: a :: s ++ cQuote :: post)
    (hs : cQuote ∉ s) :
    TinyJsonParser.ParseString input c = (some (a :: s), c + s.length + 3) ∧
      input.drop (c + s.length + 3) = post := by
  have hsp : isspace cQuote = false := by decide
  have h1 : input.drop (c + 1) = a :: s ++ cQuote :: post := drop_next h
  have h2 : input.drop (c + 1 + (a :: s).length) = cQuote :: post := by
    apply drop_append_at
    simpa using h1
  have h3 : input.drop (c + 1 + (a :: s).length + 1) = post := drop_next h2
  have hlen : c + 1 + (a :: s).length = c + 1 + 1 + s.length := by
    simp only [List.length_cons]; omega
  have hsub : substr input (c + 1) (c + 1 + 1 + s.length - (c + 1)) = a :: s := by
    unfold substr
    rw [h1]
    have : c + 1 + 1 + s.length - (c + 1) = (a :: s).length := by
      simp only [List.length_cons]; omega
    rw [this]
    have hcons : a :: s ++ cQuote :: post = (a :: s) ++ cQuote :: post := rfl
    rw [hcons, List.take_left]
  refine ⟨?_, ?_⟩
  · unfold TinyJsonParser.ParseString
    simp only
    rw [TinyJsonParser.Trim_at h hsp, TinyJsonParser.Current_at h]
    simp only [bne_self_eq_false, Bool.false_eq_true, if_false]
    rw [TinyJsonParser.Consume_at h]
    simp only
    rw [h1, TinyJsonParser.scanLoop_find s a post (c + 1) hs]
    simp only
    rw [hlen] at h2
    rw [TinyJsonParser.Consume_at h2]
    simp only
    rw [hsub]
    have : c + 1 + 1 + s.length + 1 = c + s.length + 3 := by omega
    rw [this]
  · have : c + s.length + 3 = c + 1 + (a :: s).length + 1 := by
      simp only [List.length_cons]; omega
    rw [this]
    exact h3

/-- `ParseKeyValue` keeps the cursor within the input; a pair it returns
consists of two parts of the input of at least one character each, and the
cursor has moved on. -/
theorem TinyJsonParser.ParseKeyValue_bounds (input : List Char) (c : Nat)
    (hc : c ≤ input.length) :
    c ≤ (TinyJsonParser.ParseKeyValue input c).2 ∧
      (TinyJsonParser.ParseKeyValue input c).2 ≤ input.length ∧
      ∀ kv, (TinyJsonParser.ParseKeyValue input c).1 = some kv →
        (1 ≤ kv.1.length ∧ kv.1 <:+: input) ∧ (1 ≤ kv.2.length ∧ kv.2 <:+: input) ∧
          c + 7 ≤ (TinyJsonParser.ParseKeyValue input c).2 := by
  obtain ⟨k1, k2, k3⟩ := TinyJsonParser.ParseString_bounds input c hc
  unfold TinyJsonParser.ParseKeyValue TinyJsonParser.ParseKey TinyJsonParser.ParseValue
  rcases hk : TinyJsonParser.ParseString input c with ⟨okey, c1⟩
  rw [hk] at k1 k2 k3
  simp only at k1 k2 k3
  cases okey with
  | none => exact ⟨k1, k2, fun kv h => by simp at h⟩
  | some key =>
    simp only
    obtain ⟨p1, p2, p3⟩ := k3 key rfl
    obtain ⟨t1, t2⟩ := TinyJsonParser.Trim_bounds input c1 k2
    cases hcur : TinyJsonParser.Current input (TinyJsonParser.Trim input c1) with
    | none =>
      simp only
      exact ⟨by omega, t2, fun kv h => by simp at h⟩
    | some ch =>
      simp only
      by_cases hq : (ch != cColon) = true
      · simp only [hq, if_true]
        exact ⟨by omega, t2, fun kv h => by simp at h⟩
      · have hq2 : (ch != cColon) = false := Bool.eq_false_iff.2 hq
        simp only [hq2, Bool.false_eq_true, if_false]
        rcases TinyJsonParser.Consume_cases input (TinyJsonParser.Trim input c1) cColon with
          h | ⟨h, hlt, _⟩
        · rw [h]
          simp only
          exact ⟨by omega, t2, fun kv h => by simp at h⟩
        · rw [h]
          simp only
          obtain ⟨v1, v2, v3⟩ := TinyJsonParser.ParseString_bounds input
            (TinyJsonParser.Trim input c1 + 1) (by omega)
          rcases hv : TinyJsonParser.ParseString input (TinyJsonParser.Trim input c1 + 1) with
            ⟨oval, c4⟩
          rw [hv] at v1 v2 v3
          simp only at v1 v2 v3
          cases oval with
          | none =>
            simp only
            exact ⟨by omega, v2, fun kv h => by simp at h⟩
          | some value =>
            simp only
            obtain ⟨w1, w2, w3⟩ := v3 value rfl
            refine ⟨by omega, v2, ?_⟩
            intro kv hkv
            simp only [Option.some.injEq] at hkv
            subst hkv
            exact ⟨⟨p1, p2⟩, ⟨w1, w2⟩, by omega⟩

/-- What `Build` writes for one pair, without the comma. -/
theorem TinyJsonStringBuilder.entry_eq (k v : List Char) :
    TinyJsonStringBuilder.entry (k, v) =
      (cQuote :: k ++ cQuote :: cColon :: cQuote :: v ++ [cQuote]) ++ [cComma] := by
  simp [TinyJsonStringBuilder.entry]

/-- `ParseKeyValue` on a written pair: with the cursor on the opening quote of
a written pair, where key and value are not empty and hold no quote, it
returns the pair and leaves the cursor after the value's closing quote. -/
theorem TinyJsonParser.ParseKeyValue_at {input : List Char} {c : Nat} (k v post : List Char)
    (h : input.drop c = cQuote :: k ++ cQuote :: cColon :: cQuote :: v ++ cQuote :: post)
    (hk : k ≠ []) (hkq : cQuote ∉ k) (hv : v ≠ []) (hvq : cQuote ∉ v) :
    TinyJsonParser.ParseKeyValue input c = (some (k, v), c + k.length + v.length + 5) ∧
      input.drop (c + k.length + v.length + 5) = post := by
  obtain ⟨a, s, rfl⟩ : ∃ a s, k = a :: s := by
    cases k with
    | nil => exact absurd rfl hk
    | cons a s => exact ⟨a, s, rfl⟩
  obtain ⟨b, t, rfl⟩ : ∃ b t, v = b :: t := by
    cases v with
    | nil => exact absurd rfl hv
    | cons b t => exact ⟨b, t, rfl⟩
  have hs : cQuote ∉ s := fun hm => hkq (List.mem_cons_of_mem _ hm)
  have ht : cQuote ∉ t := fun hm => hvq (List.mem_cons_of_mem _ hm)
  have h0 : input.drop c =
      cQuote :: a :: s ++ cQuote :: (cColon :: cQuote :: b :: t ++ cQuote :: post) := by
    rw [h]; simp
  obtain ⟨e1, d1⟩ := TinyJsonParser.ParseString_at a s _ h0 hs
  have d2 : input.drop (c + s.length + 3 + 1) = cQuote :: b :: t ++ cQuote :: post :=
    drop_next d1
  obtain ⟨e2, d3⟩ := TinyJsonParser.ParseString_at b t post d2 ht
  have hsp : isspace cColon = false := by decide
  have hfin : c + s.length + 3 + 1 + t.length + 3 =
      c + (a :: s).length + (b :: t).length + 5 := by
    simp only [List.length_cons]; omega
  refine ⟨?_, ?_⟩
  · unfold TinyJsonParser.ParseKeyValue TinyJsonParser.ParseKey TinyJsonParser.ParseValue
    rw [e1]
    simp only
    rw [TinyJsonParser.Trim_at d1 hsp, TinyJsonParser.Current_at d1]
    simp only [bne_self_eq_false, Bool.false_eq_true, if_false]
    rw [TinyJsonParser.Consume_at d1]
    simp only
    rw [e2]
    simp only
    rw [hfin]
  · rw [← hfin]
    exact d3

theorem TinyJsonMap.within_emplace (input : List Char) (data : TinyJsonMap) (k v : List Char)
    (hd : TinyJsonMap.within input data)
    (hk : 1 ≤ k.length ∧ k <:+: input) (hv : 1 ≤ v.length ∧ v <:+: input) :
    TinyJsonMap.within input (TinyJsonMap.emplace data k v) := by
  unfold TinyJsonMap.emplace
  split
  · exact hd
  · intro p hp
    rw [List.mem_append] at hp
    rcases hp with hp | hp
    · exact hd p hp
    · simp only [List.mem_singleton] at hp
      subst hp
      exact ⟨hk, hv⟩

/-- The loop of `Parse` ends within the passes allowed whenever these exceed
the number of characters left; the cursor stays within the input; and a map is
returned only after a closing brace was consumed, its keys and values being
parts of the input of at least one character. -/
theorem TinyJsonParser.parseLoop_total (input : List Char) :
    ∀ (fuel c : Nat) (data : TinyJsonMap), c ≤ input.length → input.length - c < fuel →
      ∃ r c2, TinyJsonParser.parseLoop input fuel c data = some (r, c2) ∧ c ≤ c2 ∧
        c2 ≤ input.length ∧
        ∀ m, r = some m →
          (TinyJsonMap.within input data → TinyJsonMap.within input m) ∧ 1 ≤ c2 ∧
            input[c2 - 1]? = some cRBrace := by
  intro fuel
  induction fuel with
  | zero => intro c data _ hf; omega
  | succ f ih =>
    intro c data hc hf
    obtain ⟨t1, t2⟩ := TinyJsonParser.Trim_bounds input c hc
    unfold TinyJsonParser.parseLoop
    simp only
    cases hcur : TinyJsonParser.Current input (TinyJsonParser.Trim input c) with
    | none => exact ⟨none, _, rfl, t1, t2, fun m h => by simp at h⟩
    | some ch =>
      simp only
      by_cases hb : (ch == cRBrace) = true
      · simp only [hb, if_true]
        rcases TinyJsonParser.Consume_cases input (TinyJsonParser.Trim input c) cRBrace with
          h | ⟨h, hlt, hget⟩
        · rw [h]
          exact ⟨none, _, rfl, t1, t2, fun m h => by simp at h⟩
        · rw [h]
          refine ⟨some data, _, rfl, by omega, by omega, ?_⟩
          intro m hm
          simp only [Option.some.injEq] at hm
          subst hm
          exact ⟨fun hd => hd, by omega, by simpa using hget⟩
      · have hb2 : (ch == cRBrace) = false := Bool.eq_false_iff.2 hb
        simp only [hb2, Bool.false_eq_true, if_false]
        obtain ⟨k1, k2, k3⟩ := TinyJsonParser.ParseKeyValue_bounds input
          (TinyJsonParser.Trim input c) t2
        rcases hkv : TinyJsonParser.ParseKeyValue input (TinyJsonParser.Trim input c) with
          ⟨okv, c2⟩
        rw [hkv] at k1 k2 k3
        simp only at k1 k2 k3
        cases okv with
        | none => exact ⟨none, _, rfl, by omega, k2, fun m h => by simp at h⟩
        | some kv =>
          simp only
          obtain ⟨p1, p2, p3⟩ := k3 kv rfl
          obtain ⟨u1, u2⟩ := TinyJsonParser.Trim_bounds input c2 k2
          cases hcur2 : TinyJsonParser.Current input (TinyJsonParser.Trim input c2) with
          | none => exact ⟨none, _, rfl, by omega, u2, fun m h => by simp at h⟩
          | some ch2 =>
            simp only
            by_cases hcm : (ch2 == cComma) = true
            · simp only [hcm, if_true]
              rcases TinyJsonParser.Consume_cases input (TinyJsonParser.Trim input c2) cComma
                with h | ⟨h, hlt, _⟩
              · rw [h]
                exact ⟨none, _, rfl, by omega, u2, fun m h => by simp at h⟩
              · rw [h]
                simp only
                obtain ⟨r, c5, e, b1, b2, b3⟩ := ih (TinyJsonParser.Trim input c2 + 1)
                  (TinyJsonMap.emplace data kv.1 kv.2) (by omega) (by omega)
                refine ⟨r, c5, e, by omega, b2, ?_⟩
                intro m hm
                obtain ⟨g1, g2, g3⟩ := b3 m hm
                exact ⟨fun hd => g1 (TinyJsonMap.within_emplace input data _ _ hd p1 p2),
                  g2, g3⟩
            · have hcm2 : (ch2 == cComma) = false := Bool.eq_false_iff.2 hcm
              simp only [hcm2, Bool.false_eq_true, if_false]
              obtain ⟨r, c5, e, b1, b2, b3⟩ := ih (TinyJsonParser.Trim input c2)
                (TinyJsonMap.emplace data kv.1 kv.2) u2 (by omega)
              refine ⟨r, c5, e, by omega, b2, ?_⟩
              intro m hm
              obtain ⟨g1, g2, g3⟩ := b3 m hm
              exact ⟨fun hd => g1 (TinyJsonMap.within_emplace input data _ _ hd p1 p2),
                g2, g3⟩

/-- More passes than needed change nothing. -/
theorem TinyJsonParser.parseLoop_more (input : List Char) :
    ∀ (fuel extra c : Nat) (data : TinyJsonMap) (r : Option TinyJsonMap × Nat),
      TinyJsonParser.parseLoop input fuel c data = some r →
      TinyJsonParser.parseLoop input (fuel + extra) c data = some r := by
  intro fuel
  induction fuel with
  | zero => intro extra c data r h; simp [TinyJsonParser.parseLoop] at h
  | succ f ih =>
    intro extra c data r h
    have hadd : f + 1 + extra = (f + extra) + 1 := by omega
    rw [hadd]
    unfold TinyJsonParser.parseLoop at h ⊢
    simp only at h ⊢
    cases hcur : TinyJsonParser.Current input (TinyJsonParser.Trim input c) with
    | none => rw [hcur] at h; exact h
    | some ch =>
      rw [hcur] at h
      simp only at h ⊢
      by_cases hb : (ch == cRBrace) = true
      · simp only [hb, if_true] at h ⊢
        exact h
      · have hb2 : (ch == cRBrace) = false := Bool.eq_false_iff.2 hb
        simp only [hb2, Bool.false_eq_true, if_false] at h ⊢
        rcases hkv : TinyJsonParser.ParseKeyValue input (TinyJsonParser.Trim input c) with
          ⟨okv, c2⟩
        rw [hkv] at h
        cases okv with
        | none => exact h
        | some kv =>
          simp only at h ⊢
          cases hcur2 : TinyJsonParser.Current input (TinyJsonParser.Trim input c2) with
          | none => rw [hcur2] at h; exact h
          | some ch2 =>
            rw [hcur2] at h
            simp only at h ⊢
            by_cases hcm : (ch2 == cComma) = true
            · simp only [hcm, if_true] at h ⊢
              rcases hcons : TinyJsonParser.Consume input (TinyJsonParser.Trim input c2) cComma
                with ⟨ok, c4⟩
              rw [hcons] at h
              cases ok with
              | false => exact h
              | true => exact ih extra _ _ r h
            · have hcm2 : (ch2 == cComma) = false := Bool.eq_false_iff.2 hcm
              simp only [hcm2, Bool.false_eq_true, if_false] at h ⊢
              exact ih extra _ _ r h

theorem TinyJsonStringBuilder.entry_pairText (d : List Char × List Char) :
    TinyJsonStringBuilder.entry d = TinyJsonStringBuilder.pairText d ++ [cComma] := by
  simp [TinyJsonStringBuilder.entry, TinyJsonStringBuilder.pairText]

theorem TinyJsonStringBuilder.entries_ne_nil (d : List Char × List Char)
    (ds : List (List Char × List Char)) :
    ((d :: ds).map TinyJsonStringBuilder.entry).flatten ≠ [] := by
  simp [TinyJsonStringBuilder.entry]

theorem TinyJsonStringBuilder.entries_dropLast :
    ∀ (ds : List (List Char × List Char)) (d : List Char × List Char),
      (((d :: ds).map TinyJsonStringBuilder.entry).flatten).dropLast ++ [cRBrace] =
        TinyJsonStringBuilder.restText (d :: ds) := by
  intro ds
  induction ds with
  | nil =>
    intro d
    simp only [List.map_cons, List.map_nil, List.flatten_cons, List.flatten_nil, List.append_nil,
      TinyJsonStringBuilder.restText]
    rw [TinyJsonStringBuilder.entry_pairText, List.dropLast_concat]
  | cons e es ih =>
    intro d
    have hne := TinyJsonStringBuilder.entries_ne_nil e es
    have hsplit : ((d :: e :: es).map TinyJsonStringBuilder.entry).flatten =
        TinyJsonStringBuilder.entry d ++ ((e :: es).map TinyJsonStringBuilder.entry).flatten := by
      simp
    rw [hsplit, List.dropLast_append_of_ne_nil _ hne, List.append_assoc, ih e,
      TinyJsonStringBuilder.entry_pairText]
    conv_rhs => unfold TinyJsonStringBuilder.restText
    simp

/-- The text `Build` returns for a builder that holds at least one pair: the
opening brace, the pairs separated by commas, the closing brace. -/
theorem TinyJsonStringBuilder.Build_cons (d : List Char × List Char)
    (ds : List (List Char × List Char)) :
    TinyJsonStringBuilder.Build (d :: ds) = cLBrace :: TinyJsonStringBuilder.restText (d :: ds) := by
  unfold TinyJsonStringBuilder.Build
  simp only
  rw [List.dropLast_cons_of_ne_nil (TinyJsonStringBuilder.entries_ne_nil d ds), List.cons_append,
    TinyJsonStringBuilder.entries_dropLast]

/-- The text `Build` returns ends with the closing brace. -/
theorem TinyJsonStringBuilder.Build_getLast? (data : List (List Char × List Char)) :
    (TinyJsonStringBuilder.Build data).getLast? = some cRBrace := by
  unfold TinyJsonStringBuilder.Build
  simp

/-- The loop of `Parse` over written pairs: with the cursor at the start of a
pair of a built text, or at its closing brace, the loop stores the pairs in
turn and returns at the end of the text. -/
theorem TinyJsonParser.parseLoop_restText (input : List Char) :
    ∀ (ds : List (List Char × List Char)) (fuel c : Nat) (m : TinyJsonMap) (post : List Char),
      input.drop c = TinyJsonStringBuilder.restText ds ++ post → plainPairs ds →
      ds.length < fuel →
      TinyJsonParser.parseLoop input fuel c m =
        some (some (TinyJsonMap.emplaceAll m ds),
          c + (TinyJsonStringBuilder.restText ds).length) := by
  intro ds
  induction ds with
  | nil =>
    intro fuel c m post h _ hf
    obtain ⟨f, rfl⟩ : ∃ f, fuel = f + 1 := ⟨fuel - 1, by omega⟩
    have h0 : input.drop c = cRBrace :: post := h
    have hsp : isspace cRBrace = false := by decide
    unfold TinyJsonParser.parseLoop
    simp only
    rw [TinyJsonParser.Trim_at h0 hsp, TinyJsonParser.Current_at h0]
    simp only [beq_self_eq_true, if_true]
    rw [TinyJsonParser.Consume_at h0]
    rfl
  | cons d ds ih =>
    intro fuel c m post h hp hf
    obtain ⟨f, rfl⟩ : ∃ f, fuel = f + 1 := ⟨fuel - 1, by omega⟩
    simp only [List.length_cons] at hf
    obtain ⟨k, v⟩ := d
    obtain ⟨hk, hkq, hv, hvq⟩ := hp (k, v) (List.mem_cons_self _ _)
    have hps : plainPairs ds := fun p hm => hp p (List.mem_cons_of_mem _ hm)
    have hspq : isspace cQuote = false := by decide
    have hqb : (cQuote == cRBrace) = false := by decide
    cases ds with
    | nil =>
      have h0 : input.drop c =
          cQuote :: k ++ cQuote :: cColon :: cQuote :: v ++ cQuote :: (cRBrace :: post) := by
        rw [h]
        simp [TinyJsonStringBuilder.restText, TinyJsonStringBuilder.pairText]
      have h1 : input.drop c = cQuote :: (k ++ cQuote :: cColon :: cQuote :: v ++
          cQuote :: (cRBrace :: post)) := by rw [h0]; simp
      obtain ⟨e1, d1⟩ := TinyJsonParser.ParseKeyValue_at k v _ h0 hk hkq hv hvq
      have hsp : isspace cRBrace = false := by decide
      have hbc : (cRBrace == cComma) = false := by decide
      have hrest : input.drop (c + k.length + v.length + 5) =
          TinyJsonStringBuilder.restText [] ++ post := d1
      have hih := ih f (c + k.length + v.length + 5) (TinyJsonMap.emplace m k v) post hrest
        hps (by simpa using hf)
      unfold TinyJsonParser.parseLoop
      simp only
      rw [TinyJsonParser.Trim_at h1 hspq, TinyJsonParser.Current_at h1]
      simp only [hqb, Bool.false_eq_true, if_false]
      rw [e1]
      simp only
      rw [TinyJsonParser.Trim_at d1 hsp, TinyJsonParser.Current_at d1]
      simp only [hbc, Bool.false_eq_true, if_false]
      rw [hih]
      simp [TinyJsonMap.emplaceAll, TinyJsonStringBuilder.restText,
        TinyJsonStringBuilder.pairText]
      omega
    | cons e es =>
      have h0 : input.drop c =
          cQuote :: k ++ cQuote :: cColon :: cQuote :: v ++ cQuote ::
            (cComma :: (TinyJsonStringBuilder.restText (e :: es) ++ post)) := by
        rw [h]
        conv_lhs => unfold TinyJsonStringBuilder.restText
        simp [TinyJsonStringBuilder.pairText]
      have h1 : input.drop c = cQuote :: (k ++ cQuote :: cColon :: cQuote :: v ++
          cQuote :: (cComma :: (TinyJsonStringBuilder.restText (e :: es) ++ post))) := by
        rw [h0]; simp
      obtain ⟨e1, d1⟩ := TinyJsonParser.ParseKeyValue_at k v _ h0 hk hkq hv hvq
      have hsp : isspace cComma = false := by decide
      have hrest : input.drop (c + k.length + v.length + 5 + 1) =
          TinyJsonStringBuilder.restText (e :: es) ++ post := drop_next d1
      have hih := ih f (c + k.length + v.length + 5 + 1) (TinyJsonMap.emplace m k v) post hrest
        hps (by simpa using hf)
      unfold TinyJsonParser.parseLoop
      simp only
      rw [TinyJsonParser.Trim_at h1 hspq, TinyJsonParser.Current_at h1]
      simp only [hqb, Bool.false_eq_true, if_false]
      rw [e1]
      simp only
      rw [TinyJsonParser.Trim_at d1 hsp, TinyJsonParser.Current_at d1]
      simp only [beq_self_eq_true, if_true]
      rw [TinyJsonParser.Consume_at d1]
      simp only
      rw [hih]
      have hlen : (TinyJsonStringBuilder.restText ((k, v) :: e :: es)).length =
          k.length + v.length + 5 + 1 + (TinyJsonStringBuilder.restText (e :: es)).length := by
        conv_lhs => unfold TinyJsonStringBuilder.restText
        simp [TinyJsonStringBuilder.pairText]
        omega
      rw [hlen]
      simp only [TinyJsonMap.emplaceAll, List.foldl_cons]
      congr 2
      omega

/-- One pass of the loop of `ParseString` is an `Advance` followed by a
`Current`: `scanLoop` over the characters from the cursor on does what these
two calls do at the cursor. -/
theorem TinyJsonParser.scanLoop_step (input : List Char) (c : Nat) :
    TinyJsonParser.scanLoop (input.drop c) c =
      match TinyJsonParser.Advance input c with
      | (false, c1) => (none, c1)
      | (true, c1) =>
        match TinyJsonParser.Current input c1 with
        | none => (none, c1)
        | some current =>
          if current == cQuote then (some c1, c1)
          else TinyJsonParser.scanLoop (input.drop c1) c1 := by
  unfold TinyJsonParser.Advance
  by_cases hc : c ≥ input.length
  · rw [if_pos hc, List.drop_eq_nil_of_le hc]
    rfl
  · rw [if_neg hc]
    simp only
    have hlt : c < input.length := by omega
    rw [List.drop_eq_getElem_cons hlt]
    by_cases hc1 : c + 1 ≥ input.length
    · rw [TinyJsonParser.Current_end hc1, List.drop_eq_nil_of_le hc1]
      rfl
    · have hlt1 : c + 1 < input.length := by omega
      have hd : input.drop (c + 1) = input[c + 1] :: input.drop (c + 1 + 1) :=
        List.drop_eq_getElem_cons hlt1
      rw [TinyJsonParser.Current_at hd]
      generalize input.drop (c + 1) = tl at hd ⊢
      subst hd
      simp [TinyJsonParser.scanLoop]

theorem TinyJsonParser.trimLoop_spaces :
    ∀ (spaces rest : List Char) (c : Nat), (∀ s ∈ spaces, isspace s = true) →
      TinyJsonParser.trimLoop (spaces ++ rest) c =
        TinyJsonParser.trimLoop rest (c + spaces.length) := by
  intro spaces
  induction spaces with
  | nil => intro rest c _; rfl
  | cons s t ih =>
    intro rest c h
    have hs : isspace s = true := h s (List.mem_cons_self _ _)
    have ht : ∀ x ∈ t, isspace x = true := fun x hx => h x (List.mem_cons_of_mem _ hx)
    rw [List.cons_append]
    simp only [TinyJsonParser.trimLoop, hs, if_true]
    rw [ih rest (c + 1) ht]
    simp only [List.length_cons]
    have : c + 1 + t.length = c + (t.length + 1) := by omega
    rw [this]

/-- With enough passes allowed, `Parse` returns, its cursor within the input;
it returns a map only after it consumed a closing brace, and the keys and
values of the map are parts of the input of at least one character. -/
theorem TinyJsonParser.ParseWithin_total (input : List Char) (fuel : Nat)
    (hf : input.length < fuel) :
    ∃ r c, TinyJsonParser.ParseWithin fuel input = some (r, c) ∧ c ≤ input.length ∧
      ∀ m, r = some m →
        TinyJsonMap.within input m ∧ 1 ≤ c ∧ input[c - 1]? = some cRBrace := by
  unfold TinyJsonParser.ParseWithin
  by_cases he : input.isEmpty = true
  · rw [if_pos he]
    exact ⟨none, 0, rfl, Nat.zero_le _, fun m h => by simp at h⟩
  · rw [if_neg he]
    obtain ⟨_, t2⟩ := TinyJsonParser.Trim_bounds input 0 (Nat.zero_le _)
    simp only
    cases hcur : TinyJsonParser.Current input (TinyJsonParser.Trim input 0) with
    | none => exact ⟨none, _, rfl, t2, fun m h => by simp at h⟩
    | some ch =>
      simp only
      by_cases hb : (ch != cLBrace) = true
      · simp only [hb, if_true]
        exact ⟨none, _, rfl, t2, fun m h => by simp at h⟩
      · have hb2 : (ch != cLBrace) = false := Bool.eq_false_iff.2 hb
        simp only [hb2, Bool.false_eq_true, if_false]
        rcases TinyJsonParser.Consume_cases input (TinyJsonParser.Trim input 0) cLBrace with
          h | ⟨h, hlt, _⟩
        · rw [h]
          exact ⟨none, _, rfl, t2, fun m h => by simp at h⟩
        · rw [h]
          simp only
          obtain ⟨r, c2, e, _, b2, b3⟩ := TinyJsonParser.parseLoop_total input fuel
            (TinyJsonParser.Trim input 0 + 1) [] (by omega) (by omega)
          refine ⟨r, c2, e, b2, ?_⟩
          intro m hm
          obtain ⟨g1, g2, g3⟩ := b3 m hm
          refine ⟨g1 ?_, g2, g3⟩
          intro p hp
          simp at hp

/-- Allowing more passes than `Parse` does changes nothing. -/
theorem TinyJsonParser.ParseWithin_more (input : List Char) (fuel : Nat)
    (hf : input.length < fuel) :
    TinyJsonParser.ParseWithin fuel input = TinyJsonParser.Parse input := by
  obtain ⟨extra, rfl⟩ : ∃ extra, fuel = input.length + 1 + extra := ⟨fuel - (input.length + 1), by omega⟩
  unfold TinyJsonParser.Parse TinyJsonParser.ParseWithin
  by_cases he : input.isEmpty = true
  · rw [if_pos he, if_pos he]
  · rw [if_neg he, if_neg he]
    simp only
    cases hcur : TinyJsonParser.Current input (TinyJsonParser.Trim input 0) with
    | none => rfl
    | some ch =>
      simp only
      by_cases hb : (ch != cLBrace) = true
      · simp only [hb, if_true]
      · have hb2 : (ch != cLBrace) = false := Bool.eq_false_iff.2 hb
        simp only [hb2, Bool.false_eq_true, if_false]
        rcases TinyJsonParser.Consume_cases input (TinyJsonParser.Trim input 0) cLBrace with
          h | ⟨h, hlt, _⟩
        · rw [h]
        · rw [h]
          simp only
          obtain ⟨_, t2⟩ := TinyJsonParser.Trim_bounds input 0 (Nat.zero_le _)
          obtain ⟨r, c2, e, _⟩ := TinyJsonParser.parseLoop_total input (input.length + 1)
            (TinyJsonParser.Trim input 0 + 1) [] (by omega) (by omega)
          rw [e]
          exact TinyJsonParser.parseLoop_more input _ extra _ _ _ e

/-- `Parse` returns `nullopt` when the first character that is not white space
is not the opening brace. -/
theorem TinyJsonParser.Parse_no_open (spaces rest : List Char) (x : Char)
    (hs : ∀ s ∈ spaces, isspace s = true) (hx : isspace x = false) (hb : x ≠ cLBrace) :
    TinyJsonParser.Parse (spaces ++ x :: rest) = some (none, spaces.length) := by
  have ht : TinyJsonParser.Trim (spaces ++ x :: rest) 0 = spaces.length := by
    unfold TinyJsonParser.Trim
    rw [List.drop_zero, TinyJsonParser.trimLoop_spaces spaces (x :: rest) 0 hs]
    unfold TinyJsonParser.trimLoop
    rw [hx]
    simp
  have hd : (spaces ++ x :: rest).drop spaces.length = x :: rest := List.drop_left _ _
  have hne : (x != cLBrace) = true := by simpa using hb
  unfold TinyJsonParser.Parse TinyJsonParser.ParseWithin
  have he : (spaces ++ x :: rest).isEmpty = false := by simp
  rw [he]
  simp only [Bool.false_eq_true, if_false]
  rw [ht, TinyJsonParser.Current_at hd]
  simp only [hne, if_true]

/-- `Parse` returns `nullopt` for an input of white space only. -/
theorem TinyJsonParser.Parse_spaces (spaces : List Char)
    (hs : ∀ s ∈ spaces, isspace s = true) :
    TinyJsonParser.Parse spaces = some (none, spaces.length) := by
  unfold TinyJsonParser.Parse TinyJsonParser.ParseWithin
  by_cases he : spaces.isEmpty = true
  · rw [if_pos he]
    have : spaces = [] := by simpa using he
    subst this
    rfl
  · rw [if_neg he]
    have ht : TinyJsonParser.Trim spaces 0 = spaces.length := by
      unfold TinyJsonParser.Trim
      have := TinyJsonParser.trimLoop_spaces spaces [] 0 hs
      rw [List.append_nil] at this
      rw [List.drop_zero, this]
      simp [TinyJsonParser.trimLoop]
    simp only
    rw [ht, TinyJsonParser.Current_end (Nat.le_refl _)]

theorem TinyJsonStringBuilder.restText_length :
    ∀ ds : List (List Char × List Char),
      ds.length < (TinyJsonStringBuilder.restText ds).length := by
  intro ds
  induction ds with
  | nil => simp [TinyJsonStringBuilder.restText]
  | cons d ds ih =>
    unfold TinyJsonStringBuilder.restText
    cases ds with
    | nil => simp [TinyJsonStringBuilder.restText, TinyJsonStringBuilder.pairText]
    | cons e es =>
      simp only [List.length_append, List.length_cons] at ih ⊢
      omega

/-- `Parse` on the text `Build` returns for at least one pair of plain keys
and values: the pairs are stored in turn and the whole text is read. -/
theorem TinyJsonParser.Parse_Build (d : List Char × List Char)
    (ds : List (List Char × List Char)) (hp : plainPairs (d :: ds)) :
    TinyJsonParser.Parse (TinyJsonStringBuilder.Build (d :: ds)) =
      some (some (TinyJsonMap.emplaceAll [] (d :: ds)),
        (TinyJsonStringBuilder.Build (d :: ds)).length) := by
  rw [TinyJsonStringBuilder.Build_cons]
  have h0 : (cLBrace :: TinyJsonStringBuilder.restText (d :: ds)).drop 0 =
      cLBrace :: TinyJsonStringBuilder.restText (d :: ds) := rfl
  have h1 : (cLBrace :: TinyJsonStringBuilder.restText (d :: ds)).drop (0 + 1) =
      TinyJsonStringBuilder.restText (d :: ds) ++ [] := by simp
  have hsp : isspace cLBrace = false := by decide
  have hlen := TinyJsonStringBuilder.restText_length (d :: ds)
  have hloop := TinyJsonParser.parseLoop_restText
    (cLBrace :: TinyJsonStringBuilder.restText (d :: ds)) (d :: ds)
    ((cLBrace :: TinyJsonStringBuilder.restText (d :: ds)).length + 1) (0 + 1) [] [] h1 hp
    (by simp only [List.length_cons] at hlen ⊢; omega)
  unfold TinyJsonParser.Parse TinyJsonParser.ParseWithin
  have he : (cLBrace :: TinyJsonStringBuilder.restText (d :: ds)).isEmpty = false := rfl
  rw [he]
  simp only [Bool.false_eq_true, if_false]
  rw [TinyJsonParser.Trim_at h0 hsp, TinyJsonParser.Current_at h0]
  simp only [bne_self_eq_false, Bool.false_eq_true, if_false]
  rw [TinyJsonParser.Consume_at h0]
  simp only
  rw [hloop]
  simp only [List.length_cons]
  congr 2
  omega

theorem TinyJsonMap.emplace_new (m : TinyJsonMap) (k v : List Char)
    (h : k ∉ m.map Prod.fst) : TinyJsonMap.emplace m k v = m ++ [(k, v)] := by
  unfold TinyJsonMap.emplace
  rw [if_neg]
  intro hany
  rw [List.any_eq_true] at hany
  obtain ⟨p, hp, hpk⟩ := hany
  have : p.1 = k := by simpa using hpk
  exact h (this ▸ List.mem_map_of_mem Prod.fst hp)

/-- Pairs with distinct keys, none of them stored yet, are all stored, in
their order. -/
theorem TinyJsonMap.emplaceAll_distinct :
    ∀ (ds : List (List Char × List Char)) (m : TinyJsonMap),
      (m.map Prod.fst ++ ds.map Prod.fst).Nodup → TinyJsonMap.emplaceAll m ds = m ++ ds := by
  intro ds
  induction ds with
  | nil => intro m _; simp [TinyJsonMap.emplaceAll]
  | cons d ds ih =>
    intro m h
    obtain ⟨k, v⟩ := d
    have hk : k ∉ m.map Prod.fst := by
      intro hm
      rw [List.nodup_append] at h
      exact h.2.2 hm (by simp)
    have h2 : ((m ++ [(k, v)]).map Prod.fst ++ ds.map Prod.fst).Nodup := by
      simpa using h
    have := ih (m ++ [(k, v)]) h2
    unfold TinyJsonMap.emplaceAll at this ⊢
    rw [List.foldl_cons, TinyJsonMap.emplace_new m k v hk, this]
    simp

/-- `Get` on pairs with distinct keys returns the value stored with the key. -/
theorem TinyJson.Get_of_mem :
    ∀ (data : TinyJsonMap), (data.map Prod.fst).Nodup →
      ∀ p ∈ data, TinyJson.Get data p.1 = some p.2 := by
  intro data
  induction data with
  | nil => intro _ p hp; simp at hp
  | cons d ds ih =>
    intro hn p hp
    rw [List.map_cons, List.nodup_cons] at hn
    unfold TinyJson.Get
    rw [List.find?_cons]
    by_cases hd : (d.1 == p.1) = true
    · rw [hd]
      have hdk : d.1 = p.1 := by simpa using hd
      rcases List.mem_cons.1 hp with h | h
      · rw [h]; rfl
      · exact absurd (hdk ▸ List.mem_map_of_mem Prod.fst h) hn.1
    · have hd2 : (d.1 == p.1) = false := Bool.eq_false_iff.2 hd
      rw [hd2]
      rcases List.mem_cons.1 hp with h | h
      · rw [h] at hd; simp at hd
      · exact ih hn.2 p h

/-- What `Get` returns is stored in the map with the key. -/
theorem TinyJson.Get_mem (data : TinyJsonMap) (k v : List Char)
    (h : TinyJson.Get data k = some v) : (k, v) ∈ data := by
  unfold TinyJson.Get at h
  rw [Option.map_eq_some'] at h
  obtain ⟨p, hp, hv⟩ := h
  have hk : p.1 = k := by simpa using List.find?_some hp
  have hm := List.mem_of_find?_eq_some hp
  rw [← hk, ← hv]
  exact hm

/-! ## Claims on the tiny JSON format -/

/-- C22: `Parse` undoes `Build`. For pairs, at least one, with distinct keys
in which every key and every value is not empty and holds no double quote,
`TinyJson::Parse` applied to the text `Build` returns succeeds and yields those
pairs: `Get` returns the value of each pair for its key, and whatever `Get`
returns for a key is one of the pairs. -/
theorem TinyJson.Parse_undoes_Build (data : List (List Char × List Char)) (hne : data ≠ [])
    (hkeys : (data.map Prod.fst).Nodup)
    (hplain : ∀ p ∈ data, p.1 ≠ [] ∧ cQuote ∉ p.1 ∧ p.2 ≠ [] ∧ cQuote ∉ p.2) :
    TinyJson.Parse (TinyJsonStringBuilder.Build data) = some (some data) ∧
      (∀ p ∈ data, TinyJson.Get data p.1 = some p.2) ∧
      (∀ k v, TinyJson.Get data k = some v → (k, v) ∈ data) := by
  refine ⟨?_, TinyJson.Get_of_mem data hkeys, TinyJson.Get_mem data⟩
  cases data with
  | nil => exact absurd rfl hne
  | cons d ds =>
    unfold TinyJson.Parse
    rw [TinyJsonParser.Parse_Build d ds hplain,
      TinyJsonMap.emplaceAll_distinct (d :: ds) [] (by simpa using hkeys)]
    rfl

/-- Witness for C22: the pairs `a -> b` and `c d -> " e"`. -/
theorem TinyJson.Parse_undoes_Build_witness :
    ([("a".toList, "b".toList), ("c d".toList, " e".toList)] : List (List Char × List Char)) ≠ [] ∧
      (([("a".toList, "b".toList), ("c d".toList, " e".toList)] :
        List (List Char × List Char)).map Prod.fst).Nodup ∧
      (∀ p ∈ ([("a".toList, "b".toList), ("c d".toList, " e".toList)] :
          List (List Char × List Char)),
        p.1 ≠ [] ∧ cQuote ∉ p.1 ∧ p.2 ≠ [] ∧ cQuote ∉ p.2) ∧
      TinyJson.Parse (TinyJsonStringBuilder.Build
          [("a".toList, "b".toList), ("c d".toList, " e".toList)]) =
        some (some [("a".toList, "b".toList), ("c d".toList, " e".toList)]) :=
  ⟨by decide, by decide, by decide,
    (TinyJson.Parse_undoes_Build [("a".toList, "b".toList), ("c d".toList, " e".toList)]
      (by decide) (by decide) (by decide)).1⟩

/-- C23, as stated, fails: for the one pair whose key is `a`, a double quote,
`b` and whose value is `v`, `Build` returns a text between braces which
`TinyJson::Parse` rejects; and for the empty builder `Build` returns the
closing brace alone, which does not start with the opening brace and which
`TinyJson::Parse` rejects. -/
theorem TinyJsonStringBuilder.Build_not_always_parsed :
    TinyJsonStringBuilder.Build [("a\"b".toList, "v".toList)] =
        "\x7b\"a\"b\":\"v\"\x7d".toList ∧
      TinyJson.Parse (TinyJsonStringBuilder.Build [("a\"b".toList, "v".toList)]) = some none ∧
      TinyJsonStringBuilder.Build [] = [cRBrace] ∧
      TinyJson.Parse (TinyJsonStringBuilder.Build []) = some none := by
  refine ⟨by decide, by decide, by decide, by decide⟩

/-- C23, amended: for every builder content of at least one pair the text
`Build` returns starts with the opening brace and ends with the closing brace;
`TinyJson::Parse` accepts it when every key and every value is not empty and
holds no double quote. -/
theorem TinyJsonStringBuilder.Build_braces (data : List (List Char × List Char))
    (hne : data ≠ []) :
    (TinyJsonStringBuilder.Build data).head? = some cLBrace ∧
      (TinyJsonStringBuilder.Build data).getLast? = some cRBrace ∧
      ((∀ p ∈ data, p.1 ≠ [] ∧ cQuote ∉ p.1 ∧ p.2 ≠ [] ∧ cQuote ∉ p.2) →
        ∃ m, TinyJson.Parse (TinyJsonStringBuilder.Build data) = some (some m)) := by
  cases data with
  | nil => exact absurd rfl hne
  | cons d ds =>
    refine ⟨?_, TinyJsonStringBuilder.Build_getLast? _, ?_⟩
    · rw [TinyJsonStringBuilder.Build_cons]
      rfl
    · intro hplain
      refine ⟨TinyJsonMap.emplaceAll [] (d :: ds), ?_⟩
      unfold TinyJson.Parse
      rw [TinyJsonParser.Parse_Build d ds hplain]
      rfl

/-- Witness for C23, amended: two pairs with the same key `k`. -/
theorem TinyJsonStringBuilder.Build_braces_witness :
    ([("k".toList, "v".toList), ("k".toList, "w".toList)] : List (List Char × List Char)) ≠ [] ∧
      (TinyJsonStringBuilder.Build [("k".toList, "v".toList), ("k".toList, "w".toList)]).head? =
        some cLBrace ∧
      (TinyJsonStringBuilder.Build
        [("k".toList, "v".toList), ("k".toList, "w".toList)]).getLast? = some cRBrace :=
  ⟨by decide,
    (TinyJsonStringBuilder.Build_braces [("k".toList, "v".toList), ("k".toList, "w".toList)]
      (by decide)).1,
    (TinyJsonStringBuilder.Build_braces [("k".toList, "v".toList), ("k".toList, "w".toList)]
      (by decide)).2.1⟩

/-- C24: every key and every value in the map a successful `TinyJson::Parse`
returns is a part of the input of at least one character. `ParseString` takes
the character after the opening quote into the string whatever it is, a double
quote too: an object whose only value is the empty string literal is rejected,
also when a second pair follows it, and when the empty string literal is
followed by a comma and a double quote, the value read is these two
characters. -/
theorem TinyJson.Parse_strings_not_empty (input : List Char) :
    (∀ m, TinyJson.Parse input = some (some m) →
      ∀ p ∈ m, (1 ≤ p.1.length ∧ p.1 <:+: input) ∧ (1 ≤ p.2.length ∧ p.2 <:+: input)) ∧
      (∀ (a : Char) (s post : List Char), cQuote ∉ s →
        TinyJsonParser.ParseString (cQuote :: a :: s ++ cQuote :: post) 0 =
          (some (a :: s), s.length + 3)) ∧
      TinyJson.Parse "\x7b\"k\":\"\"\x7d".toList = some none ∧
      TinyJson.Parse "\x7b\"k\":\"\",\"x\":\"y\"\x7d".toList = some none ∧
      TinyJson.Parse "\x7b\"k\":\"\",\"\x7d".toList =
        some (some [("k".toList, "\",".toList)]) := by
  refine ⟨?_, ?_, by decide, by decide, by decide⟩
  · intro m hm
    obtain ⟨r, c, e, _, h⟩ := TinyJsonParser.ParseWithin_total input (input.length + 1)
      (Nat.lt_succ_self _)
    unfold TinyJson.Parse TinyJsonParser.Parse at hm
    rw [e] at hm
    simp only [Option.map_some', Option.some.injEq] at hm
    exact (h m hm).1
  · intro a s post hs
    have h := (TinyJsonParser.ParseString_at a s post
      (show (cQuote :: a :: s ++ cQuote :: post).drop 0 = cQuote :: a :: s ++ cQuote :: post
        from rfl) hs).1
    rw [h]
    simp

/-- C25: `TinyJsonParser::Parse` returns for every input, within the passes
allowed to its loop (allowing more changes nothing), with the cursor within
the input; `Current` and `Consume` read a character only at a cursor below the
length of the input, and `Trim`, `Consume`, `Advance`, `ParseString` and
`ParseKeyValue` leave a cursor that is within the input within it; the keys and
values returned are parts of the input. It returns `nullopt` for the empty
input, for an input of white space only, for an input whose first character
that is not white space is not the opening brace, and it returns a map only
with the cursor right after a closing brace, hence never for an input without
one. -/
theorem TinyJsonParser.Parse_total_in_bounds (input : List Char) :
    (∃ r c, TinyJsonParser.Parse input = some (r, c) ∧ c ≤ input.length ∧
      ∀ m, r = some m →
        (∀ p ∈ m, p.1 <:+: input ∧ p.2 <:+: input) ∧ 1 ≤ c ∧ input[c - 1]? = some cRBrace) ∧
      (∀ fuel, input.length < fuel →
        TinyJsonParser.ParseWithin fuel input = TinyJsonParser.Parse input) ∧
      (∀ c x, TinyJsonParser.Current input c = some x → c < input.length) ∧
      (∀ c x, (TinyJsonParser.Consume input c x).1 = true → c < input.length) ∧
      (∀ c, c ≤ input.length →
        TinyJsonParser.Trim input c ≤ input.length ∧
        (∀ x, (TinyJsonParser.Consume input c x).2 ≤ input.length) ∧
        (TinyJsonParser.Advance input c).2 ≤ input.length ∧
        (TinyJsonParser.ParseString input c).2 ≤ input.length ∧
        (TinyJsonParser.ParseKeyValue input c).2 ≤ input.length) ∧
      TinyJson.Parse [] = some none ∧
      ((∀ s ∈ input, isspace s = true) → TinyJson.Parse input = some none) ∧
      (∀ (spaces rest : List Char) (x : Char), input = spaces ++ x :: rest →
        (∀ s ∈ spaces, isspace s = true) → isspace x = false → x ≠ cLBrace →
        TinyJson.Parse input = some none) ∧
      (cRBrace ∉ input → TinyJson.Parse input = some none) := by
  obtain ⟨r, c, e, hc, h⟩ := TinyJsonParser.ParseWithin_total input (input.length + 1)
    (Nat.lt_succ_self _)
  have e2 : TinyJsonParser.Parse input = some (r, c) := e
  refine ⟨⟨r, c, e2, hc, ?_⟩, TinyJsonParser.ParseWithin_more input, ?_, ?_, ?_, rfl, ?_, ?_, ?_⟩
  · intro m hm
    obtain ⟨g1, g2, g3⟩ := h m hm
    exact ⟨fun p hp => ⟨(g1 p hp).1.2, (g1 p hp).2.2⟩, g2, g3⟩
  · intro c x hx
    exact (TinyJsonParser.Current_some hx).1
  · intro c x hx
    rcases TinyJsonParser.Consume_cases input c x with h1 | ⟨_, h2, _⟩
    · rw [h1] at hx
      simp at hx
    · exact h2
  · intro c hc
    refine ⟨(TinyJsonParser.Trim_bounds input c hc).2, ?_, ?_,
      (TinyJsonParser.ParseString_bounds input c hc).2.1,
      (TinyJsonParser.ParseKeyValue_bounds input c hc).2.1⟩
    · intro x
      rcases TinyJsonParser.Consume_cases input c x with h1 | ⟨h1, h2, _⟩
      · rw [h1]; exact hc
      · rw [h1]; exact h2
    · unfold TinyJsonParser.Advance
      split
      · exact hc
      · simp only; omega
  · intro hs
    unfold TinyJson.Parse
    rw [TinyJsonParser.Parse_spaces input hs]
    rfl
  · intro spaces rest x hi hs hx hb
    unfold TinyJson.Parse
    rw [hi, TinyJsonParser.Parse_no_open spaces rest x hs hx hb]
    rfl
  · intro hno
    unfold TinyJson.Parse
    rw [e2]
    cases r with
    | none => rfl
    | some m =>
      obtain ⟨_, g2, g3⟩ := h m rfl
      exact absurd (List.getElem?_mem g3) hno

end core
